/-
Verification development for the SymbAnaFis repository.

Part 1 embeds the Python helpers of `src/benches/python/bench_runner.py`
(`generate_mixed_complex`, `calculate_speedup`) and proves their structural
properties.

Part 2 models the symbolic-computation kernel (expression model, parser,
differentiation engine, simplification engine, numeric evaluator, anonymous
symbols).  The kernel's own sources are not part of the repository snapshot
(only benchmark harnesses and demos are), so the kernel definitions are
modelled from the specification document, as indicated by their doc comments.
-/
import Mathlib

namespace SymbAnaFis

/-! ## Part 1: `bench_runner.py` helpers -/

/-- The term built for index `i` inside `generate_mixed_complex`
(`bench_runner.py`, lines 54-74): the shape is selected by `i % 5`,
and the numeric pieces use Python's decimal rendering of `i`. -/
def mkTerm (i : Nat) : String :=
  if i % 5 = 0 then toString i ++ "*x^" ++ toString (i % 10 + 1)
  else if i % 5 = 1 then "sin(" ++ toString i ++ "*x)*cos(x)"
  else if i % 5 = 2 then "(exp(x/" ++ toString i ++ ") + ln(x + " ++ toString i ++ "))"
  else if i % 5 = 3 then "(x^2 + " ++ toString i ++ ")/(x + " ++ toString i ++ ")"
  else "sin(exp(x) + " ++ toString i ++ ")"

/-- The operator placed before the term whose 1-based count is `count`
(`bench_runner.py`, lines 89-95). -/
def mixedSep (count : Nat) : String :=
  if count % 3 = 0 then " + "
  else if count % 3 = 1 then " - "
  else " + "

/-- The list of string pieces accumulated in `result` by the join loop of
`generate_mixed_complex` (`bench_runner.py`, lines 77-96): the fold runs over
`enumerate(terms)` where `terms` is built from `range(1, n+1)`. -/
def mixedPieces (n : Nat) : List String :=
  ((List.range' 1 n).map mkTerm).enum.foldl
    (fun acc p =>
      if p.1 = 0 then acc ++ [p.2]
      else acc ++ [mixedSep (p.1 + 1), p.2])
    []

/-- `generate_mixed_complex` from `bench_runner.py` (lines 42-98):
`"".join(result)` of the accumulated pieces. -/
def generate_mixed_complex (n : Nat) : String :=
  String.join (mixedPieces n)

/-- Python exceptions raised by the embedded helpers. -/
inductive PyExc where
  | zeroDivisionError
deriving DecidableEq, Repr

/-- Python's `/` on numbers: raises `ZeroDivisionError` on a zero denominator
(this is true for Python floats as well, unlike IEEE division). -/
def pydiv (a b : ℚ) : Except PyExc ℚ :=
  if b = 0 then .error .zeroDivisionError else .ok (a / b)

/-- Python's `f"{q:.1f}"`: sign, integer digits, one fractional digit.
The rounding mode of binary-float formatting is modelled as rational
round-half-up; no claim depends on the digits produced. -/
def fmt1 (q : ℚ) : String :=
  let tenths : ℤ := round (|q| * 10)
  (if q < 0 then "-" else "") ++ toString (tenths / 10) ++ "." ++ toString (tenths % 10)

/-- `calculate_speedup` from `bench_runner.py` (lines 101-109).  Every `/`
of the source goes through `pydiv`, so the Python `ZeroDivisionError` of
`1/ratio` is visible in the model. -/
def calculate_speedup (sympy_us our_us : ℚ) : Except PyExc String :=
  if our_us ≤ 0 then .ok "N/A"
  else
    match pydiv sympy_us our_us with
    | .error e => .error e
    | .ok ratio =>
      if 1 ≤ ratio then .ok ("**" ++ fmt1 ratio ++ "x** faster")
      else
        match pydiv 1 ratio with
        | .error e => .error e
        | .ok inv => .ok ("-" ++ fmt1 inv ++ "x slower")

theorem range'_concat_general (s n : Nat) :
    List.range' s (n + 1) = List.range' s n ++ [s + n] := by
  induction n generalizing s with
  | zero => simp
  | succ m ih =>
    rw [List.range'_succ, ih (s + 1), List.range'_succ]
    simp [Nat.add_assoc, Nat.add_comm 1 m]

theorem range'_one_concat (n : Nat) :
    List.range' 1 (n + 1) = List.range' 1 n ++ [n + 1] := by
  rw [range'_concat_general]
  simp [Nat.add_comm]

theorem mixedPieces_succ (n : Nat) (h : 1 ≤ n) :
    mixedPieces (n + 1) = mixedPieces n ++ [mixedSep (n + 1), mkTerm (n + 1)] := by
  unfold mixedPieces
  rw [range'_one_concat, List.map_append, List.enum_append]
  simp only [List.map_cons, List.map_nil, List.enumFrom, List.foldl_append,
    List.length_map, List.length_range', List.foldl_cons, List.foldl_nil]
  have hn : ¬ (n = 0) := by omega
  simp [hn]

theorem mixedPieces_structure (n : Nat) (h : 1 ≤ n) :
    mixedPieces n =
      mkTerm 1 :: (List.range' 2 (n - 1)).flatMap (fun k => [mixedSep k, mkTerm k]) := by
  induction n with
  | zero => omega
  | succ m ih =>
    by_cases hm : 1 ≤ m
    · rw [mixedPieces_succ m hm, ih hm]
      have h2 : m + 1 - 1 = (m - 1) + 1 := by omega
      rw [h2, List.range'_concat]
      have h3 : 2 + (m - 1) = m + 1 := by omega
      simp [h3]
    · have hm0 : m = 0 := by omega
      subst hm0
      simp [mixedPieces, List.range', List.enum]

/-- **C9.** For every `n ≥ 1`, `generate_mixed_complex n` is the join of: the
term for index 1, followed by, for each `k = 2, …, n`, a separator and the
term for index `k` (so `n` terms and `n - 1` operators), where the separator
before the `k`-th term is `" - "` exactly when `k % 3 = 1` and `" + "`
otherwise — in particular both the `k % 3 = 0` and the `k % 3 = 2` branches of
the source produce `" + "` — and the shape of each term is chosen by
`i % 5` (built into `mkTerm`). -/
theorem generate_mixed_complex_structure (n : Nat) (h : 1 ≤ n) :
    generate_mixed_complex n =
      String.join
        (mkTerm 1 ::
          (List.range' 2 (n - 1)).flatMap (fun k => [mixedSep k, mkTerm k])) ∧
    (∀ k, mixedSep k = if k % 3 = 1 then " - " else " + ") := by
  constructor
  · unfold generate_mixed_complex
    rw [mixedPieces_structure n h]
  · intro k
    unfold mixedSep
    have h3 : k % 3 < 3 := Nat.mod_lt k (by omega)
    interval_cases h : k % 3 <;> simp

/-- Witness for `generate_mixed_complex_structure` at `n = 7`. -/
theorem generate_mixed_complex_structure_witness :
    generate_mixed_complex 7 =
      String.join
        (mkTerm 1 ::
          (List.range' 2 6).flatMap (fun k => [mixedSep k, mkTerm k])) :=
  (generate_mixed_complex_structure 7 (by decide)).1

/-- **C10.** `calculate_speedup`: `our_us ≤ 0` yields the string `"N/A"`;
for `our_us > 0` and `sympy_us ≠ 0` a formatted string built from the ratio
`sympy_us / our_us` is returned; but for `sympy_us = 0` with `our_us > 0` the
`1/ratio` in the below-one branch raises `ZeroDivisionError` — the zero guard
covers only the denominator argument, not the numerator. -/
theorem calculate_speedup_spec :
    (∀ s o : ℚ, o ≤ 0 → calculate_speedup s o = .ok "N/A") ∧
    (∀ s o : ℚ, 0 < o → s ≠ 0 →
      calculate_speedup s o =
        .ok (if 1 ≤ s / o then "**" ++ fmt1 (s / o) ++ "x** faster"
             else "-" ++ fmt1 (1 / (s / o)) ++ "x slower")) ∧
    (∀ o : ℚ, 0 < o → calculate_speedup 0 o = .error .zeroDivisionError) := by
  refine ⟨?_, ?_, ?_⟩
  · intro s o ho
    simp [calculate_speedup, ho]
  · intro s o ho hs
    have ho' : ¬ o ≤ 0 := not_le.mpr ho
    have hoz : o ≠ 0 := ne_of_gt ho
    have hr : s / o ≠ 0 := div_ne_zero hs hoz
    by_cases h1 : 1 ≤ s / o
    · simp [calculate_speedup, pydiv, ho', hoz, h1]
    · simp [calculate_speedup, pydiv, ho', hoz, h1, hr]
  · intro o ho
    have ho' : ¬ o ≤ 0 := not_le.mpr ho
    have hoz : o ≠ 0 := ne_of_gt ho
    have h1 : ¬ (1 : ℚ) ≤ 0 / o := by simp
    simp [calculate_speedup, pydiv, ho', hoz, h1]

/-- Witness for `calculate_speedup_spec` at concrete inputs: the `"N/A"`
branch at `our_us = 0` and the `ZeroDivisionError` at `sympy_us = 0`,
`our_us = 2`. -/
theorem calculate_speedup_spec_witness :
    calculate_speedup 5 0 = .ok "N/A" ∧
    calculate_speedup 0 2 = .error .zeroDivisionError :=
  ⟨calculate_speedup_spec.1 5 0 le_rfl,
   calculate_speedup_spec.2.2 2 (by norm_num)⟩

/-! ## Part 2: the symbolic kernel, modelled from the spec

The repository snapshot contains no engine code (spec §2: "the observed
sources contain no engine code"), so every definition in this part is
modelled from the specification document `spec.md`, faithful to its words;
each doc comment records the section it comes from. -/

/-- Modelled from the spec (§3, §9, missing from `src/`): the closed
enumeration of builtin function tags — "builtin and special functions
identified by a fixed tag set, not by free-form string dispatch". -/
inductive FuncTag where
  | sin | cos | tan | sinh | cosh | tanh
  | exp | ln | sqrt
  | gamma | digamma | polygamma | erf
  | besselj | bessely | zeta
deriving DecidableEq, Repr

/-- Modelled from the spec (§3, missing from `src/`): the identity of a
`Symbol(id, name?, anonymous)` node.  A named symbol is identified by its
name; an anonymous symbol carries only the process-wide numeric identifier
allocated by the anonymous-symbol factory and has no name, so the two forms
can never be structurally equal. -/
inductive SymName where
  | named (s : String)
  | anon (id : Nat)
deriving DecidableEq, Repr

mutual
/-- Modelled from the spec (§3, missing from `src/`): the immutable tagged
expression tree.  `sum` holds ordered `(coefficient, term)` pairs, `prod`
holds ordered `(exponent, base)` pairs — a constant exponent folds into the
`Product` node and division is the negative exponent −1, the spec's chosen
canonical desugaring — `pow` is reserved for non-constant exponents,
`func` applies a builtin tag to an ordered argument list, and `deriv` is the
retained `Derivative(inner, variable, order)` node. -/
inductive Expr where
  | num (q : ℚ)
  | sym (s : SymName)
  | sum (ms : EPairs)
  | prod (fs : EPairs)
  | pow (b e : Expr)
  | func (f : FuncTag) (args : EList)
  | deriv (inner : Expr) (v : String) (ord : Nat)
deriving DecidableEq
/-- Spine of the rational/expression pairs of `Expr.sum` and `Expr.prod`
(coefficient-and-term, respectively exponent-and-base). -/
inductive EPairs where
  | nil
  | cons (q : ℚ) (t : Expr) (rest : EPairs)
deriving DecidableEq
/-- Spine of the ordered argument list of `Expr.func`. -/
inductive EList where
  | nil
  | cons (t : Expr) (rest : EList)
deriving DecidableEq
end

def EPairs.toList : EPairs → List (ℚ × Expr)
  | .nil => []
  | .cons q t r => (q, t) :: r.toList

def EPairs.ofList : List (ℚ × Expr) → EPairs
  | [] => .nil
  | p :: r => .cons p.1 p.2 (EPairs.ofList r)

def EList.toList : EList → List Expr
  | .nil => []
  | .cons t r => t :: r.toList

def EList.ofList : List Expr → EList
  | [] => .nil
  | t :: r => .cons t (EList.ofList r)

theorem EPairs.toList_ofList (l : List (ℚ × Expr)) : (EPairs.ofList l).toList = l := by
  induction l with
  | nil => rfl
  | cons p r ih => simp [EPairs.ofList, EPairs.toList, ih]

theorem EPairs.ofList_toList : ∀ ps : EPairs, EPairs.ofList ps.toList = ps
  | .nil => rfl
  | .cons q t r => by
    simp [EPairs.ofList, EPairs.toList, EPairs.ofList_toList r]

/-! ### The deterministic structural key (spec §4.3 step 4, §3 invariants)

"Commutative children of `Sum`/`Product` are kept in a deterministic
canonical order (structural-hash order)".  The model's structural key is a
`List ℕ` encoding compared lexicographically. -/

/-- Encoding of an integer into a natural number (sign bit in the low bit). -/
def encInt (z : ℤ) : ℕ := if z < 0 then 2 * z.natAbs + 1 else 2 * z.natAbs

/-- Encoding of a rational as numerator and denominator codes. -/
def encRat (q : ℚ) : List ℕ := [encInt q.num, q.den]

mutual
/-- Modelled from the spec (§4.3 step 4): the deterministic structural key of
an expression, used to order commutative children canonically. -/
def key : Expr → List ℕ
  | .num q => 0 :: encRat q
  | .sym (.named s) => 1 :: 0 :: s.data.map Char.toNat
  | .sym (.anon n) => [1, 1, n]
  | .sum ms => 2 :: keyPairs ms
  | .prod fs => 3 :: keyPairs fs
  | .pow b e => 4 :: (key b ++ key e)
  | .func f args => 5 :: f.toCtorIdx :: keyList args
  | .deriv i v k => 6 :: k :: (v.data.map Char.toNat ++ key i)
def keyPairs : EPairs → List ℕ
  | .nil => []
  | .cons q t r => encRat q ++ key t ++ keyPairs r
def keyList : EList → List ℕ
  | .nil => []
  | .cons t r => key t ++ keyList r
end

/-- Strict lexicographic comparison of structural keys. -/
def lexLt : List ℕ → List ℕ → Bool
  | [], [] => false
  | [], _ :: _ => true
  | _ :: _, [] => false
  | a :: as, b :: bs => if a < b then true else if b < a then false else lexLt as bs

theorem lexLt_irrefl (l : List ℕ) : lexLt l l = false := by
  induction l with
  | nil => rfl
  | cons a as ih => simp [lexLt, ih]

theorem lexLt_cons_iff {x y : ℕ} {xs ys : List ℕ} :
    lexLt (x :: xs) (y :: ys) = true ↔ x < y ∨ (x = y ∧ lexLt xs ys = true) := by
  simp only [lexLt]
  by_cases h1 : x < y
  · simp [h1]
  · by_cases h2 : y < x
    · simp only [if_neg h1, if_pos h2]
      constructor
      · intro h; exact absurd h (by simp)
      · rintro (h | ⟨rfl, -⟩)
        · omega
        · omega
    · have hxy : x = y := by omega
      simp [h1, h2, hxy]

theorem lexLt_cons_false_iff {x y : ℕ} {xs ys : List ℕ} :
    lexLt (x :: xs) (y :: ys) = false ↔ y < x ∨ (x = y ∧ lexLt xs ys = false) := by
  rw [← Bool.not_eq_true, lexLt_cons_iff]
  constructor
  · intro h
    push_neg at h
    by_cases hyx : y < x
    · exact Or.inl hyx
    · have hxy : x = y := by omega
      exact Or.inr ⟨hxy, by simpa using h.2 hxy⟩
  · rintro (h | ⟨rfl, h⟩) <;> push_neg <;> constructor
    · omega
    · intro he; omega
    · omega
    · intro _; simp [h]

theorem lexLt_trans {a b c : List ℕ} (h₁ : lexLt a b = true) (h₂ : lexLt b c = true) :
    lexLt a c = true := by
  induction a generalizing b c with
  | nil =>
    cases c with
    | nil => cases b <;> simp_all [lexLt]
    | cons z zs => simp [lexLt]
  | cons x xs ih =>
    cases b with
    | nil => simp [lexLt] at h₁
    | cons y ys =>
      cases c with
      | nil => simp [lexLt] at h₂
      | cons z zs =>
        rw [lexLt_cons_iff] at h₁ h₂ ⊢
        rcases h₁ with h₁ | ⟨rfl, h₁⟩ <;> rcases h₂ with h₂ | ⟨rfl, h₂⟩
        · exact Or.inl (Nat.lt_trans h₁ h₂)
        · exact Or.inl h₁
        · exact Or.inl h₂
        · exact Or.inr ⟨rfl, ih h₁ h₂⟩

theorem lexLt_asymm {a b : List ℕ} (h : lexLt a b = true) : lexLt b a = false := by
  by_contra hc
  have hba : lexLt b a = true := by
    cases hh : lexLt b a with
    | false => exact absurd hh hc
    | true => rfl
  have h2 := lexLt_trans h hba
  rw [lexLt_irrefl] at h2
  exact Bool.false_ne_true h2

theorem lexLt_total {a b : List ℕ} (h₁ : lexLt a b = false) (h₂ : lexLt b a = false) :
    a = b := by
  induction a generalizing b with
  | nil => cases b <;> simp_all [lexLt]
  | cons x xs ih =>
    cases b with
    | nil => simp [lexLt] at h₂
    | cons y ys =>
      rw [lexLt_cons_false_iff] at h₁ h₂
      rcases h₁ with h₁ | ⟨rfl, h₁⟩ <;> rcases h₂ with h₂ | ⟨h₂e, h₂⟩
      · omega
      · omega
      · omega
      · rw [ih h₁ h₂]

/-! ### Simplification Engine (spec §4.3)

"Ordered rewrite passes run to a fixpoint, bounded by a pass-count ceiling."
The model's single composite pass `norm` performs, per node and in the
spec's order: (1) structural flattening and numeric-literal folding,
(2) like-term / like-factor collection, (3) the identity rewrites of §4.3
step 3, each applied by structural pattern match with a fixed precondition
and canonical output — the Pythagorean identity
(`sin(u)^2 + cos(u)^2 → 1`), perfect-square recognition
(`c·s² + 2·c·k·s + c·k² → c·(s + k)²`), fraction cancellation via
common-factor extraction between a numerator-shaped and a
denominator-shaped factor (`(s² - b²)·(s + b)⁻¹ → s - b`), exponent
combination (`a^m·a^n → a^(m+n)`, `(a^m)^n → a^(m·n)`),
hyperbolic-identity folding (`c·exp(u) ∓ c·exp(-u) → 2·c·sinh/cosh(u)`),
and rational addition over a common denominator
(`c·N₁·d⁻¹ + c·N₂·d⁻¹ → c·(N₁ + N₂)·d⁻¹`) — and (4) canonical reordering
by the structural key.  `simplify` then iterates the pass to a fixpoint
under the ceiling. -/

/-- Like-term / like-factor collection (spec §4.3 step 2) combined with
canonical ordering (step 4): insert a `(coefficient/exponent, atom)` pair
into a key-ordered collected list, merging equal atoms by adding their
rational parts and dropping the pair when they cancel to zero. -/
def insertPair (c : ℚ) (t : Expr) : List (ℚ × Expr) → List (ℚ × Expr)
  | [] => [(c, t)]
  | (c', t') :: rest =>
    if t = t' then (if c + c' = 0 then rest else (c + c', t) :: rest)
    else if lexLt (key t) (key t') then (c, t) :: (c', t') :: rest
    else (c', t') :: insertPair c t rest

/-- Collect a list of pairs, skipping zero coefficients/exponents. -/
def collectPairs (l : List (ℚ × Expr)) : List (ℚ × Expr) :=
  l.foldl (fun acc p => if p.1 = 0 then acc else insertPair p.1 p.2 acc) []

/-- The canonical atom `sin(u)^2` (a single-factor product with constant
exponent 2, per the data model's constant-exponent folding). -/
def sinSqAtom (u : Expr) : Expr := .prod (.cons 2 (.func .sin (.cons u .nil)) .nil)

/-- The canonical atom `cos(u)^2`. -/
def cosSqAtom (u : Expr) : Expr := .prod (.cons 2 (.func .cos (.cons u .nil)) .nil)

/-- If `t` is the canonical atom `sin(u)^2`, return `u`. -/
def sinSqArg : Expr → Option Expr
  | .prod (.cons q (.func .sin (.cons u .nil)) .nil) => if q = 2 then some u else none
  | _ => none

/-- Pythagorean identity search (spec §4.3 step 3): find a coefficient `c`
and argument `u` such that both `c·sin(u)^2` and `c·cos(u)^2` occur in the
collected term list. -/
def pythagFind (l : List (ℚ × Expr)) : Option (ℚ × Expr) :=
  l.findSome? (fun p =>
    match sinSqArg p.2 with
    | some u => if (p.1, cosSqAtom u) ∈ l then some (p.1, u) else none
    | none => none)

/-- One application of the Pythagorean rewrite
`c·sin(u)^2 + c·cos(u)^2 → c·1` on a collected term list. -/
def pythagStep (l : List (ℚ × Expr)) : Option (List (ℚ × Expr)) :=
  match pythagFind l with
  | none => none
  | some (c, u) =>
    some (insertPair c (.num 1) ((l.erase (c, sinSqAtom u)).erase (c, cosSqAtom u)))

/-- Modelled from the spec (§4.3 step 3 "perfect-square recognition"): the
canonical square atom `s^2` of a symbol (a single-factor product with
constant exponent 2). -/
def symSqAtom (s : SymName) : Expr := .prod (.cons 2 (.sym s) .nil)

/-- If `t` is the square `s^2` of a symbol, return `s`. -/
def symSqArg : Expr → Option SymName
  | .prod (.cons q (.sym s) .nil) => if q = 2 then some s else none
  | _ => none

/-- The canonical linear form `s + k` (for `k ≠ 0`): a two-term sum whose
constant part rides on the atom `1` (the structural key orders `Number`
before `Symbol`). -/
def linAtom (s : SymName) (k : ℚ) : Expr :=
  .sum (.cons k (.num 1) (.cons 1 (.sym s) .nil))

/-- The canonical square `(s + k)^2`. -/
def linSqAtom (s : SymName) (k : ℚ) : Expr := .prod (.cons 2 (linAtom s k) .nil)

/-- The coefficient carried by the atom `t` in a collected term list. -/
def lookupAtom (t : Expr) (l : List (ℚ × Expr)) : Option ℚ :=
  l.findSome? (fun r => if r.2 = t then some r.1 else none)

/-- Perfect-square search (spec §4.3 step 3): find terms `c·s²`, `c₂·s` and
`c·k²·1` in the collected term list, where `k = c₂/(2·c) ≠ 0` — the fixed
precondition of `c·s² + 2·c·k·s + c·k² = c·(s + k)²`. -/
def perfectSqFind (l : List (ℚ × Expr)) : Option (ℚ × ℚ × SymName) :=
  l.findSome? (fun (p : ℚ × Expr) =>
    match symSqArg p.2 with
    | some s =>
      match lookupAtom (.sym s) l with
      | some c₂ =>
        if p.1 ≠ 0 ∧ c₂ / (2 * p.1) ≠ 0 ∧
            (p.1 * (c₂ / (2 * p.1)) ^ 2, Expr.num 1) ∈ l
        then some (p.1, c₂ / (2 * p.1), s) else none
      | none => none
    | none => none)

/-- One application of the perfect-square rewrite
`c·s² + 2·c·k·s + c·k² → c·(s + k)²` on a collected term list. -/
def perfectSqStep (l : List (ℚ × Expr)) : Option (List (ℚ × Expr)) :=
  match perfectSqFind l with
  | none => none
  | some (c, k, s) =>
    some (insertPair c (linSqAtom s k)
      (((l.erase (c, symSqAtom s)).erase (2 * c * k, .sym s)).erase
        (c * k ^ 2, .num 1)))

/-- The canonical negation `-u` of an atom: a one-term sum with
coefficient `-1`. -/
def negAtom (u : Expr) : Expr := .sum (.cons (-1) u .nil)

/-- The canonical function atom `exp(u)`. -/
def expAtom (u : Expr) : Expr := .func .exp (.cons u .nil)

/-- The canonical function atom `sinh(u)`. -/
def sinhAtom (u : Expr) : Expr := .func .sinh (.cons u .nil)

/-- The canonical function atom `cosh(u)`. -/
def coshAtom (u : Expr) : Expr := .func .cosh (.cons u .nil)

/-- If `t` is the atom `exp(u)`, return `u`. -/
def expArg : Expr → Option Expr
  | .func .exp (.cons u .nil) => some u
  | _ => none

/-- Hyperbolic-identity search (spec §4.3 step 3 "hyperbolic-identity
folding"): find `c·exp(u)` together with `-c·exp(-u)` (the `sinh`
precondition, flag `true`) or together with `c·exp(-u)` (the `cosh`
precondition, flag `false`) in the collected term list. -/
def hypFoldFind (l : List (ℚ × Expr)) : Option (ℚ × Expr × Bool) :=
  l.findSome? (fun (p : ℚ × Expr) =>
    match expArg p.2 with
    | some u =>
      if (-p.1, expAtom (negAtom u)) ∈ l then some (p.1, u, true)
      else if (p.1, expAtom (negAtom u)) ∈ l then some (p.1, u, false)
      else none
    | none => none)

/-- One application of the hyperbolic folding
`c·exp(u) - c·exp(-u) → 2·c·sinh(u)` rsp.
`c·exp(u) + c·exp(-u) → 2·c·cosh(u)` on a collected term list. -/
def hypFoldStep (l : List (ℚ × Expr)) : Option (List (ℚ × Expr)) :=
  match hypFoldFind l with
  | none => none
  | some (c, u, true) =>
    some (insertPair (2 * c) (sinhAtom u)
      ((l.erase (c, expAtom u)).erase (-c, expAtom (negAtom u))))
  | some (c, u, false) =>
    some (insertPair (2 * c) (coshAtom u)
      ((l.erase (c, expAtom u)).erase (c, expAtom (negAtom u))))

/-- The canonical difference of squares `s² - b²` (the key order places the
constant atom `1` before the square atom). -/
def diffSqAtom (s : SymName) (b : ℚ) : Expr :=
  .sum (.cons (-(b * b)) (.num 1) (.cons 1 (symSqAtom s) .nil))

/-- If `t` is a two-term sum `a·1 + s²`, return `s` and `a`. -/
def diffSqParts : Expr → Option (SymName × ℚ)
  | .sum (.cons a u (.cons c v .nil)) =>
    match u, v with
    | .num q, .prod (.cons e (.sym s) .nil) =>
      if q = 1 ∧ c = 1 ∧ e = 2 then some (s, a) else none
    | _, _ => none
  | _ => none

/-- If `t` is the two-term sum `b·1 + s`, return `s` and `b`. -/
def linParts : Expr → Option (SymName × ℚ)
  | .sum (.cons b u (.cons c v .nil)) =>
    match u, v with
    | .num q, .sym s => if q = 1 ∧ c = 1 then some (s, b) else none
    | _, _ => none
  | _ => none

/-- Fraction-cancellation search on a collected factor list (spec §4.3
step 3 "fraction cancellation via common-factor/GCD extraction between a
`Sum`'s numerator-shaped and denominator-shaped factors"): find a
numerator-shaped factor `(s² - b²)^1` and a denominator-shaped factor
`(s + b)^(-1)` with `b ≠ 0`, the fixed precondition of
`(s² - b²)/(s + b) = s - b`. -/
def prodCancelFind (l : List (ℚ × Expr)) : Option (SymName × ℚ) :=
  l.findSome? (fun (p : ℚ × Expr) =>
    match diffSqParts p.2 with
    | some (s, a) =>
      if p.1 = 1 then
        l.findSome? (fun (r : ℚ × Expr) =>
          match linParts r.2 with
          | some (s₂, b) =>
            if s₂ = s ∧ r.1 = -1 ∧ b ≠ 0 ∧ a = -(b * b) then some (s, b)
            else none
          | none => none)
      else none
    | none => none)

/-- One application of the cancellation
`(s² - b²)·(s + b)⁻¹ → s + (-b)` on a collected factor list. -/
def prodCancelStep (l : List (ℚ × Expr)) : Option (List (ℚ × Expr)) :=
  match prodCancelFind l with
  | none => none
  | some (s, b) =>
    some (insertPair 1 (linAtom s (-b))
      ((l.erase (1, diffSqAtom s b)).erase (-1, linAtom s b)))

/-- Apply the cancellation until no instance remains (fuel-bounded; the
fuel `l.length` suffices because every step shortens the list). -/
def prodCancelLoop : ℕ → List (ℚ × Expr) → List (ℚ × Expr)
  | 0, l => l
  | n + 1, l =>
    match prodCancelStep l with
    | none => l
    | some l₂ => prodCancelLoop n l₂

/-- Rebuild an expression from a collected term list, collapsing the
degenerate shapes (spec §3 invariant "numeric literals are always folded
into a single `Number`"): no terms is `0`, a lone constant term is a
`Number`, a lone coefficient-1 term is the term itself. -/
def mkSumResult : List (ℚ × Expr) → Expr
  | [] => .num 0
  | [(c, t)] =>
    if t = .num 1 then .num c else if c = 1 then t else .sum (.cons c t .nil)
  | l => .sum (EPairs.ofList l)

/-- Scale every coefficient of a term list by `k`. -/
def scaleMonos (k : ℚ) (l : List (ℚ × Expr)) : List (ℚ × Expr) :=
  l.map (fun p => (k * p.1, p.2))

/-- Multiply a canonical expression by a nonzero rational constant `k`,
placing the constant in a `Sum` coefficient slot (the data model's only home
for a multiplicative constant) and distributing it over an existing `Sum`. -/
def scaleExpr (k : ℚ) (p : Expr) : Expr :=
  if k = 1 then p
  else
    match p with
    | .num q => .num (k * q)
    | .sum ms => mkSumResult (scaleMonos k ms.toList)
    | _ => mkSumResult [(k, p)]

/-- Numeric-base folding condition: a constant base `q` raised to the
constant exponent `e` folds into a literal exactly when `e` is an integer
and the fold is not a division by the literal zero (spec §4.3 edge-case
policy: `0` to a negative power is left unevaluated for the evaluator to
reject). -/
def foldableNum (q e : ℚ) : Prop := e.den = 1 ∧ (q ≠ 0 ∨ 0 ≤ e)

instance (q e : ℚ) : Decidable (foldableNum q e) := by
  unfold foldableNum
  infer_instance

/-- Rebuild an expression from a numeric coefficient and a collected factor
list: `0·…` collapses to `0`, an empty factor list to the coefficient, a
lone exponent-1 factor to its base, and a non-1 coefficient is attached via
`scaleExpr`. -/
def mkProdResult (k : ℚ) : List (ℚ × Expr) → Expr
  | [] => if k = 0 then .num 0 else .num k
  | [(e, b)] =>
    if k = 0 then .num 0
    else if e = 1 then scaleExpr k b
    else scaleExpr k (.prod (.cons e b .nil))
  | l => if k = 0 then .num 0 else scaleExpr k (.prod (EPairs.ofList l))

/-- Structural flattening of one summand (spec §4.3 step 1): a numeric term
folds into the constant slot (as a multiple of the atom `1`), a nested `Sum`
is merged with its coefficients distributed, anything else is an atom. -/
def monoExpand (p : ℚ × Expr) : List (ℚ × Expr) :=
  match p.2 with
  | .num q => [(p.1 * q, .num 1)]
  | .sum ms => scaleMonos p.1 ms.toList
  | _ => [p]

/-- Structural flattening of one factor (spec §4.3 step 1 and the exponent
combination `(a^m)^n → a^(m·n)` of step 3): a foldable numeric base
contributes to the numeric coefficient, a nested `Product` is merged with
its exponents multiplied, anything else is a factor atom. -/
def factorExpand (p : ℚ × Expr) : ℚ × List (ℚ × Expr) :=
  match p.2 with
  | .num q => if foldableNum q p.1 then (q ^ p.1.num, []) else (1, [p])
  | .prod fs => (1, fs.toList.map (fun r => (r.1 * p.1, r.2)))
  | _ => (1, [p])

/-- Flatten a factor list, separating the numeric coefficient. -/
def flattenFactors (l : List (ℚ × Expr)) : ℚ × List (ℚ × Expr) :=
  l.foldr
    (fun p acc =>
      ((factorExpand p).1 * acc.1, (factorExpand p).2 ++ acc.2))
    (1, [])

/-- After collection merged exponents of equal bases, numeric bases whose
merged exponent became foldable are folded into the coefficient
(e.g. `2^(1/2) · 2^(1/2) → 2`). -/
def foldNumFactors : List (ℚ × Expr) → ℚ × List (ℚ × Expr)
  | [] => (1, [])
  | (e, b) :: rest =>
    let acc := foldNumFactors rest
    match b with
    | .num q =>
      if foldableNum q e then (q ^ e.num * acc.1, acc.2) else (acc.1, (e, b) :: acc.2)
    | _ => (acc.1, (e, b) :: acc.2)

/-- The flatten/collect/refold pipeline of a `Product` node, returning the
numeric coefficient and the collected factor list. -/
def prodFactors (l : List (ℚ × Expr)) : ℚ × List (ℚ × Expr) :=
  ((flattenFactors l).1 * (foldNumFactors (collectPairs (flattenFactors l).2)).1,
   (foldNumFactors (collectPairs (flattenFactors l).2)).2)

/-- Rebuild a `Product` from a factor list without the cancellation loop;
used to form the single merged fraction of the rational-addition rewrite,
whose precondition separately demands that no cancellation remains in the
result. -/
def rebuildProd (l : List (ℚ × Expr)) : Expr :=
  mkProdResult (prodFactors l).1 (prodFactors l).2

/-- If `t` is a `Product` containing a factor with exponent `-1`, return
the first such base — the denominator of the fraction-shaped product. -/
def fracDenom : Expr → Option Expr
  | .prod fs => (fs.toList.find? (fun r => decide (r.1 = -1))).map (fun r => r.2)
  | _ => none

/-- The numerator of a fraction-shaped product: the product of its factors
with the denominator factor `d⁻¹` removed. -/
def fracNumer (t d : Expr) : Expr :=
  match t with
  | .prod fs => mkProdResult 1 (fs.toList.erase (-1, d))
  | _ => .num 1

/-- The collected monomial list of the merged numerator `N₁ + N₂` of two
fraction-shaped terms over the common denominator `d`. -/
def fracMergeList (t₁ t₂ d : Expr) : List (ℚ × Expr) :=
  collectPairs (monoExpand (1, fracNumer t₁ d) ++ monoExpand (1, fracNumer t₂ d))

/-- The merged fraction `(N₁ + N₂)·d⁻¹` of two fraction-shaped terms over
the common denominator `d`. -/
def fracMerge (t₁ t₂ d : Expr) : Expr :=
  rebuildProd [(1, mkSumResult (fracMergeList t₁ t₂ d)), (-1, d)]

/-- A merged fraction re-enters the term list as at most one monomial
exactly when it is not a sum of two or more terms. -/
def smallMono : Expr → Bool
  | .sum (.cons _ _ (.cons _ _ _)) => false
  | _ => true

/-- Rational-addition search (spec §4.3 step 3 "rational addition over a
common denominator"): find two distinct fraction-shaped terms with the
same coefficient and the same denominator — the fixed precondition further
demands that the merged fraction is irreducible for the other identity
rewrites and re-enters the list as at most one monomial. -/
def ratAddFind (l : List (ℚ × Expr)) : Option (ℚ × Expr × Expr × Expr) :=
  l.findSome? (fun (p : ℚ × Expr) =>
    match fracDenom p.2 with
    | some d =>
      l.findSome? (fun (r : ℚ × Expr) =>
        if r.2 ≠ p.2 ∧ fracDenom r.2 = some d ∧ r.1 = p.1 ∧
            pythagFind (fracMergeList p.2 r.2 d) = none ∧
            perfectSqFind (fracMergeList p.2 r.2 d) = none ∧
            hypFoldFind (fracMergeList p.2 r.2 d) = none ∧
            (∀ x ∈ fracMergeList p.2 r.2 d, fracDenom x.2 = none) ∧
            prodCancelFind (prodFactors
              [(1, mkSumResult (fracMergeList p.2 r.2 d)), (-1, d)]).2 = none ∧
            smallMono (fracMerge p.2 r.2 d) = true
        then some (p.1, p.2, r.2, d) else none)
    | none => none)

/-- One application of the rational addition
`c·N₁·d⁻¹ + c·N₂·d⁻¹ → c·(N₁ + N₂)·d⁻¹` on a collected term list. -/
def ratAddStep (l : List (ℚ × Expr)) : Option (List (ℚ × Expr)) :=
  match ratAddFind l with
  | none => none
  | some (c, t₁, t₂, d) =>
    some ((scaleMonos c (monoExpand (1, fracMerge t₁ t₂ d))).foldl
      (fun a p => if p.1 = 0 then a else insertPair p.1 p.2 a)
      ((l.erase (c, t₁)).erase (c, t₂)))

/-- One identity-rewrite step on a collected term list (spec §4.3 step 3),
trying the term-level rewrites in a fixed order: Pythagorean identity,
perfect-square recognition, hyperbolic folding, rational addition. -/
def sumIdentStep (l : List (ℚ × Expr)) : Option (List (ℚ × Expr)) :=
  match pythagStep l with
  | some l₂ => some l₂
  | none =>
    match perfectSqStep l with
    | some l₂ => some l₂
    | none =>
      match hypFoldStep l with
      | some l₂ => some l₂
      | none => ratAddStep l

/-- Apply the term-level identity rewrites until none fires (fuel-bounded;
the fuel `l.length` suffices because every step shortens the list). -/
def sumIdentLoop : ℕ → List (ℚ × Expr) → List (ℚ × Expr)
  | 0, l => l
  | n + 1, l =>
    match sumIdentStep l with
    | none => l
    | some l₂ => sumIdentLoop n l₂

/-- The full `Sum`-node pass over already-normalized summands: flatten,
collect, apply the term-level identity rewrites, rebuild. -/
def buildSum (pairs : List (ℚ × Expr)) : Expr :=
  let c := collectPairs (pairs.flatMap monoExpand)
  mkSumResult (sumIdentLoop c.length c)

/-- The full `Product`-node pass over already-normalized bases: flatten,
collect like factors (`a^m·a^n → a^(m+n)`, spec §4.3 step 3), apply the
fraction cancellation, refold numeric bases, rebuild. -/
def buildProd (pairs : List (ℚ × Expr)) : Expr :=
  let c := collectPairs (flattenFactors pairs).2
  let cl := prodCancelLoop c.length c
  mkProdResult ((flattenFactors pairs).1 * (foldNumFactors cl).1)
    (foldNumFactors cl).2

/-- Power-node pass: a constant exponent folds into a `Product` node (spec
§3: "exponentiation by a constant folds into the same node"); a non-constant
exponent keeps the dedicated `Pow` node. -/
def mkPow (b e : Expr) : Expr :=
  match e with
  | .num q => buildProd [(q, b)]
  | _ => .pow b e

mutual
/-- Modelled from the spec (§4.3, missing from `src/`): one composite
rewrite pass — bottom-up normalization of every node. -/
def norm : Expr → Expr
  | .num q => .num q
  | .sym s => .sym s
  | .sum ms => buildSum (normPairs ms)
  | .prod fs => buildProd (normPairs fs)
  | .pow b e => mkPow (norm b) (norm e)
  | .func f args => .func f (normArgs args)
  | .deriv i v k => .deriv (norm i) v k
def normPairs : EPairs → List (ℚ × Expr)
  | .nil => []
  | .cons q t r => (q, norm t) :: normPairs r
def normArgs : EList → EList
  | .nil => .nil
  | .cons t r => .cons (norm t) (normArgs r)
end

/-- Modelled from the spec (§4.3, missing from `src/`): the pass-count
ceiling bounding the rewrite loop ("bounded by a pass-count ceiling to
guarantee termination").  The spec does not fix the number; the model uses
100. -/
def passCeiling : ℕ := 100

/-- The rewrite loop: run passes until none changes the tree or the
fuel (the pass-count ceiling) is exhausted, in which case the best normal
form reached is returned (spec §4.3: a soft failure, not an error). -/
def simplifyLoop : ℕ → Expr → Expr
  | 0, e => e
  | n + 1, e =>
    let e₂ := norm e
    if e₂ = e then e else simplifyLoop n e₂

/-- Modelled from the spec (§4.3, §6, missing from `src/`): the public
simplification entry point on expressions — deterministic, total, bounded
by the pass ceiling. -/
def simplify (e : Expr) : Expr := simplifyLoop passCeiling e

/-! ### The canonical-form invariant

`Canon e` captures the normal forms produced by the pass: bottom-up
canonical nodes whose commutative children are collected, key-ordered,
and irreducible for the modelled identity rewrites.  The two directions
`canon_norm : Canon (norm e)` and `norm_of_canon : Canon e → norm e = e`
give idempotence of the pass and hence of `simplify`. -/

/-- `e` is not a `Number` literal. -/
def NotNumE : Expr → Prop
  | .num _ => False
  | _ => True

/-- `e` is not a `Product` node. -/
def NotProdE : Expr → Prop
  | .prod _ => False
  | _ => True

/-- Valid atom of a collected `Sum` list: not a nested `Sum`, and the only
allowed `Number` is the constant carrier `1`. -/
def sumAtomShape : Expr → Prop
  | .num q => q = 1
  | .sum _ => False
  | _ => True

/-- Valid `(exponent, base)` factor of a collected `Product` list: the base
is not a nested `Product`, and a `Number` base is only kept when it is not
foldable into the numeric coefficient. -/
def prodBaseShape (p : ℚ × Expr) : Prop :=
  match p.2 with
  | .num q => ¬ foldableNum q p.1
  | .prod _ => False
  | _ => True

/-- Key order between collected pairs (`≤` as the negation of strict `>`). -/
def keyLE (p r : ℚ × Expr) : Prop := lexLt (key r.2) (key p.2) = false

/-- A collected list: key-ordered, duplicate-free atoms, no zero
coefficients/exponents. -/
def CollectedOK (l : List (ℚ × Expr)) : Prop :=
  l.Pairwise keyLE ∧ l.Pairwise (fun p r => p.2 ≠ r.2) ∧ ∀ p ∈ l, p.1 ≠ 0

/-- Node invariant of a canonical `Sum` (spec §3 invariants and §4.3):
collected children, valid atoms, irreducible for each of the term-level
identity rewrites, and none of the degenerate shapes that `mkSumResult`
collapses. -/
def SumInv (ms : EPairs) : Prop :=
  CollectedOK ms.toList ∧ (∀ p ∈ ms.toList, sumAtomShape p.2) ∧
  pythagFind ms.toList = none ∧ perfectSqFind ms.toList = none ∧
  hypFoldFind ms.toList = none ∧ ratAddFind ms.toList = none ∧
  ms.toList ≠ [] ∧ (∀ c, ms.toList ≠ [(c, .num 1)]) ∧ (∀ t, ms.toList ≠ [(1, t)])

/-- Node invariant of a canonical `Product`: collected children, valid
bases, irreducible for the fraction cancellation, and none of the shapes
`mkProdResult` collapses. -/
def ProdInv (fs : EPairs) : Prop :=
  CollectedOK fs.toList ∧ (∀ p ∈ fs.toList, prodBaseShape p) ∧
  prodCancelFind fs.toList = none ∧
  fs.toList ≠ [] ∧ (∀ b, fs.toList ≠ [(1, b)])

mutual
/-- The canonical-form predicate for the modelled Simplification Engine. -/
def Canon : Expr → Prop
  | .num _ => True
  | .sym _ => True
  | .sum ms => CanonPairs ms ∧ SumInv ms
  | .prod fs => CanonPairs fs ∧ ProdInv fs
  | .pow b e => Canon b ∧ Canon e ∧ NotNumE e
  | .func _ args => CanonArgs args
  | .deriv i _ _ => Canon i
/-- All expressions of a pair spine are canonical. -/
def CanonPairs : EPairs → Prop
  | .nil => True
  | .cons _ t r => Canon t ∧ CanonPairs r
/-- All expressions of an argument spine are canonical. -/
def CanonArgs : EList → Prop
  | .nil => True
  | .cons t r => Canon t ∧ CanonArgs r
end

theorem canonPairs_iff : ∀ ms : EPairs, CanonPairs ms ↔ ∀ p ∈ ms.toList, Canon p.2
  | .nil => by simp [CanonPairs, EPairs.toList]
  | .cons q t r => by
    simp [CanonPairs, EPairs.toList, canonPairs_iff r]

theorem canonArgs_iff : ∀ args : EList, CanonArgs args ↔ ∀ t ∈ args.toList, Canon t
  | .nil => by simp [CanonArgs, EList.toList]
  | .cons t r => by
    simp [CanonArgs, EList.toList, canonArgs_iff r]

/-! ### Properties of collection -/

theorem insertPair_mem (c : ℚ) (t : Expr) :
    ∀ l, ∀ p ∈ insertPair c t l, p.2 = t ∨ p ∈ l
  | [], p, hp => by
    simp [insertPair] at hp
    simp [hp]
  | (c', t') :: rest, p, hp => by
    simp only [insertPair] at hp
    by_cases h1 : t = t'
    · by_cases h2 : c + c' = 0
      · simp only [if_pos h1, if_pos h2] at hp
        exact Or.inr (List.mem_cons_of_mem _ hp)
      · simp only [if_pos h1, if_neg h2] at hp
        rcases List.mem_cons.mp hp with h | h
        · exact Or.inl (by simp [h])
        · exact Or.inr (List.mem_cons_of_mem _ h)
    · by_cases h3 : lexLt (key t) (key t') = true
      · simp only [if_neg h1, if_pos h3] at hp
        rcases List.mem_cons.mp hp with h | h
        · exact Or.inl (by simp [h])
        · exact Or.inr h
      · simp only [if_neg h1, if_neg h3] at hp
        rcases List.mem_cons.mp hp with h | h
        · exact Or.inr (by simp [h])
        · rcases insertPair_mem c t rest p h with h' | h'
          · exact Or.inl h'
          · exact Or.inr (List.mem_cons_of_mem _ h')

theorem insertPair_length (c : ℚ) (t : Expr) :
    ∀ l, (insertPair c t l).length ≤ l.length + 1
  | [] => by simp [insertPair]
  | (c', t') :: rest => by
    simp only [insertPair]
    by_cases h1 : t = t'
    · by_cases h2 : c + c' = 0
      · simp only [if_pos h1, if_pos h2, List.length_cons]
        omega
      · simp [h1, h2]
    · by_cases h3 : lexLt (key t) (key t') = true
      · simp [h1, h3]
      · simp only [if_neg h1, if_neg h3, List.length_cons]
        have := insertPair_length c t rest
        omega

theorem insertPair_nonzero {c : ℚ} {t : Expr} (hc : c ≠ 0) :
    ∀ {l}, (∀ p ∈ l, p.1 ≠ 0) → ∀ p ∈ insertPair c t l, p.1 ≠ 0 := by
  intro l
  induction l with
  | nil =>
    intro _ p hp
    simp [insertPair] at hp
    simp [hp, hc]
  | cons hd rest ih =>
    intro hl p hp
    obtain ⟨c', t'⟩ := hd
    simp only [insertPair] at hp
    by_cases h1 : t = t'
    · by_cases h2 : c + c' = 0
      · simp only [if_pos h1, if_pos h2] at hp
        exact hl p (List.mem_cons_of_mem _ hp)
      · simp only [if_pos h1, if_neg h2] at hp
        rcases List.mem_cons.mp hp with h | h
        · simp [h, h2]
        · exact hl p (List.mem_cons_of_mem _ h)
    · by_cases h3 : lexLt (key t) (key t') = true
      · simp only [if_neg h1, if_pos h3] at hp
        rcases List.mem_cons.mp hp with h | h
        · simp [h, hc]
        · exact hl p h
      · simp only [if_neg h1, if_neg h3] at hp
        rcases List.mem_cons.mp hp with h | h
        · exact hl _ (by simp [h])
        · exact ih (fun r hr => hl r (List.mem_cons_of_mem _ hr)) p h

theorem insertPair_sorted {c : ℚ} {t : Expr} :
    ∀ {l}, l.Pairwise keyLE → (insertPair c t l).Pairwise keyLE := by
  intro l
  induction l with
  | nil =>
    intro _
    simp [insertPair]
  | cons hd rest ih =>
    intro hl
    obtain ⟨c', t'⟩ := hd
    rw [List.pairwise_cons] at hl
    obtain ⟨hhd, hrest⟩ := hl
    simp only [insertPair]
    by_cases h1 : t = t'
    · by_cases h2 : c + c' = 0
      · simp only [if_pos h1, if_pos h2]
        exact hrest
      · simp only [if_pos h1, if_neg h2]
        rw [List.pairwise_cons]
        refine ⟨fun r hr => ?_, hrest⟩
        have := hhd r hr
        simpa [keyLE, h1] using this
    · by_cases h3 : lexLt (key t) (key t') = true
      · simp only [if_neg h1, if_pos h3]
        rw [List.pairwise_cons]
        constructor
        · intro r hr
          rcases List.mem_cons.mp hr with h | h
          · simp only [h, keyLE]
            exact lexLt_asymm h3
          · have h4 := hhd r h
            simp only [keyLE] at h4 ⊢
            by_contra hc2
            have h5 : lexLt (key r.2) (key t) = true := by
              cases hh : lexLt (key r.2) (key t) with
              | false => exact absurd hh hc2
              | true => rfl
            have h6 := lexLt_trans h5 h3
            rw [h4] at h6
            exact Bool.false_ne_true h6
        · rw [List.pairwise_cons]
          exact ⟨hhd, hrest⟩
      · simp only [if_neg h1, if_neg h3]
        rw [List.pairwise_cons]
        constructor
        · intro r hr
          rcases insertPair_mem c t rest r hr with h | h
          · simp only [keyLE, h]
            exact Bool.eq_false_iff.mpr h3
          · exact hhd r h
        · exact ih hrest

theorem insertPair_distinct {c : ℚ} {t : Expr} :
    ∀ {l}, l.Pairwise keyLE → l.Pairwise (fun p r => p.2 ≠ r.2) →
      (insertPair c t l).Pairwise (fun p r => p.2 ≠ r.2) := by
  intro l
  induction l with
  | nil =>
    intro _ _
    simp [insertPair]
  | cons hd rest ih =>
    intro hs hd2
    obtain ⟨c', t'⟩ := hd
    rw [List.pairwise_cons] at hs hd2
    obtain ⟨hs1, hs2⟩ := hs
    obtain ⟨hd1, hd2'⟩ := hd2
    simp only [insertPair]
    by_cases h1 : t = t'
    · by_cases h2 : c + c' = 0
      · simp only [if_pos h1, if_pos h2]
        exact hd2'
      · simp only [if_pos h1, if_neg h2]
        rw [List.pairwise_cons]
        refine ⟨fun r hr => ?_, hd2'⟩
        have := hd1 r hr
        simpa [h1] using this
    · by_cases h3 : lexLt (key t) (key t') = true
      · simp only [if_neg h1, if_pos h3]
        rw [List.pairwise_cons]
        constructor
        · intro r hr
          rcases List.mem_cons.mp hr with h | h
          · simp [h]
            exact h1
          · intro hrt
            have h4 := hs1 r h
            simp only [keyLE] at h4
            rw [← hrt] at h4
            rw [h4] at h3
            exact Bool.false_ne_true h3
        · rw [List.pairwise_cons]
          exact ⟨hd1, hd2'⟩
      · simp only [if_neg h1, if_neg h3]
        rw [List.pairwise_cons]
        constructor
        · intro r hr
          rcases insertPair_mem c t rest r hr with h | h
          · rw [h]
            exact fun hh => h1 hh.symm
          · exact hd1 r h
        · exact ih hs2 hd2'

theorem insertPair_append {c : ℚ} {t : Expr} :
    ∀ {l}, (∀ p ∈ l, lexLt (key t) (key p.2) = false) → (∀ p ∈ l, p.2 ≠ t) →
      insertPair c t l = l ++ [(c, t)] := by
  intro l
  induction l with
  | nil =>
    intro _ _
    simp [insertPair]
  | cons hd rest ih =>
    intro hle hne
    obtain ⟨c', t'⟩ := hd
    have h1 : ¬ (t = t') := fun h => hne (c', t') (by simp) (by simp [h])
    have h3 : ¬ (lexLt (key t) (key t') = true) := by
      have := hle (c', t') (by simp)
      simp [this]
    simp only [insertPair, if_neg h1, if_neg h3]
    rw [ih (fun p hp => hle p (List.mem_cons_of_mem _ hp))
        (fun p hp => hne p (List.mem_cons_of_mem _ hp))]
    simp

theorem collect_go_id :
    ∀ (l acc : List (ℚ × Expr)),
      (acc ++ l).Pairwise keyLE → (acc ++ l).Pairwise (fun p r => p.2 ≠ r.2) →
      (∀ p ∈ acc ++ l, p.1 ≠ 0) →
      l.foldl (fun a p => if p.1 = 0 then a else insertPair p.1 p.2 a) acc = acc ++ l := by
  intro l
  induction l with
  | nil =>
    intro acc _ _ _
    simp
  | cons p l' ih =>
    intro acc hs hd hnz
    have hp0 : ¬ (p.1 = 0) := hnz p (by simp)
    have hcross := (List.pairwise_append.mp hs).2.2
    have hdcross := (List.pairwise_append.mp hd).2.2
    have hstep : insertPair p.1 p.2 acc = acc ++ [p] := by
      apply insertPair_append
      · intro r hr
        have := hcross r hr p (by simp)
        simpa [keyLE] using this
      · intro r hr
        exact hdcross r hr p (by simp)
    simp only [List.foldl_cons, if_neg hp0, hstep]
    have hassoc : acc ++ p :: l' = (acc ++ [p]) ++ l' := by simp
    rw [hassoc] at hs hd hnz ⊢
    exact ih (acc ++ [p]) hs hd hnz

theorem collectPairs_id {l : List (ℚ × Expr)} (h : CollectedOK l) : collectPairs l = l := by
  obtain ⟨h1, h2, h3⟩ := h
  have := collect_go_id l [] (by simpa using h1) (by simpa using h2) (by simpa using h3)
  simpa [collectPairs] using this

theorem collect_go_ok (P : Expr → Prop) :
    ∀ (l acc : List (ℚ × Expr)),
      CollectedOK acc → (∀ p ∈ acc, P p.2) → (∀ p ∈ l, P p.2) →
      CollectedOK (l.foldl (fun a p => if p.1 = 0 then a else insertPair p.1 p.2 a) acc) ∧
      (∀ p ∈ l.foldl (fun a p => if p.1 = 0 then a else insertPair p.1 p.2 a) acc, P p.2) := by
  intro l
  induction l with
  | nil =>
    intro acc hok hP _
    exact ⟨hok, hP⟩
  | cons p l' ih =>
    intro acc hok hP hPl
    simp only [List.foldl_cons]
    by_cases hp0 : p.1 = 0
    · rw [if_pos hp0]
      exact ih acc hok hP (fun r hr => hPl r (List.mem_cons_of_mem _ hr))
    · rw [if_neg hp0]
      obtain ⟨hs, hd, hnz⟩ := hok
      apply ih
      · exact ⟨insertPair_sorted hs, insertPair_distinct hs hd,
          insertPair_nonzero hp0 hnz⟩
      · intro r hr
        rcases insertPair_mem p.1 p.2 acc r hr with h | h
        · rw [h]
          exact hPl p (by simp)
        · exact hP r h
      · exact fun r hr => hPl r (List.mem_cons_of_mem _ hr)

theorem collectPairs_ok (P : Expr → Prop) (l : List (ℚ × Expr))
    (hP : ∀ p ∈ l, P p.2) :
    CollectedOK (collectPairs l) ∧ (∀ p ∈ collectPairs l, P p.2) := by
  have := collect_go_ok P l [] ⟨by simp, by simp, by simp⟩ (by simp) hP
  simpa [collectPairs] using this

theorem collect_go_length :
    ∀ (l acc : List (ℚ × Expr)),
      (l.foldl (fun a p => if p.1 = 0 then a else insertPair p.1 p.2 a) acc).length ≤
        acc.length + l.length := by
  intro l
  induction l with
  | nil =>
    intro acc
    simp
  | cons p r ih =>
    intro acc
    simp only [List.foldl_cons, List.length_cons]
    by_cases hp : p.1 = 0
    · rw [if_pos hp]
      have := ih acc
      omega
    · rw [if_neg hp]
      have h1 := ih (insertPair p.1 p.2 acc)
      have h2 := insertPair_length p.1 p.2 acc
      omega

theorem negAtom_ne (u : Expr) : negAtom u ≠ u := by
  intro h
  have h2 := congrArg sizeOf h
  simp only [negAtom, Expr.sum.sizeOf_spec, EPairs.cons.sizeOf_spec,
    EPairs.nil.sizeOf_spec] at h2
  omega

theorem mem_scaleMonos {k c : ℚ} {t : Expr} {l : List (ℚ × Expr)} (hk : k ≠ 0) :
    (k * c, t) ∈ scaleMonos k l ↔ (c, t) ∈ l := by
  constructor
  · intro h
    obtain ⟨r, hr, hre⟩ := List.mem_map.mp h
    have h1 : k * r.1 = k * c := congrArg Prod.fst hre
    have h2 : r.2 = t := congrArg Prod.snd hre
    have h3 : r.1 = c := mul_left_cancel₀ hk h1
    have h4 : r = (c, t) := by
      rw [Prod.ext_iff]
      exact ⟨h3, h2⟩
    rw [← h4]
    exact hr
  · intro h
    exact List.mem_map.mpr ⟨(c, t), h, rfl⟩

/-! ### Properties of the Pythagorean rewrite -/

theorem sinSqArg_eq {t u : Expr} (h : sinSqArg t = some u) : t = sinSqAtom u := by
  unfold sinSqArg at h
  split at h
  · rename_i q u'
    by_cases hq : q = 2
    · rw [if_pos hq] at h
      injection h with h'
      subst h'
      simp [sinSqAtom, hq]
    · rw [if_neg hq] at h
      exact absurd h (by simp)
  · exact absurd h (by simp)

theorem sinSq_ne_cosSq (u : Expr) : sinSqAtom u ≠ cosSqAtom u := by
  simp [sinSqAtom, cosSqAtom]

theorem pythagFind_some {l : List (ℚ × Expr)} {c : ℚ} {u : Expr}
    (h : pythagFind l = some (c, u)) :
    (c, sinSqAtom u) ∈ l ∧ (c, cosSqAtom u) ∈ l := by
  unfold pythagFind at h
  obtain ⟨l₁, a, l₂, heq, hfa, -⟩ := List.findSome?_eq_some_iff.mp h
  have hal : a ∈ l := by
    rw [heq]
    simp
  rcases hsa : sinSqArg a.2 with _ | u'
  · rw [hsa] at hfa
    simp at hfa
  · rw [hsa] at hfa
    have hfa' : (if (a.1, cosSqAtom u') ∈ l then some (a.1, u') else none) = some (c, u) :=
      hfa
    by_cases hmem : (a.1, cosSqAtom u') ∈ l
    · rw [if_pos hmem] at hfa'
      injection hfa' with h2
      have hc : a.1 = c := congrArg Prod.fst h2
      have hu : u' = u := congrArg Prod.snd h2
      have ha2 : a.2 = sinSqAtom u := by
        rw [sinSqArg_eq hsa, hu]
      subst hc
      subst hu
      refine ⟨?_, hmem⟩
      have : a = (a.1, sinSqAtom u') := by
        rw [← ha2]
      rw [← this]
      exact hal
    · rw [if_neg hmem] at hfa'
      simp at hfa'

theorem pythagFind_singleton (c : ℚ) (t : Expr) : pythagFind [(c, t)] = none := by
  rcases hf : pythagFind [(c, t)] with _ | p
  · rfl
  · obtain ⟨c', u⟩ := p
    obtain ⟨h1, h2⟩ := pythagFind_some hf
    simp only [List.mem_singleton] at h1 h2
    have e1 : sinSqAtom u = t := congrArg Prod.snd h1
    have e2 : cosSqAtom u = t := congrArg Prod.snd h2
    exact absurd (e1.trans e2.symm) (sinSq_ne_cosSq u)

theorem pythagFind_scale {l : List (ℚ × Expr)} {k : ℚ} (hk : k ≠ 0)
    (h : pythagFind l = none) : pythagFind (scaleMonos k l) = none := by
  unfold pythagFind at h ⊢
  rw [List.findSome?_eq_none_iff] at h ⊢
  intro x hx
  obtain ⟨p, hp, hpx⟩ := List.mem_map.mp hx
  rcases hsa : sinSqArg x.2 with _ | u
  · simp [hsa]
  · simp only [hsa]
    show (if (x.1, cosSqAtom u) ∈ scaleMonos k l then some (x.1, u) else none) = none
    have hx2 : x.2 = p.2 := by rw [← hpx]
    have hfp := h p hp
    rw [hx2] at hsa
    rw [hsa] at hfp
    have hfp' : (if (p.1, cosSqAtom u) ∈ l then some (p.1, u) else none) = none := hfp
    by_cases hmem : (x.1, cosSqAtom u) ∈ scaleMonos k l
    · exfalso
      obtain ⟨r, hr, hrx⟩ := List.mem_map.mp hmem
      have hr2 : r.2 = cosSqAtom u := congrArg Prod.snd hrx
      have hr1 : k * r.1 = x.1 := congrArg Prod.fst hrx
      have hx1 : x.1 = k * p.1 := by rw [← hpx]
      have hrp : r.1 = p.1 := by
        apply mul_left_cancel₀ hk
        rw [hr1, hx1]
      have : (p.1, cosSqAtom u) ∈ l := by
        have : r = (p.1, cosSqAtom u) := by
          rw [Prod.ext_iff]
          exact ⟨hrp, hr2⟩
        rw [← this]
        exact hr
      rw [if_pos this] at hfp'
      simp at hfp'
    · simp [hmem]

theorem pythagStep_none_iff {l : List (ℚ × Expr)} :
    pythagStep l = none ↔ pythagFind l = none := by
  unfold pythagStep
  rcases hf : pythagFind l with _ | p
  · simp
  · obtain ⟨c, u⟩ := p
    simp

theorem pythagStep_ok (P : Expr → Prop) (hP1 : P (.num 1))
    {l l₂ : List (ℚ × Expr)} (h : pythagStep l = some l₂)
    (hok : CollectedOK l) (hP : ∀ p ∈ l, P p.2) :
    CollectedOK l₂ ∧ (∀ p ∈ l₂, P p.2) ∧ l₂.length < l.length := by
  unfold pythagStep at h
  rcases hf : pythagFind l with _ | p
  · rw [hf] at h
    simp at h
  · obtain ⟨c, u⟩ := p
    rw [hf] at h
    injection h with h
    subst h
    obtain ⟨hmem1, hmem2⟩ := pythagFind_some hf
    obtain ⟨hs, hd, hnz⟩ := hok
    have hc0 : c ≠ 0 := hnz _ hmem1
    set l₁ := (l.erase (c, sinSqAtom u)).erase (c, cosSqAtom u) with hl₁
    have hsub : l₁.Sublist l := ((l.erase (c, sinSqAtom u)).erase_sublist _).trans
      (l.erase_sublist _)
    have hok₁ : CollectedOK l₁ :=
      ⟨hs.sublist hsub, hd.sublist hsub, fun p hp => hnz p (hsub.mem hp)⟩
    have hP₁ : ∀ p ∈ l₁, P p.2 := fun p hp => hP p (hsub.mem hp)
    refine ⟨⟨insertPair_sorted hok₁.1, insertPair_distinct hok₁.1 hok₁.2.1,
        insertPair_nonzero hc0 hok₁.2.2⟩, ?_, ?_⟩
    · intro p hp
      rcases insertPair_mem c (.num 1) l₁ p hp with h' | h'
      · rw [h']
        exact hP1
      · exact hP₁ p h'
    · have hne : ((c, cosSqAtom u) : ℚ × Expr) ≠ (c, sinSqAtom u) := by
        intro hcontra
        injection hcontra with _ h
        exact sinSq_ne_cosSq u h.symm
      have hmem2' : (c, cosSqAtom u) ∈ l.erase (c, sinSqAtom u) :=
        (List.mem_erase_of_ne hne).mpr hmem2
      have hlen1 : (l.erase (c, sinSqAtom u)).length = l.length - 1 :=
        List.length_erase_of_mem hmem1
      have hlen2 : l₁.length = (l.erase (c, sinSqAtom u)).length - 1 :=
        List.length_erase_of_mem hmem2'
      have hlen3 := insertPair_length c (Expr.num 1) l₁
      have hlpos : 1 ≤ l.length := List.length_pos.mpr (List.ne_nil_of_mem hmem1)
      have hpos2 : 1 ≤ (l.erase (c, sinSqAtom u)).length :=
        List.length_pos.mpr (List.ne_nil_of_mem hmem2')
      omega

theorem pythagFind_none_of {l : List (ℚ × Expr)}
    (h : ∀ p ∈ l, sinSqArg p.2 = none) : pythagFind l = none := by
  unfold pythagFind
  rw [List.findSome?_eq_none_iff]
  intro p hp
  simp [h p hp]

/-! ### Properties of the perfect-square rewrite -/

theorem symSqArg_eq {t : Expr} {s : SymName} (h : symSqArg t = some s) :
    t = symSqAtom s := by
  unfold symSqArg at h
  split at h
  · rename_i q s₀
    by_cases hq : q = 2
    · rw [if_pos hq] at h
      injection h with h₂
      subst h₂
      simp [symSqAtom, hq]
    · rw [if_neg hq] at h
      exact absurd h (by simp)
  · exact absurd h (by simp)

theorem lookupAtom_some {t : Expr} {l : List (ℚ × Expr)} {c : ℚ}
    (h : lookupAtom t l = some c) : (c, t) ∈ l := by
  unfold lookupAtom at h
  obtain ⟨l₁, a, l₂, heq, hfa, -⟩ := List.findSome?_eq_some_iff.mp h
  have hal : a ∈ l := by
    rw [heq]
    simp
  by_cases h2 : a.2 = t
  · rw [if_pos h2] at hfa
    injection hfa with h1
    have : a = (c, t) := by
      rw [Prod.ext_iff]
      exact ⟨h1, h2⟩
    rw [← this]
    exact hal
  · rw [if_neg h2] at hfa
    exact absurd hfa (by simp)

theorem lookupAtom_scale {t : Expr} {k : ℚ} (l : List (ℚ × Expr)) :
    lookupAtom t (scaleMonos k l) = (lookupAtom t l).map (fun c => k * c) := by
  induction l with
  | nil => rfl
  | cons p r ih =>
    simp only [scaleMonos, List.map_cons] at ih ⊢
    simp only [lookupAtom, List.findSome?_cons] at ih ⊢
    by_cases h : p.2 = t
    · simp [h]
    · rw [if_neg h, if_neg h]
      exact ih

theorem perfectSqFind_some {l : List (ℚ × Expr)} {c k : ℚ} {s : SymName}
    (h : perfectSqFind l = some (c, k, s)) :
    (c, symSqAtom s) ∈ l ∧ (2 * c * k, Expr.sym s) ∈ l ∧
      (c * k ^ 2, Expr.num 1) ∈ l ∧ c ≠ 0 ∧ k ≠ 0 := by
  unfold perfectSqFind at h
  obtain ⟨l₁, a, l₂, heq, hfa, -⟩ := List.findSome?_eq_some_iff.mp h
  have hal : a ∈ l := by
    rw [heq]
    simp
  rcases hsa : symSqArg a.2 with _ | s₀
  · rw [hsa] at hfa
    simp at hfa
  · simp only [hsa] at hfa
    rcases hla : lookupAtom (.sym s₀) l with _ | c₂
    · simp only [hla] at hfa
      simp at hfa
    · simp only [hla] at hfa
      have hfa' : (if a.1 ≠ 0 ∧ c₂ / (2 * a.1) ≠ 0 ∧
          (a.1 * (c₂ / (2 * a.1)) ^ 2, Expr.num 1) ∈ l
        then some (a.1, c₂ / (2 * a.1), s₀) else none) = some (c, k, s) := hfa
      by_cases hcond : a.1 ≠ 0 ∧ c₂ / (2 * a.1) ≠ 0 ∧
          (a.1 * (c₂ / (2 * a.1)) ^ 2, Expr.num 1) ∈ l
      · rw [if_pos hcond] at hfa'
        injection hfa' with h₁
        have hc : a.1 = c := congrArg Prod.fst h₁
        have hks : (c₂ / (2 * a.1), s₀) = (k, s) := congrArg Prod.snd h₁
        have hk : c₂ / (2 * a.1) = k := congrArg Prod.fst hks
        have hs : s₀ = s := congrArg Prod.snd hks
        obtain ⟨ha0, hk0, hmem3⟩ := hcond
        have hc0 : c ≠ 0 := by
          rw [← hc]
          exact ha0
        have hkk : k ≠ 0 := by
          rw [← hk]
          exact hk0
        refine ⟨?_, ?_, ?_, hc0, hkk⟩
        · have ha2 : a.2 = symSqAtom s := by
            rw [symSqArg_eq hsa, hs]
          have : a = (c, symSqAtom s) := by
            rw [Prod.ext_iff]
            exact ⟨hc, ha2⟩
          rw [← this]
          exact hal
        · have hmem2 := lookupAtom_some hla
          have hck : 2 * c * k = c₂ := by
            rw [← hk, ← hc]
            field_simp
          rw [hck]
          rw [hs] at hmem2
          exact hmem2
        · rw [← hc, ← hk]
          exact hmem3
      · rw [if_neg hcond] at hfa'
        simp at hfa'

theorem perfectSqFind_none_of {l : List (ℚ × Expr)}
    (h : ∀ p ∈ l, symSqArg p.2 = none) : perfectSqFind l = none := by
  unfold perfectSqFind
  rw [List.findSome?_eq_none_iff]
  intro p hp
  simp [h p hp]

theorem perfectSqFind_singleton (c : ℚ) (t : Expr) :
    perfectSqFind [(c, t)] = none := by
  rcases hf : perfectSqFind [(c, t)] with _ | x
  · rfl
  · obtain ⟨c₀, k, s⟩ := x
    obtain ⟨h1, h2, -, -, -⟩ := perfectSqFind_some hf
    simp only [List.mem_singleton] at h1 h2
    have e1 : symSqAtom s = t := congrArg Prod.snd h1
    have e2 : Expr.sym s = t := congrArg Prod.snd h2
    rw [← e2] at e1
    exact absurd e1 (by simp [symSqAtom])

theorem perfectSqFind_scale {l : List (ℚ × Expr)} {κ : ℚ} (hκ : κ ≠ 0)
    (h : perfectSqFind l = none) : perfectSqFind (scaleMonos κ l) = none := by
  unfold perfectSqFind at h ⊢
  rw [List.findSome?_eq_none_iff] at h ⊢
  intro x hx
  obtain ⟨p, hp, hpx⟩ := List.mem_map.mp hx
  have hx2 : x.2 = p.2 := by rw [← hpx]
  have hx1 : x.1 = κ * p.1 := by rw [← hpx]
  rcases hsa : symSqArg x.2 with _ | s
  · simp [hsa]
  · simp only [hsa]
    have hfp := h p hp
    rw [hx2] at hsa
    simp only [hsa] at hfp
    rw [lookupAtom_scale l]
    rcases hla : lookupAtom (.sym s) l with _ | c₂
    · rfl
    · simp only [hla] at hfp
      have hfp' : (if p.1 ≠ 0 ∧ c₂ / (2 * p.1) ≠ 0 ∧
          (p.1 * (c₂ / (2 * p.1)) ^ 2, Expr.num 1) ∈ l
        then some (p.1, c₂ / (2 * p.1), s) else none) = none := hfp
      show (if x.1 ≠ 0 ∧ κ * c₂ / (2 * x.1) ≠ 0 ∧
          (x.1 * (κ * c₂ / (2 * x.1)) ^ 2, Expr.num 1) ∈ scaleMonos κ l
        then some (x.1, κ * c₂ / (2 * x.1), s) else none) = none
      by_cases hcond : x.1 ≠ 0 ∧ κ * c₂ / (2 * x.1) ≠ 0 ∧
          (x.1 * (κ * c₂ / (2 * x.1)) ^ 2, Expr.num 1) ∈ scaleMonos κ l
      · exfalso
        obtain ⟨h0, hkne, hmem⟩ := hcond
        have hp0 : p.1 ≠ 0 := by
          intro hp0
          rw [hx1, hp0, mul_zero] at h0
          exact h0 rfl
        have hdiv : κ * c₂ / (2 * x.1) = c₂ / (2 * p.1) := by
          rw [hx1, show (2 : ℚ) * (κ * p.1) = κ * (2 * p.1) by ring,
            mul_div_mul_left _ _ hκ]
        have hmem₂ : (p.1 * (c₂ / (2 * p.1)) ^ 2, Expr.num 1) ∈ l := by
          rw [hdiv, hx1] at hmem
          rw [show κ * p.1 * (c₂ / (2 * p.1)) ^ 2 =
            κ * (p.1 * (c₂ / (2 * p.1)) ^ 2) by ring] at hmem
          exact (mem_scaleMonos hκ).mp hmem
        have hne₂ : c₂ / (2 * p.1) ≠ 0 := by
          rw [← hdiv]
          exact hkne
        rw [if_pos ⟨hp0, hne₂, hmem₂⟩] at hfp'
        simp at hfp'
      · rw [if_neg hcond]

theorem perfectSqStep_none_iff {l : List (ℚ × Expr)} :
    perfectSqStep l = none ↔ perfectSqFind l = none := by
  unfold perfectSqStep
  rcases hf : perfectSqFind l with _ | x
  · simp
  · obtain ⟨c, k, s⟩ := x
    simp

/-! ### Properties of the hyperbolic folding -/

theorem expArg_eq {t u : Expr} (h : expArg t = some u) : t = expAtom u := by
  unfold expArg at h
  split at h
  · rename_i u₀
    injection h with h₂
    rw [← h₂]
    rfl
  · exact absurd h (by simp)

theorem hypFoldFind_some {l : List (ℚ × Expr)} {c : ℚ} {u : Expr} {fl : Bool}
    (h : hypFoldFind l = some (c, u, fl)) :
    (c, expAtom u) ∈ l ∧
      ((fl = true ∧ (-c, expAtom (negAtom u)) ∈ l) ∨
       (fl = false ∧ (c, expAtom (negAtom u)) ∈ l)) := by
  unfold hypFoldFind at h
  obtain ⟨l₁, a, l₂, heq, hfa, -⟩ := List.findSome?_eq_some_iff.mp h
  have hal : a ∈ l := by
    rw [heq]
    simp
  rcases hea : expArg a.2 with _ | u₀
  · rw [hea] at hfa
    simp at hfa
  · simp only [hea] at hfa
    have hfa' : (if (-a.1, expAtom (negAtom u₀)) ∈ l then some (a.1, u₀, true)
        else if (a.1, expAtom (negAtom u₀)) ∈ l then some (a.1, u₀, false)
        else none) = some (c, u, fl) := hfa
    by_cases hm1 : (-a.1, expAtom (negAtom u₀)) ∈ l
    · rw [if_pos hm1] at hfa'
      injection hfa' with h₁
      have hc : a.1 = c := congrArg Prod.fst h₁
      have huf : (u₀, true) = (u, fl) := congrArg Prod.snd h₁
      have hu : u₀ = u := congrArg Prod.fst huf
      have hfl : true = fl := congrArg Prod.snd huf
      refine ⟨?_, Or.inl ⟨hfl.symm, ?_⟩⟩
      · have : a = (c, expAtom u) := by
          rw [Prod.ext_iff]
          exact ⟨hc, by rw [expArg_eq hea, hu]⟩
        rw [← this]
        exact hal
      · rw [← hc, ← hu]
        exact hm1
    · rw [if_neg hm1] at hfa'
      by_cases hm2 : (a.1, expAtom (negAtom u₀)) ∈ l
      · rw [if_pos hm2] at hfa'
        injection hfa' with h₁
        have hc : a.1 = c := congrArg Prod.fst h₁
        have huf : (u₀, false) = (u, fl) := congrArg Prod.snd h₁
        have hu : u₀ = u := congrArg Prod.fst huf
        have hfl : false = fl := congrArg Prod.snd huf
        refine ⟨?_, Or.inr ⟨hfl.symm, ?_⟩⟩
        · have : a = (c, expAtom u) := by
            rw [Prod.ext_iff]
            exact ⟨hc, by rw [expArg_eq hea, hu]⟩
          rw [← this]
          exact hal
        · rw [← hc, ← hu]
          exact hm2
      · rw [if_neg hm2] at hfa'
        simp at hfa'

theorem hypFoldFind_none_of {l : List (ℚ × Expr)}
    (h : ∀ p ∈ l, expArg p.2 = none) : hypFoldFind l = none := by
  unfold hypFoldFind
  rw [List.findSome?_eq_none_iff]
  intro p hp
  simp [h p hp]

theorem hypFoldFind_singleton {c : ℚ} (hc : c ≠ 0) (t : Expr) :
    hypFoldFind [(c, t)] = none := by
  rcases hf : hypFoldFind [(c, t)] with _ | x
  · rfl
  · obtain ⟨c₀, u, fl⟩ := x
    obtain ⟨h1, h2⟩ := hypFoldFind_some hf
    simp only [List.mem_singleton] at h1
    have ec : c₀ = c := congrArg Prod.fst h1
    have et : expAtom u = t := congrArg Prod.snd h1
    rcases h2 with ⟨-, h2⟩ | ⟨-, h2⟩
    · simp only [List.mem_singleton] at h2
      have ec2 : -c₀ = c := congrArg Prod.fst h2
      rw [ec] at ec2
      exact absurd (show c = 0 by linarith) hc
    · simp only [List.mem_singleton] at h2
      have et2 : expAtom (negAtom u) = t := congrArg Prod.snd h2
      rw [← et] at et2
      have : negAtom u = u := by
        simpa [expAtom] using et2
      exact absurd this (negAtom_ne u)

theorem hypFoldFind_scale {l : List (ℚ × Expr)} {κ : ℚ} (hκ : κ ≠ 0)
    (h : hypFoldFind l = none) : hypFoldFind (scaleMonos κ l) = none := by
  unfold hypFoldFind at h ⊢
  rw [List.findSome?_eq_none_iff] at h ⊢
  intro x hx
  obtain ⟨p, hp, hpx⟩ := List.mem_map.mp hx
  have hx2 : x.2 = p.2 := by rw [← hpx]
  have hx1 : x.1 = κ * p.1 := by rw [← hpx]
  rcases hea : expArg x.2 with _ | u
  · simp [hea]
  · simp only [hea]
    have hfp := h p hp
    rw [hx2] at hea
    simp only [hea] at hfp
    have hfp' : (if (-p.1, expAtom (negAtom u)) ∈ l then some (p.1, u, true)
        else if (p.1, expAtom (negAtom u)) ∈ l then some (p.1, u, false)
        else none) = none := hfp
    have hm1 : ¬ ((-p.1, expAtom (negAtom u)) ∈ l) := by
      intro hm
      rw [if_pos hm] at hfp'
      simp at hfp'
    rw [if_neg hm1] at hfp'
    have hm2 : ¬ ((p.1, expAtom (negAtom u)) ∈ l) := by
      intro hm
      rw [if_pos hm] at hfp'
      simp at hfp'
    show (if (-x.1, expAtom (negAtom u)) ∈ scaleMonos κ l then some (x.1, u, true)
        else if (x.1, expAtom (negAtom u)) ∈ scaleMonos κ l then some (x.1, u, false)
        else none) = none
    have hs1 : ¬ ((-x.1, expAtom (negAtom u)) ∈ scaleMonos κ l) := by
      intro hm
      rw [hx1, show -(κ * p.1) = κ * (-p.1) by ring] at hm
      exact hm1 ((mem_scaleMonos hκ).mp hm)
    have hs2 : ¬ ((x.1, expAtom (negAtom u)) ∈ scaleMonos κ l) := by
      intro hm
      rw [hx1] at hm
      exact hm2 ((mem_scaleMonos hκ).mp hm)
    rw [if_neg hs1, if_neg hs2]

theorem hypFoldStep_none_iff {l : List (ℚ × Expr)} :
    hypFoldStep l = none ↔ hypFoldFind l = none := by
  unfold hypFoldStep
  rcases hf : hypFoldFind l with _ | x
  · simp
  · obtain ⟨c, u, fl⟩ := x
    cases fl <;> simp

/-! ### Properties of the fraction cancellation -/

theorem diffSqParts_eq {t : Expr} {s : SymName} {a : ℚ}
    (h : diffSqParts t = some (s, a)) :
    t = .sum (.cons a (.num 1) (.cons 1 (symSqAtom s) .nil)) := by
  unfold diffSqParts at h
  split at h
  · rename_i a₀ u c v
    split at h
    · rename_i q e s₀
      by_cases hc : q = 1 ∧ c = 1 ∧ e = 2
      · rw [if_pos hc] at h
        injection h with h₁
        have hs : s₀ = s := congrArg Prod.fst h₁
        have ha : a₀ = a := congrArg Prod.snd h₁
        obtain ⟨h1, h2, h3⟩ := hc
        subst h1 h2 h3 hs ha
        rfl
      · rw [if_neg hc] at h
        exact absurd h (by simp)
    · exact absurd h (by simp)
  · exact absurd h (by simp)

theorem linParts_eq {t : Expr} {s : SymName} {b : ℚ}
    (h : linParts t = some (s, b)) : t = linAtom s b := by
  unfold linParts at h
  split at h
  · rename_i b₀ u c v
    split at h
    · rename_i q s₀
      by_cases hc : q = 1 ∧ c = 1
      · rw [if_pos hc] at h
        injection h with h₁
        have hs : s₀ = s := congrArg Prod.fst h₁
        have hb : b₀ = b := congrArg Prod.snd h₁
        obtain ⟨h1, h2⟩ := hc
        subst h1 h2 hs hb
        rfl
      · rw [if_neg hc] at h
        exact absurd h (by simp)
    · exact absurd h (by simp)
  · exact absurd h (by simp)

theorem diffSqParts_diffSqAtom (s : SymName) (b : ℚ) :
    diffSqParts (diffSqAtom s b) = some (s, -(b * b)) := by
  simp [diffSqParts, diffSqAtom, symSqAtom]

theorem linParts_linAtom (s : SymName) (b : ℚ) :
    linParts (linAtom s b) = some (s, b) := by
  simp [linParts, linAtom]

theorem prodCancelFind_some {l : List (ℚ × Expr)} {s : SymName} {b : ℚ}
    (h : prodCancelFind l = some (s, b)) :
    (1, diffSqAtom s b) ∈ l ∧ (-1, linAtom s b) ∈ l ∧ b ≠ 0 := by
  unfold prodCancelFind at h
  obtain ⟨l₁, a, l₂, heq, hfa, -⟩ := List.findSome?_eq_some_iff.mp h
  have hal : a ∈ l := by
    rw [heq]
    simp
  rcases hda : diffSqParts a.2 with _ | x
  · rw [hda] at hfa
    simp at hfa
  · obtain ⟨s₀, a₀⟩ := x
    simp only [hda] at hfa
    by_cases h1 : a.1 = 1
    · rw [if_pos h1] at hfa
      obtain ⟨l₃, r, l₄, heq₂, hfr, -⟩ := List.findSome?_eq_some_iff.mp hfa
      have hrl : r ∈ l := by
        rw [heq₂]
        simp
      rcases hlr : linParts r.2 with _ | y
      · rw [hlr] at hfr
        simp at hfr
      · obtain ⟨s₂, b₀⟩ := y
        simp only [hlr] at hfr
        by_cases hc : s₂ = s₀ ∧ r.1 = -1 ∧ b₀ ≠ 0 ∧ a₀ = -(b₀ * b₀)
        · rw [if_pos hc] at hfr
          injection hfr with h₁
          have hs : s₀ = s := congrArg Prod.fst h₁
          have hb : b₀ = b := congrArg Prod.snd h₁
          obtain ⟨hs₂, hr1, hb0, ha0⟩ := hc
          refine ⟨?_, ?_, by rw [← hb]; exact hb0⟩
          · have ha2 : a.2 = diffSqAtom s b := by
              rw [diffSqParts_eq hda, hs]
              show Expr.sum (.cons a₀ (.num 1) (.cons 1 (symSqAtom s) .nil)) = _
              rw [ha0, hb]
              rfl
            have : a = (1, diffSqAtom s b) := by
              rw [Prod.ext_iff]
              exact ⟨h1, ha2⟩
            rw [← this]
            exact hal
          · have hr2 : r.2 = linAtom s b := by
              rw [linParts_eq hlr, hs₂, hs, hb]
            have : r = (-1, linAtom s b) := by
              rw [Prod.ext_iff]
              exact ⟨hr1, hr2⟩
            rw [← this]
            exact hrl
        · rw [if_neg hc] at hfr
          simp at hfr
    · rw [if_neg h1] at hfa
      simp at hfa

theorem prodCancelFind_not_mem {l : List (ℚ × Expr)} {s : SymName} {b : ℚ}
    (h : prodCancelFind l = none) (h1 : (1, diffSqAtom s b) ∈ l)
    (h2 : (-1, linAtom s b) ∈ l) (hb : b ≠ 0) : False := by
  unfold prodCancelFind at h
  rw [List.findSome?_eq_none_iff] at h
  have hp := h _ h1
  simp only [diffSqParts_diffSqAtom] at hp
  rw [if_pos trivial] at hp
  rw [List.findSome?_eq_none_iff] at hp
  have hr := hp _ h2
  simp [linParts_linAtom, hb] at hr

theorem prodCancelFind_none_of {l : List (ℚ × Expr)}
    (h : ∀ p ∈ l, diffSqParts p.2 = none) : prodCancelFind l = none := by
  unfold prodCancelFind
  rw [List.findSome?_eq_none_iff]
  intro p hp
  simp [h p hp]

theorem prodCancelFind_singleton (e : ℚ) (t : Expr) :
    prodCancelFind [(e, t)] = none := by
  rcases hf : prodCancelFind [(e, t)] with _ | x
  · rfl
  · obtain ⟨s, b⟩ := x
    obtain ⟨h1, h2, -⟩ := prodCancelFind_some hf
    simp only [List.mem_singleton] at h1 h2
    have e1 : (1 : ℚ) = e := congrArg Prod.fst h1
    have e2 : (-1 : ℚ) = e := congrArg Prod.fst h2
    rw [← e2] at e1
    norm_num at e1

theorem prodCancelFind_sublist {l₂ l : List (ℚ × Expr)} (hsub : l₂.Sublist l)
    (h : prodCancelFind l = none) : prodCancelFind l₂ = none := by
  rcases hf : prodCancelFind l₂ with _ | x
  · rfl
  · obtain ⟨s, b⟩ := x
    obtain ⟨h1, h2, hb⟩ := prodCancelFind_some hf
    exact absurd (prodCancelFind_not_mem h (hsub.mem h1) (hsub.mem h2) hb) (by simp)

theorem prodCancelStep_none_iff {l : List (ℚ × Expr)} :
    prodCancelStep l = none ↔ prodCancelFind l = none := by
  unfold prodCancelStep
  rcases hf : prodCancelFind l with _ | x
  · simp
  · obtain ⟨s, b⟩ := x
    simp

/-! ### Properties of the rational addition -/

theorem ratAddFind_some {l : List (ℚ × Expr)} {c : ℚ} {t₁ t₂ d : Expr}
    (h : ratAddFind l = some (c, t₁, t₂, d)) :
    (c, t₁) ∈ l ∧ (c, t₂) ∈ l ∧ t₂ ≠ t₁ ∧
      fracDenom t₁ = some d ∧ fracDenom t₂ = some d ∧
      pythagFind (fracMergeList t₁ t₂ d) = none ∧
      perfectSqFind (fracMergeList t₁ t₂ d) = none ∧
      hypFoldFind (fracMergeList t₁ t₂ d) = none ∧
      (∀ x ∈ fracMergeList t₁ t₂ d, fracDenom x.2 = none) ∧
      prodCancelFind (prodFactors
        [(1, mkSumResult (fracMergeList t₁ t₂ d)), (-1, d)]).2 = none ∧
      smallMono (fracMerge t₁ t₂ d) = true := by
  unfold ratAddFind at h
  obtain ⟨l₁, a, l₂, heq, hfa, -⟩ := List.findSome?_eq_some_iff.mp h
  have hal : a ∈ l := by
    rw [heq]
    simp
  rcases hda : fracDenom a.2 with _ | d₀
  · rw [hda] at hfa
    simp at hfa
  · simp only [hda] at hfa
    obtain ⟨l₃, r, l₄, heq₂, hfr, -⟩ := List.findSome?_eq_some_iff.mp hfa
    have hrl : r ∈ l := by
      rw [heq₂]
      simp
    by_cases hc : r.2 ≠ a.2 ∧ fracDenom r.2 = some d₀ ∧ r.1 = a.1 ∧
        pythagFind (fracMergeList a.2 r.2 d₀) = none ∧
        perfectSqFind (fracMergeList a.2 r.2 d₀) = none ∧
        hypFoldFind (fracMergeList a.2 r.2 d₀) = none ∧
        (∀ x ∈ fracMergeList a.2 r.2 d₀, fracDenom x.2 = none) ∧
        prodCancelFind (prodFactors
          [(1, mkSumResult (fracMergeList a.2 r.2 d₀)), (-1, d₀)]).2 = none ∧
        smallMono (fracMerge a.2 r.2 d₀) = true
    · rw [if_pos hc] at hfr
      injection hfr with h₁
      have hc1 : a.1 = c := congrArg Prod.fst h₁
      have h₂ : (a.2, r.2, d₀) = (t₁, t₂, d) := congrArg Prod.snd h₁
      have ht1 : a.2 = t₁ := congrArg Prod.fst h₂
      have h₃ : (r.2, d₀) = (t₂, d) := congrArg Prod.snd h₂
      have ht2 : r.2 = t₂ := congrArg Prod.fst h₃
      have hd : d₀ = d := congrArg Prod.snd h₃
      obtain ⟨g0, g1, g2, g3, g4, g5, g6, g7, g8⟩ := hc
      subst hc1 ht1 ht2 hd
      refine ⟨?_, ?_, g0, hda, g1, g3, g4, g5, g6, g7, g8⟩
      · exact hal
      · have hre : ((a.1, r.2) : ℚ × Expr) = r := by
          rw [Prod.ext_iff]
          exact ⟨g2.symm, rfl⟩
        rw [hre]
        exact hrl
    · rw [if_neg hc] at hfr
      simp at hfr

theorem ratAddFind_none_of {l : List (ℚ × Expr)}
    (h : ∀ p ∈ l, fracDenom p.2 = none) : ratAddFind l = none := by
  unfold ratAddFind
  rw [List.findSome?_eq_none_iff]
  intro p hp
  simp [h p hp]

theorem ratAddFind_singleton (c : ℚ) (t : Expr) : ratAddFind [(c, t)] = none := by
  rcases hf : ratAddFind [(c, t)] with _ | x
  · rfl
  · obtain ⟨c₀, t₁, t₂, d⟩ := x
    obtain ⟨h1, h2, hne, -⟩ := ratAddFind_some hf
    simp only [List.mem_singleton] at h1 h2
    have e1 : t₁ = t := congrArg Prod.snd h1
    have e2 : t₂ = t := congrArg Prod.snd h2
    exact absurd (e2.trans e1.symm) hne

theorem ratAddFind_scale {l : List (ℚ × Expr)} {κ : ℚ} (hκ : κ ≠ 0)
    (h : ratAddFind l = none) : ratAddFind (scaleMonos κ l) = none := by
  unfold ratAddFind at h ⊢
  rw [List.findSome?_eq_none_iff] at h ⊢
  intro x hx
  obtain ⟨p, hp, hpx⟩ := List.mem_map.mp hx
  have hx2 : x.2 = p.2 := by rw [← hpx]
  have hx1 : x.1 = κ * p.1 := by rw [← hpx]
  rcases hda : fracDenom x.2 with _ | d
  · simp [hda]
  · simp only [hda]
    rw [List.findSome?_eq_none_iff]
    intro y hy
    obtain ⟨r, hr, hry⟩ := List.mem_map.mp hy
    have hy2 : y.2 = r.2 := by rw [← hry]
    have hy1 : y.1 = κ * r.1 := by rw [← hry]
    have hfp := h p hp
    rw [hx2] at hda
    simp only [hda] at hfp
    rw [List.findSome?_eq_none_iff] at hfp
    have hfr := hfp r hr
    rw [hx2, hy2, hx1, hy1]
    by_cases hcnd : r.2 ≠ p.2 ∧ fracDenom r.2 = some d ∧ κ * r.1 = κ * p.1 ∧
        pythagFind (fracMergeList p.2 r.2 d) = none ∧
        perfectSqFind (fracMergeList p.2 r.2 d) = none ∧
        hypFoldFind (fracMergeList p.2 r.2 d) = none ∧
        (∀ x ∈ fracMergeList p.2 r.2 d, fracDenom x.2 = none) ∧
        prodCancelFind (prodFactors
          [(1, mkSumResult (fracMergeList p.2 r.2 d)), (-1, d)]).2 = none ∧
        smallMono (fracMerge p.2 r.2 d) = true
    · exfalso
      obtain ⟨g0, g1, g2, g3⟩ := hcnd
      rw [if_pos ⟨g0, g1, mul_left_cancel₀ hκ g2, g3⟩] at hfr
      exact absurd hfr (by simp)
    · rw [if_neg hcnd]

theorem ratAddStep_none_iff {l : List (ℚ × Expr)} :
    ratAddStep l = none ↔ ratAddFind l = none := by
  unfold ratAddStep
  rcases hf : ratAddFind l with _ | x
  · simp
  · obtain ⟨c, t₁, t₂, d⟩ := x
    simp

/-! ### Canonicity of the node builders -/

theorem scaleMonos_ok {k : ℚ} {l : List (ℚ × Expr)} (hk : k ≠ 0)
    (h : CollectedOK l) : CollectedOK (scaleMonos k l) := by
  obtain ⟨hs, hd, hnz⟩ := h
  refine ⟨?_, ?_, ?_⟩
  · rw [scaleMonos, List.pairwise_map]
    exact hs
  · rw [scaleMonos, List.pairwise_map]
    exact hd
  · intro p hp
    obtain ⟨r, hr, hrp⟩ := List.mem_map.mp hp
    have : p.1 = k * r.1 := by rw [← hrp]
    rw [this]
    exact mul_ne_zero hk (hnz r hr)

theorem scaleMonos_mem_snd {k : ℚ} {l : List (ℚ × Expr)} {p : ℚ × Expr}
    (hp : p ∈ scaleMonos k l) : ∃ r ∈ l, p.2 = r.2 := by
  obtain ⟨r, hr, hrp⟩ := List.mem_map.mp hp
  exact ⟨r, hr, by rw [← hrp]⟩

theorem linAtom_sorted (s : SymName) :
    lexLt (key (.sym s)) (key (.num 1)) = false := by
  cases s with
  | named n =>
    show lexLt (1 :: 0 :: n.data.map Char.toNat) (0 :: encRat 1) = false
    simp [lexLt]
  | anon n =>
    show lexLt [1, 1, n] (0 :: encRat 1) = false
    simp [lexLt]

theorem linAtom_canon (s : SymName) {k : ℚ} (hk : k ≠ 0) : Canon (linAtom s k) := by
  show CanonPairs (.cons k (.num 1) (.cons 1 (.sym s) .nil)) ∧
    SumInv (.cons k (.num 1) (.cons 1 (.sym s) .nil))
  refine ⟨⟨trivial, trivial, trivial⟩, ?_⟩
  refine ⟨⟨?_, ?_, ?_⟩, ?_, ?_, ?_, ?_, ?_, ?_, ?_, ?_⟩
  · show List.Pairwise keyLE [(k, Expr.num 1), (1, Expr.sym s)]
    refine List.pairwise_cons.mpr ⟨?_, by simp⟩
    intro r hr
    simp only [List.mem_singleton] at hr
    rw [hr]
    exact linAtom_sorted s
  · show List.Pairwise (fun p r => p.2 ≠ r.2) [(k, Expr.num 1), (1, Expr.sym s)]
    refine List.pairwise_cons.mpr ⟨?_, by simp⟩
    intro r hr
    simp only [List.mem_singleton] at hr
    rw [hr]
    simp
  · intro p hp
    show p.1 ≠ 0
    have hp₂ : p = (k, Expr.num 1) ∨ p = (1, Expr.sym s) := by
      simpa [EPairs.toList] using hp
    rcases hp₂ with hp₂ | hp₂
    · rw [hp₂]
      exact hk
    · rw [hp₂]
      norm_num
  · intro p hp
    have hp₂ : p = (k, Expr.num 1) ∨ p = (1, Expr.sym s) := by
      simpa [EPairs.toList] using hp
    rcases hp₂ with hp₂ | hp₂
    · rw [hp₂]
      rfl
    · rw [hp₂]
      trivial
  · apply pythagFind_none_of
    intro p hp
    have hp₂ : p = (k, Expr.num 1) ∨ p = (1, Expr.sym s) := by
      simpa [EPairs.toList] using hp
    rcases hp₂ with hp₂ | hp₂
    · rw [hp₂]
      rfl
    · rw [hp₂]
      rfl
  · apply perfectSqFind_none_of
    intro p hp
    have hp₂ : p = (k, Expr.num 1) ∨ p = (1, Expr.sym s) := by
      simpa [EPairs.toList] using hp
    rcases hp₂ with hp₂ | hp₂
    · rw [hp₂]
      rfl
    · rw [hp₂]
      rfl
  · apply hypFoldFind_none_of
    intro p hp
    have hp₂ : p = (k, Expr.num 1) ∨ p = (1, Expr.sym s) := by
      simpa [EPairs.toList] using hp
    rcases hp₂ with hp₂ | hp₂
    · rw [hp₂]
      rfl
    · rw [hp₂]
      rfl
  · apply ratAddFind_none_of
    intro p hp
    have hp₂ : p = (k, Expr.num 1) ∨ p = (1, Expr.sym s) := by
      simpa [EPairs.toList] using hp
    rcases hp₂ with hp₂ | hp₂
    · rw [hp₂]
      rfl
    · rw [hp₂]
      rfl
  · simp [EPairs.toList]
  · intro c
    simp [EPairs.toList]
  · intro t
    simp [EPairs.toList]

theorem linSqAtom_canon (s : SymName) {k : ℚ} (hk : k ≠ 0) :
    Canon (linSqAtom s k) := by
  show CanonPairs (.cons 2 (linAtom s k) .nil) ∧ ProdInv (.cons 2 (linAtom s k) .nil)
  refine ⟨⟨linAtom_canon s hk, trivial⟩, ?_⟩
  refine ⟨⟨?_, ?_, ?_⟩, ?_, ?_, ?_, ?_⟩
  · simp [EPairs.toList]
  · simp [EPairs.toList]
  · intro p hp
    simp only [EPairs.toList, List.mem_singleton] at hp
    rw [hp]
    norm_num
  · intro p hp
    simp only [EPairs.toList, List.mem_singleton] at hp
    rw [hp]
    trivial
  · show prodCancelFind [(2, linAtom s k)] = none
    exact prodCancelFind_singleton _ _
  · simp [EPairs.toList]
  · intro b
    simp only [EPairs.toList]
    intro hcon
    have h1 : ((2 : ℚ), linAtom s k) = (1, b) := by
      injection hcon
    have h2 : (2 : ℚ) = 1 := congrArg Prod.fst h1
    norm_num at h2

theorem mkSumResult_canon {l : List (ℚ × Expr)} (hok : CollectedOK l)
    (hsh : ∀ p ∈ l, sumAtomShape p.2) (hca : ∀ p ∈ l, Canon p.2)
    (hfind : pythagFind l = none) (hfps : perfectSqFind l = none)
    (hfhy : hypFoldFind l = none) (hfra : ratAddFind l = none) :
    Canon (mkSumResult l) := by
  match l with
  | [] => exact trivial
  | [(c, t)] =>
    show Canon (if t = .num 1 then .num c else if c = 1 then t
      else .sum (.cons c t .nil))
    by_cases ht : t = .num 1
    · rw [if_pos ht]
      exact trivial
    · rw [if_neg ht]
      by_cases hc : c = 1
      · rw [if_pos hc]
        exact hca (c, t) (by simp)
      · rw [if_neg hc]
        have hc0 : c ≠ 0 := hok.2.2 (c, t) (by simp)
        show CanonPairs (.cons c t .nil) ∧ SumInv (.cons c t .nil)
        refine ⟨⟨hca (c, t) (by simp), trivial⟩, ?_⟩
        refine ⟨⟨?_, ?_, ?_⟩, ?_, ?_, ?_, ?_, ?_, ?_, ?_, ?_⟩
        · simp [EPairs.toList]
        · simp [EPairs.toList]
        · intro p hp
          simp [EPairs.toList] at hp
          rw [hp]
          exact hc0
        · intro p hp
          simp [EPairs.toList] at hp
          rw [hp]
          exact hsh (c, t) (by simp)
        · show pythagFind [(c, t)] = none
          exact pythagFind_singleton c t
        · show perfectSqFind [(c, t)] = none
          exact perfectSqFind_singleton c t
        · show hypFoldFind [(c, t)] = none
          exact hypFoldFind_singleton hc0 t
        · show ratAddFind [(c, t)] = none
          exact ratAddFind_singleton c t
        · simp [EPairs.toList]
        · intro c'
          simp [EPairs.toList]
          intro _
          exact ht
        · intro t'
          simp [EPairs.toList]
          intro hc'
          exact absurd hc' hc
  | p₁ :: p₂ :: r =>
    show Canon (.sum (EPairs.ofList (p₁ :: p₂ :: r)))
    show CanonPairs (EPairs.ofList (p₁ :: p₂ :: r)) ∧ SumInv (EPairs.ofList (p₁ :: p₂ :: r))
    have htl := EPairs.toList_ofList (p₁ :: p₂ :: r)
    constructor
    · rw [canonPairs_iff, htl]
      exact hca
    · refine ⟨?_, ?_, ?_, ?_, ?_, ?_, ?_, ?_, ?_⟩ <;> rw [htl]
      · exact hok
      · exact hsh
      · exact hfind
      · exact hfps
      · exact hfhy
      · exact hfra
      · simp
      · intro c'
        simp
      · intro t'
        simp

theorem mkSumResult_id {ms : EPairs} (h : SumInv ms) : mkSumResult ms.toList = .sum ms := by
  obtain ⟨hok, hsh, hfind, hfps, hfhy, hfra, hne, hnc, hn1⟩ := h
  rcases hml : ms.toList with _ | ⟨⟨c, t⟩, tl⟩
  · exact absurd hml hne
  · rcases tl with _ | ⟨p₂, r⟩
    · have ht : ¬ (t = .num 1) := by
        intro h'
        exact hnc c (by rw [hml, h'])
      have hc : ¬ (c = 1) := by
        intro h'
        exact hn1 t (by rw [hml, h'])
      show (if t = .num 1 then Expr.num c else if c = 1 then t
        else .sum (.cons c t .nil)) = .sum ms
      rw [if_neg ht, if_neg hc]
      have h2 := EPairs.ofList_toList ms
      rw [hml] at h2
      simp only [EPairs.ofList] at h2
      rw [← h2]
    · show Expr.sum (EPairs.ofList ((c, t) :: p₂ :: r)) = .sum ms
      rw [← hml, EPairs.ofList_toList]

theorem prodBaseShape_notProd {p : ℚ × Expr} (h : prodBaseShape p) : NotProdE p.2 := by
  rcases p with ⟨e, b⟩
  cases b <;> simp_all [prodBaseShape, NotProdE]

theorem scaleExpr_canon {k : ℚ} {p : Expr} (hk : k ≠ 0) (hp : Canon p) :
    Canon (scaleExpr k p) := by
  unfold scaleExpr
  by_cases hk1 : k = 1
  · rw [if_pos hk1]
    exact hp
  · rw [if_neg hk1]
    match p with
    | .num q => exact trivial
    | .sum ms =>
      have h' : CanonPairs ms ∧ SumInv ms := hp
      obtain ⟨hcp, hok, hsh, hfind, hfps, hfhy, hfra, -, -, -⟩ := h'
      apply mkSumResult_canon
      · exact scaleMonos_ok hk hok
      · intro r hr
        obtain ⟨r', hr', hre⟩ := scaleMonos_mem_snd hr
        rw [hre]
        exact hsh r' hr'
      · intro r hr
        obtain ⟨r', hr', hre⟩ := scaleMonos_mem_snd hr
        rw [hre]
        exact (canonPairs_iff ms).mp hcp r' hr'
      · exact pythagFind_scale hk hfind
      · exact perfectSqFind_scale hk hfps
      · exact hypFoldFind_scale hk hfhy
      · exact ratAddFind_scale hk hfra
    | .sym s =>
      apply mkSumResult_canon (l := [(k, .sym s)])
      · exact ⟨by simp, by simp, by simpa using hk⟩
      · intro r hr
        simp at hr
        simp [hr, sumAtomShape]
      · intro r hr
        simp at hr
        rw [hr]
        exact hp
      · exact pythagFind_singleton _ _
      · exact perfectSqFind_singleton _ _
      · exact hypFoldFind_singleton hk _
      · exact ratAddFind_singleton _ _
    | .prod fs =>
      apply mkSumResult_canon (l := [(k, .prod fs)])
      · exact ⟨by simp, by simp, by simpa using hk⟩
      · intro r hr
        simp at hr
        simp [hr, sumAtomShape]
      · intro r hr
        simp at hr
        rw [hr]
        exact hp
      · exact pythagFind_singleton _ _
      · exact perfectSqFind_singleton _ _
      · exact hypFoldFind_singleton hk _
      · exact ratAddFind_singleton _ _
    | .pow b e =>
      apply mkSumResult_canon (l := [(k, .pow b e)])
      · exact ⟨by simp, by simp, by simpa using hk⟩
      · intro r hr
        simp at hr
        simp [hr, sumAtomShape]
      · intro r hr
        simp at hr
        rw [hr]
        exact hp
      · exact pythagFind_singleton _ _
      · exact perfectSqFind_singleton _ _
      · exact hypFoldFind_singleton hk _
      · exact ratAddFind_singleton _ _
    | .func f args =>
      apply mkSumResult_canon (l := [(k, .func f args)])
      · exact ⟨by simp, by simp, by simpa using hk⟩
      · intro r hr
        simp at hr
        simp [hr, sumAtomShape]
      · intro r hr
        simp at hr
        rw [hr]
        exact hp
      · exact pythagFind_singleton _ _
      · exact perfectSqFind_singleton _ _
      · exact hypFoldFind_singleton hk _
      · exact ratAddFind_singleton _ _
    | .deriv i v n =>
      apply mkSumResult_canon (l := [(k, .deriv i v n)])
      · exact ⟨by simp, by simp, by simpa using hk⟩
      · intro r hr
        simp at hr
        simp [hr, sumAtomShape]
      · intro r hr
        simp at hr
        rw [hr]
        exact hp
      · exact pythagFind_singleton _ _
      · exact perfectSqFind_singleton _ _
      · exact hypFoldFind_singleton hk _
      · exact ratAddFind_singleton _ _

theorem scaleExpr_one (p : Expr) : scaleExpr 1 p = p := by
  simp [scaleExpr]

theorem mkProdResult_canon {k : ℚ} {l : List (ℚ × Expr)} (hok : CollectedOK l)
    (hsh : ∀ p ∈ l, prodBaseShape p) (hca : ∀ p ∈ l, Canon p.2)
    (hfind : prodCancelFind l = none) : Canon (mkProdResult k l) := by
  match l with
  | [] =>
    show Canon (if k = 0 then Expr.num 0 else .num k)
    by_cases hk : k = 0 <;> simp only [if_pos, if_neg, hk] <;> exact trivial
  | [(e, b)] =>
    show Canon (if k = 0 then Expr.num 0 else if e = 1 then scaleExpr k b
      else scaleExpr k (.prod (.cons e b .nil)))
    by_cases hk : k = 0
    · rw [if_pos hk]
      exact trivial
    · rw [if_neg hk]
      by_cases he : e = 1
      · rw [if_pos he]
        exact scaleExpr_canon hk (hca (e, b) (by simp))
      · rw [if_neg he]
        apply scaleExpr_canon hk
        show CanonPairs (.cons e b .nil) ∧ ProdInv (.cons e b .nil)
        refine ⟨⟨hca (e, b) (by simp), trivial⟩, ⟨?_, ?_, ?_⟩, ?_, ?_, ?_, ?_⟩
        · simp [EPairs.toList]
        · simp [EPairs.toList]
        · intro p hp
          simp [EPairs.toList] at hp
          rw [hp]
          exact hok.2.2 (e, b) (by simp)
        · intro p hp
          simp [EPairs.toList] at hp
          rw [hp]
          exact hsh (e, b) (by simp)
        · show prodCancelFind [(e, b)] = none
          exact prodCancelFind_singleton _ _
        · simp [EPairs.toList]
        · intro b'
          simp [EPairs.toList]
          intro he'
          exact absurd he' he
  | p₁ :: p₂ :: r =>
    show Canon (if k = 0 then Expr.num 0
      else scaleExpr k (.prod (EPairs.ofList (p₁ :: p₂ :: r))))
    by_cases hk : k = 0
    · rw [if_pos hk]
      exact trivial
    · rw [if_neg hk]
      apply scaleExpr_canon hk
      show CanonPairs (EPairs.ofList (p₁ :: p₂ :: r)) ∧
        ProdInv (EPairs.ofList (p₁ :: p₂ :: r))
      have htl := EPairs.toList_ofList (p₁ :: p₂ :: r)
      constructor
      · rw [canonPairs_iff, htl]
        exact hca
      · refine ⟨?_, ?_, ?_, ?_, ?_⟩ <;> rw [htl]
        · exact hok
        · exact hsh
        · exact hfind
        · simp
        · intro b'
          simp

theorem mkProdResult_id {fs : EPairs} (h : ProdInv fs) :
    mkProdResult 1 fs.toList = .prod fs := by
  obtain ⟨hok, hsh, hfind, hne, hn1⟩ := h
  rcases hml : fs.toList with _ | ⟨⟨e, b⟩, tl⟩
  · exact absurd hml hne
  · rcases tl with _ | ⟨p₂, r⟩
    · have he : ¬ (e = 1) := by
        intro h'
        exact hn1 b (by rw [hml, h'])
      show (if (1 : ℚ) = 0 then Expr.num 0 else if e = 1 then scaleExpr 1 b
        else scaleExpr 1 (.prod (.cons e b .nil))) = .prod fs
      rw [if_neg (by norm_num : ¬ (1 : ℚ) = 0), if_neg he, scaleExpr_one]
      have h2 := EPairs.ofList_toList fs
      rw [hml] at h2
      simp only [EPairs.ofList] at h2
      rw [← h2]
    · show (if (1 : ℚ) = 0 then Expr.num 0
        else scaleExpr 1 (.prod (EPairs.ofList ((e, b) :: p₂ :: r)))) = .prod fs
      rw [if_neg (by norm_num : ¬ (1 : ℚ) = 0), scaleExpr_one, ← hml,
        EPairs.ofList_toList]

/-! ### The flattening steps -/

theorem monoExpand_id {l : List (ℚ × Expr)} (hsh : ∀ p ∈ l, sumAtomShape p.2) :
    l.flatMap monoExpand = l := by
  induction l with
  | nil => rfl
  | cons p r ih =>
    rw [List.flatMap_cons, ih (fun q hq => hsh q (List.mem_cons_of_mem _ hq))]
    have hp := hsh p (by simp)
    rcases p with ⟨c, t⟩
    cases t with
    | num q =>
      have hq : q = 1 := hp
      subst hq
      simp [monoExpand]
    | sum ms => exact absurd hp (by simp [sumAtomShape])
    | sym s => simp [monoExpand]
    | prod fs => simp [monoExpand]
    | pow b e => simp [monoExpand]
    | func f args => simp [monoExpand]
    | deriv i v k => simp [monoExpand]

theorem flattenFactors_cons (p : ℚ × Expr) (r : List (ℚ × Expr)) :
    flattenFactors (p :: r) =
      ((factorExpand p).1 * (flattenFactors r).1,
       (factorExpand p).2 ++ (flattenFactors r).2) := rfl

theorem flattenFactors_id {l : List (ℚ × Expr)} (hsh : ∀ p ∈ l, prodBaseShape p) :
    flattenFactors l = (1, l) := by
  induction l with
  | nil => rfl
  | cons p r ih =>
    rw [flattenFactors_cons, ih (fun q hq => hsh q (List.mem_cons_of_mem _ hq))]
    have hp := hsh p (by simp)
    rcases p with ⟨e, b⟩
    cases b with
    | num q =>
      have hnf : ¬ foldableNum q e := hp
      simp [factorExpand, hnf]
    | prod fs => exact absurd hp (by simp [prodBaseShape])
    | sym s => simp [factorExpand]
    | sum ms => simp [factorExpand]
    | pow b' e' => simp [factorExpand]
    | func f args => simp [factorExpand]
    | deriv i v k => simp [factorExpand]

theorem foldNumFactors_id {l : List (ℚ × Expr)} (hsh : ∀ p ∈ l, prodBaseShape p) :
    foldNumFactors l = (1, l) := by
  induction l with
  | nil => rfl
  | cons p r ih =>
    have ihr := ih (fun q hq => hsh q (List.mem_cons_of_mem _ hq))
    have hp := hsh p (by simp)
    rcases p with ⟨e, b⟩
    cases b with
    | num q =>
      have hnf : ¬ foldableNum q e := hp
      simp [foldNumFactors, hnf, ihr]
    | prod fs => exact absurd hp (by simp [prodBaseShape])
    | sym s => simp [foldNumFactors, ihr]
    | sum ms => simp [foldNumFactors, ihr]
    | pow b' e' => simp [foldNumFactors, ihr]
    | func f args => simp [foldNumFactors, ihr]
    | deriv i v k => simp [foldNumFactors, ihr]

theorem foldNumFactors_sublist : ∀ l : List (ℚ × Expr), (foldNumFactors l).2.Sublist l := by
  intro l
  induction l with
  | nil => simp [foldNumFactors]
  | cons p r ih =>
    rcases p with ⟨e, b⟩
    cases b with
    | num q =>
      by_cases hf : foldableNum q e
      · simp only [foldNumFactors, if_pos hf]
        exact ih.trans (List.sublist_cons_self _ _)
      · simp only [foldNumFactors, if_neg hf]
        exact ih.cons₂ _
    | sym s => exact ih.cons₂ _
    | sum ms => exact ih.cons₂ _
    | prod fs => exact ih.cons₂ _
    | pow b' e' => exact ih.cons₂ _
    | func f args => exact ih.cons₂ _
    | deriv i v k => exact ih.cons₂ _

theorem foldNumFactors_shape :
    ∀ l : List (ℚ × Expr), (∀ p ∈ l, NotProdE p.2) →
      ∀ p ∈ (foldNumFactors l).2, prodBaseShape p := by
  intro l
  induction l with
  | nil => simp [foldNumFactors]
  | cons hd r ih =>
    intro hb p hp
    rcases hd with ⟨e, b⟩
    have hbr : ∀ q ∈ r, NotProdE q.2 := fun q hq => hb q (List.mem_cons_of_mem _ hq)
    cases b with
    | num q =>
      by_cases hf : foldableNum q e
      · simp only [foldNumFactors, if_pos hf] at hp
        exact ih hbr p hp
      · simp only [foldNumFactors, if_neg hf] at hp
        rcases List.mem_cons.mp hp with h | h
        · rw [h]
          exact hf
        · exact ih hbr p h
    | prod fs => exact absurd (hb (e, .prod fs) (by simp)) (by simp [NotProdE])
    | sym s =>
      simp only [foldNumFactors] at hp
      rcases List.mem_cons.mp hp with h | h
      · rw [h]
        simp [prodBaseShape]
      · exact ih hbr p h
    | sum ms =>
      simp only [foldNumFactors] at hp
      rcases List.mem_cons.mp hp with h | h
      · rw [h]
        simp [prodBaseShape]
      · exact ih hbr p h
    | pow b' e' =>
      simp only [foldNumFactors] at hp
      rcases List.mem_cons.mp hp with h | h
      · rw [h]
        simp [prodBaseShape]
      · exact ih hbr p h
    | func f args =>
      simp only [foldNumFactors] at hp
      rcases List.mem_cons.mp hp with h | h
      · rw [h]
        simp [prodBaseShape]
      · exact ih hbr p h
    | deriv i v k =>
      simp only [foldNumFactors] at hp
      rcases List.mem_cons.mp hp with h | h
      · rw [h]
        simp [prodBaseShape]
      · exact ih hbr p h

theorem CollectedOK_sublist {l' l : List (ℚ × Expr)} (hsub : l'.Sublist l)
    (h : CollectedOK l) : CollectedOK l' :=
  ⟨h.1.sublist hsub, h.2.1.sublist hsub, fun p hp => h.2.2 p (hsub.mem hp)⟩

theorem monoExpand_shapes {pairs : List (ℚ × Expr)} (hc : ∀ p ∈ pairs, Canon p.2) :
    ∀ p ∈ pairs.flatMap monoExpand, sumAtomShape p.2 ∧ Canon p.2 := by
  intro p hp
  obtain ⟨r, hr, hpr⟩ := List.mem_flatMap.mp hp
  have hcr := hc r hr
  rcases r with ⟨c, t⟩
  cases t with
  | num q =>
    simp only [monoExpand, List.mem_singleton] at hpr
    rw [hpr]
    exact ⟨rfl, trivial⟩
  | sum ms =>
    simp only [monoExpand] at hpr
    obtain ⟨r', hr', hre⟩ := scaleMonos_mem_snd hpr
    have h' : CanonPairs ms ∧ SumInv ms := hcr
    rw [hre]
    exact ⟨h'.2.2.1 r' hr', (canonPairs_iff ms).mp h'.1 r' hr'⟩
  | sym s =>
    simp only [monoExpand, List.mem_singleton] at hpr
    rw [hpr]
    exact ⟨trivial, hcr⟩
  | prod fs =>
    simp only [monoExpand, List.mem_singleton] at hpr
    rw [hpr]
    exact ⟨trivial, hcr⟩
  | pow b e =>
    simp only [monoExpand, List.mem_singleton] at hpr
    rw [hpr]
    exact ⟨trivial, hcr⟩
  | func f args =>
    simp only [monoExpand, List.mem_singleton] at hpr
    rw [hpr]
    exact ⟨trivial, hcr⟩
  | deriv i v k =>
    simp only [monoExpand, List.mem_singleton] at hpr
    rw [hpr]
    exact ⟨trivial, hcr⟩

theorem factorExpand_shapes {r : ℚ × Expr} (hcr : Canon r.2) :
    ∀ p ∈ (factorExpand r).2, NotProdE p.2 ∧ Canon p.2 := by
  intro p hp
  rcases r with ⟨e, b⟩
  cases b with
  | num q =>
    simp only [factorExpand] at hp
    by_cases hf : foldableNum q e
    · rw [if_pos hf] at hp
      simp at hp
    · rw [if_neg hf] at hp
      simp only [List.mem_singleton] at hp
      rw [hp]
      exact ⟨trivial, trivial⟩
  | prod fs =>
    simp only [factorExpand] at hp
    obtain ⟨r', hr', hre⟩ := List.mem_map.mp hp
    have h' : CanonPairs fs ∧ ProdInv fs := hcr
    have hp2 : p.2 = r'.2 := by rw [← hre]
    rw [hp2]
    exact ⟨prodBaseShape_notProd (h'.2.2.1 r' hr'), (canonPairs_iff fs).mp h'.1 r' hr'⟩
  | sym s =>
    simp only [factorExpand, List.mem_singleton] at hp
    rw [hp]
    exact ⟨trivial, hcr⟩
  | sum ms =>
    simp only [factorExpand, List.mem_singleton] at hp
    rw [hp]
    exact ⟨trivial, hcr⟩
  | pow b' e' =>
    simp only [factorExpand, List.mem_singleton] at hp
    rw [hp]
    exact ⟨trivial, hcr⟩
  | func f args =>
    simp only [factorExpand, List.mem_singleton] at hp
    rw [hp]
    exact ⟨trivial, hcr⟩
  | deriv i v k =>
    simp only [factorExpand, List.mem_singleton] at hp
    rw [hp]
    exact ⟨trivial, hcr⟩

theorem flattenFactors_mem {pairs : List (ℚ × Expr)} :
    ∀ p ∈ (flattenFactors pairs).2, ∃ r ∈ pairs, p ∈ (factorExpand r).2 := by
  induction pairs with
  | nil => simp [flattenFactors]
  | cons hd rest ih =>
    intro p hp
    rw [flattenFactors_cons] at hp
    rcases List.mem_append.mp hp with h | h
    · exact ⟨hd, by simp, h⟩
    · obtain ⟨r, hr, hpr⟩ := ih p h
      exact ⟨r, List.mem_cons_of_mem _ hr, hpr⟩

theorem monoExpand_small {r : Expr} (h : smallMono r = true) :
    (monoExpand (1, r)).length ≤ 1 := by
  cases r with
  | sum ms =>
    cases ms with
    | nil => simp [monoExpand, scaleMonos, EPairs.toList]
    | cons q t rest =>
      cases rest with
      | nil => simp [monoExpand, scaleMonos, EPairs.toList]
      | cons q₂ t₂ rest₂ => exact absurd h (by simp [smallMono])
  | num q => simp [monoExpand]
  | sym s => simp [monoExpand]
  | prod fs => simp [monoExpand]
  | pow b e => simp [monoExpand]
  | func f args => simp [monoExpand]
  | deriv i v k => simp [monoExpand]

theorem fracDenom_some {t d : Expr} (h : fracDenom t = some d) :
    ∃ fs, t = .prod fs ∧ (-1, d) ∈ fs.toList := by
  unfold fracDenom at h
  split at h
  · rename_i fs
    rcases hfind : fs.toList.find? (fun r => decide (r.1 = -1)) with _ | r
    · rw [hfind] at h
      simp at h
    · rw [hfind] at h
      have h₂ : some r.2 = some d := h
      injection h₂ with h₂
      have hr1 : r.1 = -1 := by
        have := List.find?_some hfind
        simpa using this
      have hrm := List.mem_of_find?_eq_some hfind
      refine ⟨fs, rfl, ?_⟩
      have hre : r = (-1, d) := by
        rw [Prod.ext_iff]
        exact ⟨hr1, h₂⟩
      rw [← hre]
      exact hrm
  · exact absurd h (by simp)

theorem fracDenom_canon {t d : Expr} (hc : Canon t) (hf : fracDenom t = some d) :
    Canon d := by
  obtain ⟨fs, ht, hmem⟩ := fracDenom_some hf
  subst ht
  have h' : CanonPairs fs ∧ ProdInv fs := hc
  exact (canonPairs_iff fs).mp h'.1 (-1, d) hmem

theorem fracNumer_canon {t d : Expr} (hc : Canon t) (hf : fracDenom t = some d) :
    Canon (fracNumer t d) := by
  obtain ⟨fs, ht, hmem⟩ := fracDenom_some hf
  subst ht
  have h' : CanonPairs fs ∧ ProdInv fs := hc
  obtain ⟨hok, hsh, hfind, -, -⟩ := h'.2
  show Canon (mkProdResult 1 (fs.toList.erase (-1, d)))
  have hsub : (fs.toList.erase (-1, d)).Sublist fs.toList := List.erase_sublist _ _
  apply mkProdResult_canon
  · exact CollectedOK_sublist hsub hok
  · exact fun p hp => hsh p (hsub.mem hp)
  · exact fun p hp => (canonPairs_iff fs).mp h'.1 p (hsub.mem hp)
  · exact prodCancelFind_sublist hsub hfind

theorem rebuildProd_canon {l : List (ℚ × Expr)} (hc : ∀ p ∈ l, Canon p.2)
    (hfind : prodCancelFind
      (foldNumFactors (collectPairs (flattenFactors l).2)).2 = none) :
    Canon (rebuildProd l) := by
  show Canon (mkProdResult
    ((flattenFactors l).1 * (foldNumFactors (collectPairs (flattenFactors l).2)).1)
    (foldNumFactors (collectPairs (flattenFactors l).2)).2)
  have hfl : ∀ p ∈ (flattenFactors l).2, NotProdE p.2 ∧ Canon p.2 := by
    intro p hp
    obtain ⟨r, hr, hpr⟩ := flattenFactors_mem p hp
    exact factorExpand_shapes (hc r hr) p hpr
  obtain ⟨hok, hP⟩ :=
    collectPairs_ok (fun t => NotProdE t ∧ Canon t) (flattenFactors l).2 hfl
  have hsub := foldNumFactors_sublist (collectPairs (flattenFactors l).2)
  apply mkProdResult_canon
  · exact CollectedOK_sublist hsub hok
  · exact foldNumFactors_shape _ (fun p hp => (hP p hp).1)
  · exact fun p hp => (hP p (hsub.mem hp)).2
  · exact hfind

/-! ### The identity-rewrite steps preserve collectedness and shapes -/

theorem perfectSqStep_ok {l l₂ : List (ℚ × Expr)} (h : perfectSqStep l = some l₂)
    (hok : CollectedOK l) (hP : ∀ p ∈ l, sumAtomShape p.2 ∧ Canon p.2) :
    CollectedOK l₂ ∧ (∀ p ∈ l₂, sumAtomShape p.2 ∧ Canon p.2) ∧
      l₂.length < l.length := by
  unfold perfectSqStep at h
  rcases hf : perfectSqFind l with _ | x
  · rw [hf] at h
    simp at h
  · obtain ⟨c, k, s⟩ := x
    rw [hf] at h
    injection h with h
    subst h
    obtain ⟨hm1, hm2, hm3, hc0, hk0⟩ := perfectSqFind_some hf
    obtain ⟨hs, hd, hnz⟩ := hok
    have hne12 : ((2 * c * k, Expr.sym s) : ℚ × Expr) ≠ (c, symSqAtom s) := by
      intro hh
      have h₂ := congrArg Prod.snd hh
      simp [symSqAtom] at h₂
    have hne13 : ((c * k ^ 2, Expr.num 1) : ℚ × Expr) ≠ (c, symSqAtom s) := by
      intro hh
      have h₂ := congrArg Prod.snd hh
      simp [symSqAtom] at h₂
    have hne23 : ((c * k ^ 2, Expr.num 1) : ℚ × Expr) ≠ (2 * c * k, Expr.sym s) := by
      intro hh
      have h₂ := congrArg Prod.snd hh
      simp at h₂
    set l₁ := ((l.erase (c, symSqAtom s)).erase (2 * c * k, .sym s)).erase
      (c * k ^ 2, .num 1) with hl₁
    have hsub : l₁.Sublist l :=
      (List.erase_sublist _ _).trans
        ((List.erase_sublist _ _).trans (List.erase_sublist _ _))
    have hok₁ : CollectedOK l₁ :=
      ⟨hs.sublist hsub, hd.sublist hsub, fun p hp => hnz p (hsub.mem hp)⟩
    have hP₁ : ∀ p ∈ l₁, sumAtomShape p.2 ∧ Canon p.2 := fun p hp => hP p (hsub.mem hp)
    refine ⟨⟨insertPair_sorted hok₁.1, insertPair_distinct hok₁.1 hok₁.2.1,
        insertPair_nonzero hc0 hok₁.2.2⟩, ?_, ?_⟩
    · intro p hp
      rcases insertPair_mem c (linSqAtom s k) l₁ p hp with h₂ | h₂
      · rw [h₂]
        exact ⟨trivial, linSqAtom_canon s hk0⟩
      · exact hP₁ p h₂
    · have hm2' : (2 * c * k, Expr.sym s) ∈ l.erase (c, symSqAtom s) :=
        (List.mem_erase_of_ne hne12).mpr hm2
      have hm3' : (c * k ^ 2, Expr.num 1) ∈
          (l.erase (c, symSqAtom s)).erase (2 * c * k, .sym s) :=
        (List.mem_erase_of_ne hne23).mpr ((List.mem_erase_of_ne hne13).mpr hm3)
      have hlen1 : (l.erase (c, symSqAtom s)).length = l.length - 1 :=
        List.length_erase_of_mem hm1
      have hlen2 : ((l.erase (c, symSqAtom s)).erase (2 * c * k, .sym s)).length =
          (l.erase (c, symSqAtom s)).length - 1 :=
        List.length_erase_of_mem hm2'
      have hlen3 : l₁.length =
          ((l.erase (c, symSqAtom s)).erase (2 * c * k, .sym s)).length - 1 :=
        List.length_erase_of_mem hm3'
      have hlen4 := insertPair_length c (linSqAtom s k) l₁
      have hp1 : 1 ≤ l.length := List.length_pos.mpr (List.ne_nil_of_mem hm1)
      have hp2 : 1 ≤ (l.erase (c, symSqAtom s)).length :=
        List.length_pos.mpr (List.ne_nil_of_mem hm2')
      have hp3 : 1 ≤ ((l.erase (c, symSqAtom s)).erase (2 * c * k, .sym s)).length :=
        List.length_pos.mpr (List.ne_nil_of_mem hm3')
      omega

theorem hypFoldStep_ok {l l₂ : List (ℚ × Expr)} (h : hypFoldStep l = some l₂)
    (hok : CollectedOK l) (hP : ∀ p ∈ l, sumAtomShape p.2 ∧ Canon p.2) :
    CollectedOK l₂ ∧ (∀ p ∈ l₂, sumAtomShape p.2 ∧ Canon p.2) ∧
      l₂.length < l.length := by
  unfold hypFoldStep at h
  rcases hf : hypFoldFind l with _ | x
  · rw [hf] at h
    simp at h
  · obtain ⟨c, u, fl⟩ := x
    obtain ⟨hm1, hor⟩ := hypFoldFind_some hf
    obtain ⟨hs, hd, hnz⟩ := hok
    have hc0 : c ≠ 0 := hnz _ hm1
    have h2c : (2 * c : ℚ) ≠ 0 := by
      intro hh
      exact hc0 (by linarith)
    have hcanu : Canon u := by
      have hca : Canon (expAtom u) := (hP _ hm1).2
      have hcargs : CanonArgs (.cons u .nil) := hca
      exact hcargs.1
    cases fl with
    | true =>
      have hm2 : (-c, expAtom (negAtom u)) ∈ l := by
        rcases hor with ⟨-, hm⟩ | ⟨hff, -⟩
        · exact hm
        · exact absurd hff (by simp)
      simp only [hf] at h
      injection h with h
      subst h
      have hne : ((-c, expAtom (negAtom u)) : ℚ × Expr) ≠ (c, expAtom u) := by
        intro hh
        have e1 : -c = c := congrArg Prod.fst hh
        exact hc0 (by linarith)
      set l₁ := (l.erase (c, expAtom u)).erase (-c, expAtom (negAtom u)) with hl₁
      have hsub : l₁.Sublist l := (List.erase_sublist _ _).trans (List.erase_sublist _ _)
      have hok₁ : CollectedOK l₁ :=
        ⟨hs.sublist hsub, hd.sublist hsub, fun p hp => hnz p (hsub.mem hp)⟩
      have hP₁ : ∀ p ∈ l₁, sumAtomShape p.2 ∧ Canon p.2 := fun p hp => hP p (hsub.mem hp)
      refine ⟨⟨insertPair_sorted hok₁.1, insertPair_distinct hok₁.1 hok₁.2.1,
          insertPair_nonzero h2c hok₁.2.2⟩, ?_, ?_⟩
      · intro p hp
        rcases insertPair_mem (2 * c) (sinhAtom u) l₁ p hp with h₂ | h₂
        · rw [h₂]
          refine ⟨trivial, ?_⟩
          show CanonArgs (.cons u .nil)
          exact ⟨hcanu, trivial⟩
        · exact hP₁ p h₂
      · have hm2' : (-c, expAtom (negAtom u)) ∈ l.erase (c, expAtom u) :=
          (List.mem_erase_of_ne hne).mpr hm2
        have hlen1 : (l.erase (c, expAtom u)).length = l.length - 1 :=
          List.length_erase_of_mem hm1
        have hlen2 : l₁.length = (l.erase (c, expAtom u)).length - 1 :=
          List.length_erase_of_mem hm2'
        have hlen3 := insertPair_length (2 * c) (sinhAtom u) l₁
        have hp1 : 1 ≤ l.length := List.length_pos.mpr (List.ne_nil_of_mem hm1)
        have hp2 : 1 ≤ (l.erase (c, expAtom u)).length :=
          List.length_pos.mpr (List.ne_nil_of_mem hm2')
        omega
    | false =>
      have hm2 : (c, expAtom (negAtom u)) ∈ l := by
        rcases hor with ⟨hff, -⟩ | ⟨-, hm⟩
        · exact absurd hff (by simp)
        · exact hm
      simp only [hf] at h
      injection h with h
      subst h
      have hne : ((c, expAtom (negAtom u)) : ℚ × Expr) ≠ (c, expAtom u) := by
        intro hh
        have e1 : expAtom (negAtom u) = expAtom u := congrArg Prod.snd hh
        have e2 : negAtom u = u := by
          simpa [expAtom] using e1
        exact negAtom_ne u e2
      set l₁ := (l.erase (c, expAtom u)).erase (c, expAtom (negAtom u)) with hl₁
      have hsub : l₁.Sublist l := (List.erase_sublist _ _).trans (List.erase_sublist _ _)
      have hok₁ : CollectedOK l₁ :=
        ⟨hs.sublist hsub, hd.sublist hsub, fun p hp => hnz p (hsub.mem hp)⟩
      have hP₁ : ∀ p ∈ l₁, sumAtomShape p.2 ∧ Canon p.2 := fun p hp => hP p (hsub.mem hp)
      refine ⟨⟨insertPair_sorted hok₁.1, insertPair_distinct hok₁.1 hok₁.2.1,
          insertPair_nonzero h2c hok₁.2.2⟩, ?_, ?_⟩
      · intro p hp
        rcases insertPair_mem (2 * c) (coshAtom u) l₁ p hp with h₂ | h₂
        · rw [h₂]
          refine ⟨trivial, ?_⟩
          show CanonArgs (.cons u .nil)
          exact ⟨hcanu, trivial⟩
        · exact hP₁ p h₂
      · have hm2' : (c, expAtom (negAtom u)) ∈ l.erase (c, expAtom u) :=
          (List.mem_erase_of_ne hne).mpr hm2
        have hlen1 : (l.erase (c, expAtom u)).length = l.length - 1 :=
          List.length_erase_of_mem hm1
        have hlen2 : l₁.length = (l.erase (c, expAtom u)).length - 1 :=
          List.length_erase_of_mem hm2'
        have hlen3 := insertPair_length (2 * c) (coshAtom u) l₁
        have hp1 : 1 ≤ l.length := List.length_pos.mpr (List.ne_nil_of_mem hm1)
        have hp2 : 1 ≤ (l.erase (c, expAtom u)).length :=
          List.length_pos.mpr (List.ne_nil_of_mem hm2')
        omega

theorem prodCancelStep_ok {l l₂ : List (ℚ × Expr)} (h : prodCancelStep l = some l₂)
    (hok : CollectedOK l) (hP : ∀ p ∈ l, NotProdE p.2 ∧ Canon p.2) :
    CollectedOK l₂ ∧ (∀ p ∈ l₂, NotProdE p.2 ∧ Canon p.2) ∧
      l₂.length < l.length := by
  unfold prodCancelStep at h
  rcases hf : prodCancelFind l with _ | x
  · rw [hf] at h
    simp at h
  · obtain ⟨s, b⟩ := x
    rw [hf] at h
    injection h with h
    subst h
    obtain ⟨hm1, hm2, hb⟩ := prodCancelFind_some hf
    obtain ⟨hs, hd, hnz⟩ := hok
    have hbne : (-b : ℚ) ≠ 0 := neg_ne_zero.mpr hb
    have hne : ((-1, linAtom s b) : ℚ × Expr) ≠ (1, diffSqAtom s b) := by
      intro hh
      have e1 : (-1 : ℚ) = 1 := congrArg Prod.fst hh
      norm_num at e1
    set l₁ := (l.erase (1, diffSqAtom s b)).erase (-1, linAtom s b) with hl₁
    have hsub : l₁.Sublist l := (List.erase_sublist _ _).trans (List.erase_sublist _ _)
    have hok₁ : CollectedOK l₁ :=
      ⟨hs.sublist hsub, hd.sublist hsub, fun p hp => hnz p (hsub.mem hp)⟩
    have hP₁ : ∀ p ∈ l₁, NotProdE p.2 ∧ Canon p.2 := fun p hp => hP p (hsub.mem hp)
    refine ⟨⟨insertPair_sorted hok₁.1, insertPair_distinct hok₁.1 hok₁.2.1,
        insertPair_nonzero (by norm_num) hok₁.2.2⟩, ?_, ?_⟩
    · intro p hp
      rcases insertPair_mem 1 (linAtom s (-b)) l₁ p hp with h₂ | h₂
      · rw [h₂]
        exact ⟨trivial, linAtom_canon s hbne⟩
      · exact hP₁ p h₂
    · have hm2' : (-1, linAtom s b) ∈ l.erase (1, diffSqAtom s b) :=
        (List.mem_erase_of_ne hne).mpr hm2
      have hlen1 : (l.erase (1, diffSqAtom s b)).length = l.length - 1 :=
        List.length_erase_of_mem hm1
      have hlen2 : l₁.length = (l.erase (1, diffSqAtom s b)).length - 1 :=
        List.length_erase_of_mem hm2'
      have hlen3 := insertPair_length 1 (linAtom s (-b)) l₁
      have hp1 : 1 ≤ l.length := List.length_pos.mpr (List.ne_nil_of_mem hm1)
      have hp2 : 1 ≤ (l.erase (1, diffSqAtom s b)).length :=
        List.length_pos.mpr (List.ne_nil_of_mem hm2')
      omega

theorem prodCancelLoop_ok :
    ∀ (fuel : ℕ) (l : List (ℚ × Expr)), l.length ≤ fuel →
      CollectedOK l → (∀ p ∈ l, NotProdE p.2 ∧ Canon p.2) →
      prodCancelFind (prodCancelLoop fuel l) = none ∧
        CollectedOK (prodCancelLoop fuel l) ∧
        (∀ p ∈ prodCancelLoop fuel l, NotProdE p.2 ∧ Canon p.2) := by
  intro fuel
  induction fuel with
  | zero =>
    intro l hlen hok hP
    have hl : l = [] := List.length_eq_zero.mp (Nat.le_zero.mp hlen)
    subst hl
    exact ⟨rfl, hok, hP⟩
  | succ n ih =>
    intro l hlen hok hP
    rcases hstep : prodCancelStep l with _ | l₂
    · have hfind := prodCancelStep_none_iff.mp hstep
      simp only [prodCancelLoop, hstep]
      exact ⟨hfind, hok, hP⟩
    · obtain ⟨hok₂, hP₂, hlen₂⟩ := prodCancelStep_ok hstep hok hP
      simp only [prodCancelLoop, hstep]
      exact ih l₂ (by omega) hok₂ hP₂

theorem prodCancelLoop_id {l : List (ℚ × Expr)} (h : prodCancelFind l = none) :
    ∀ fuel, prodCancelLoop fuel l = l := by
  intro fuel
  cases fuel with
  | zero => rfl
  | succ n =>
    have hstep : prodCancelStep l = none := prodCancelStep_none_iff.mpr h
    simp [prodCancelLoop, hstep]

theorem ratAddStep_ok {l l₂ : List (ℚ × Expr)} (h : ratAddStep l = some l₂)
    (hok : CollectedOK l) (hP : ∀ p ∈ l, sumAtomShape p.2 ∧ Canon p.2) :
    CollectedOK l₂ ∧ (∀ p ∈ l₂, sumAtomShape p.2 ∧ Canon p.2) ∧
      l₂.length < l.length := by
  unfold ratAddStep at h
  rcases hf : ratAddFind l with _ | x
  · rw [hf] at h
    simp at h
  · obtain ⟨c, t₁, t₂, d⟩ := x
    rw [hf] at h
    injection h with h
    subst h
    obtain ⟨hm1, hm2, hne, hd1, hd2, hg1, hg2, hg3, hg4, hg5, hsmall⟩ :=
      ratAddFind_some hf
    obtain ⟨hs, hdst, hnz⟩ := hok
    have hc0 : c ≠ 0 := hnz _ hm1
    have hN₁ : Canon (fracNumer t₁ d) := fracNumer_canon (hP _ hm1).2 hd1
    have hN₂ : Canon (fracNumer t₂ d) := fracNumer_canon (hP _ hm2).2 hd2
    have hdc : Canon d := fracDenom_canon (hP _ hm1).2 hd1
    have hexp : ∀ p ∈ (monoExpand (1, fracNumer t₁ d) ++
        monoExpand (1, fracNumer t₂ d)), sumAtomShape p.2 ∧ Canon p.2 := by
      intro p hp
      rcases List.mem_append.mp hp with h₂ | h₂
      · have hm : p ∈ ([((1 : ℚ), fracNumer t₁ d)].flatMap monoExpand) := by
          simpa using h₂
        refine monoExpand_shapes ?_ p hm
        intro q hq
        simp only [List.mem_singleton] at hq
        rw [hq]
        exact hN₁
      · have hm : p ∈ ([((1 : ℚ), fracNumer t₂ d)].flatMap monoExpand) := by
          simpa using h₂
        refine monoExpand_shapes ?_ p hm
        intro q hq
        simp only [List.mem_singleton] at hq
        rw [hq]
        exact hN₂
    obtain ⟨hmmOK, hmmP⟩ := collectPairs_ok (fun t => sumAtomShape t ∧ Canon t)
      (monoExpand (1, fracNumer t₁ d) ++ monoExpand (1, fracNumer t₂ d)) hexp
    have hM : Canon (mkSumResult (fracMergeList t₁ t₂ d)) := by
      show Canon (mkSumResult (collectPairs (monoExpand (1, fracNumer t₁ d) ++
        monoExpand (1, fracNumer t₂ d))))
      exact mkSumResult_canon hmmOK (fun p hp => (hmmP p hp).1)
        (fun p hp => (hmmP p hp).2) hg1 hg2 hg3 (ratAddFind_none_of hg4)
    have hmerge : Canon (fracMerge t₁ t₂ d) := by
      show Canon (rebuildProd [(1, mkSumResult (fracMergeList t₁ t₂ d)), (-1, d)])
      apply rebuildProd_canon
      · intro p hp
        rcases List.mem_cons.mp hp with hp₂ | hp₂
        · rw [hp₂]
          exact hM
        · simp only [List.mem_singleton] at hp₂
          rw [hp₂]
          exact hdc
      · exact hg5
    have hne₂ : ((c, t₂) : ℚ × Expr) ≠ (c, t₁) := by
      intro hh
      exact hne (congrArg Prod.snd hh)
    have hm2' : (c, t₂) ∈ l.erase (c, t₁) := (List.mem_erase_of_ne hne₂).mpr hm2
    set base := (l.erase (c, t₁)).erase (c, t₂) with hbase
    have hsub : base.Sublist l :=
      (List.erase_sublist _ _).trans (List.erase_sublist _ _)
    have hbok : CollectedOK base :=
      ⟨hs.sublist hsub, hdst.sublist hsub, fun p hp => hnz p (hsub.mem hp)⟩
    have hbP : ∀ p ∈ base, sumAtomShape p.2 ∧ Canon p.2 :=
      fun p hp => hP p (hsub.mem hp)
    have hinsP : ∀ p ∈ scaleMonos c (monoExpand (1, fracMerge t₁ t₂ d)),
        sumAtomShape p.2 ∧ Canon p.2 := by
      intro p hp
      obtain ⟨r, hr, hre⟩ := scaleMonos_mem_snd hp
      rw [hre]
      have hm : r ∈ ([((1 : ℚ), fracMerge t₁ t₂ d)].flatMap monoExpand) := by
        simpa using hr
      refine monoExpand_shapes ?_ r hm
      intro q hq
      simp only [List.mem_singleton] at hq
      rw [hq]
      exact hmerge
    obtain ⟨hokr, hPr⟩ := collect_go_ok (fun t => sumAtomShape t ∧ Canon t)
      (scaleMonos c (monoExpand (1, fracMerge t₁ t₂ d))) base hbok hbP hinsP
    refine ⟨hokr, hPr, ?_⟩
    have hlen1 : (l.erase (c, t₁)).length = l.length - 1 :=
      List.length_erase_of_mem hm1
    have hlen2 : base.length = (l.erase (c, t₁)).length - 1 :=
      List.length_erase_of_mem hm2'
    have hlen3 := collect_go_length
      (scaleMonos c (monoExpand (1, fracMerge t₁ t₂ d))) base
    have hlen4 : (scaleMonos c (monoExpand (1, fracMerge t₁ t₂ d))).length ≤ 1 := by
      rw [scaleMonos, List.length_map]
      exact monoExpand_small hsmall
    have hp1 : 1 ≤ l.length := List.length_pos.mpr (List.ne_nil_of_mem hm1)
    have hp2 : 1 ≤ (l.erase (c, t₁)).length :=
      List.length_pos.mpr (List.ne_nil_of_mem hm2')
    omega

/-! ### The combined term-level identity step and its loop -/

theorem sumIdentStep_none_iff {l : List (ℚ × Expr)} :
    sumIdentStep l = none ↔
      pythagFind l = none ∧ perfectSqFind l = none ∧ hypFoldFind l = none ∧
        ratAddFind l = none := by
  unfold sumIdentStep
  rcases h1 : pythagStep l with _ | a
  · rcases h2 : perfectSqStep l with _ | a
    · rcases h3 : hypFoldStep l with _ | a
      · show ratAddStep l = none ↔ _
        rw [ratAddStep_none_iff]
        constructor
        · intro h₄
          exact ⟨pythagStep_none_iff.mp h1, perfectSqStep_none_iff.mp h2,
            hypFoldStep_none_iff.mp h3, h₄⟩
        · rintro ⟨-, -, -, h₄⟩
          exact h₄
      · constructor
        · intro hcon
          simp at hcon
        · rintro ⟨-, -, hfh, -⟩
          rw [hypFoldStep_none_iff.mpr hfh] at h3
          exact absurd h3 (by simp)
    · constructor
      · intro hcon
        simp at hcon
      · rintro ⟨-, hfp, -, -⟩
        rw [perfectSqStep_none_iff.mpr hfp] at h2
        exact absurd h2 (by simp)
  · constructor
    · intro hcon
      simp at hcon
    · rintro ⟨hf, -, -, -⟩
      rw [pythagStep_none_iff.mpr hf] at h1
      exact absurd h1 (by simp)

theorem sumIdentStep_ok {l l₂ : List (ℚ × Expr)} (h : sumIdentStep l = some l₂)
    (hok : CollectedOK l) (hP : ∀ p ∈ l, sumAtomShape p.2 ∧ Canon p.2) :
    CollectedOK l₂ ∧ (∀ p ∈ l₂, sumAtomShape p.2 ∧ Canon p.2) ∧
      l₂.length < l.length := by
  unfold sumIdentStep at h
  rcases h1 : pythagStep l with _ | a
  · simp only [h1] at h
    rcases h2 : perfectSqStep l with _ | a
    · simp only [h2] at h
      rcases h3 : hypFoldStep l with _ | a
      · simp only [h3] at h
        exact ratAddStep_ok h hok hP
      · simp only [h3] at h
        injection h with h
        subst h
        exact hypFoldStep_ok h3 hok hP
    · simp only [h2] at h
      injection h with h
      subst h
      exact perfectSqStep_ok h2 hok hP
  · simp only [h1] at h
    injection h with h
    subst h
    exact pythagStep_ok (fun t => sumAtomShape t ∧ Canon t) ⟨rfl, trivial⟩ h1 hok hP

theorem sumIdentLoop_ok :
    ∀ (fuel : ℕ) (l : List (ℚ × Expr)), l.length ≤ fuel →
      CollectedOK l → (∀ p ∈ l, sumAtomShape p.2 ∧ Canon p.2) →
      sumIdentStep (sumIdentLoop fuel l) = none ∧
        CollectedOK (sumIdentLoop fuel l) ∧
        (∀ p ∈ sumIdentLoop fuel l, sumAtomShape p.2 ∧ Canon p.2) := by
  intro fuel
  induction fuel with
  | zero =>
    intro l hlen hok hP
    have hl : l = [] := List.length_eq_zero.mp (Nat.le_zero.mp hlen)
    subst hl
    exact ⟨rfl, hok, hP⟩
  | succ n ih =>
    intro l hlen hok hP
    rcases hstep : sumIdentStep l with _ | l₂
    · simp only [sumIdentLoop, hstep]
      exact ⟨trivial, hok, hP⟩
    · obtain ⟨hok₂, hP₂, hlen₂⟩ := sumIdentStep_ok hstep hok hP
      simp only [sumIdentLoop, hstep]
      exact ih l₂ (by omega) hok₂ hP₂

theorem sumIdentLoop_id {l : List (ℚ × Expr)} (h : sumIdentStep l = none) :
    ∀ fuel, sumIdentLoop fuel l = l := by
  intro fuel
  cases fuel with
  | zero => rfl
  | succ n => simp [sumIdentLoop, h]

/-! ### Canonicity of the node builders -/

theorem buildSum_canon {pairs : List (ℚ × Expr)} (hc : ∀ p ∈ pairs, Canon p.2) :
    Canon (buildSum pairs) := by
  show Canon (mkSumResult
    (sumIdentLoop (collectPairs (pairs.flatMap monoExpand)).length
      (collectPairs (pairs.flatMap monoExpand))))
  have hfl := monoExpand_shapes hc
  obtain ⟨hok, hP⟩ :=
    collectPairs_ok (fun t => sumAtomShape t ∧ Canon t) (pairs.flatMap monoExpand) hfl
  obtain ⟨hstep, hok2, hP2⟩ :=
    sumIdentLoop_ok (collectPairs (pairs.flatMap monoExpand)).length
      (collectPairs (pairs.flatMap monoExpand)) le_rfl hok hP
  obtain ⟨hf1, hf2, hf3, hf4⟩ := sumIdentStep_none_iff.mp hstep
  exact mkSumResult_canon hok2 (fun p hp => (hP2 p hp).1) (fun p hp => (hP2 p hp).2)
    hf1 hf2 hf3 hf4

theorem buildProd_canon {pairs : List (ℚ × Expr)} (hc : ∀ p ∈ pairs, Canon p.2) :
    Canon (buildProd pairs) := by
  show Canon (mkProdResult
    ((flattenFactors pairs).1 *
      (foldNumFactors (prodCancelLoop (collectPairs (flattenFactors pairs).2).length
        (collectPairs (flattenFactors pairs).2))).1)
    (foldNumFactors (prodCancelLoop (collectPairs (flattenFactors pairs).2).length
      (collectPairs (flattenFactors pairs).2))).2)
  have hfl : ∀ p ∈ (flattenFactors pairs).2, NotProdE p.2 ∧ Canon p.2 := by
    intro p hp
    obtain ⟨r, hr, hpr⟩ := flattenFactors_mem p hp
    exact factorExpand_shapes (hc r hr) p hpr
  obtain ⟨hok, hP⟩ :=
    collectPairs_ok (fun t => NotProdE t ∧ Canon t) (flattenFactors pairs).2 hfl
  obtain ⟨hfind, hok2, hP2⟩ :=
    prodCancelLoop_ok (collectPairs (flattenFactors pairs).2).length
      (collectPairs (flattenFactors pairs).2) le_rfl hok hP
  have hsub := foldNumFactors_sublist
    (prodCancelLoop (collectPairs (flattenFactors pairs).2).length
      (collectPairs (flattenFactors pairs).2))
  apply mkProdResult_canon
  · exact CollectedOK_sublist hsub hok2
  · exact foldNumFactors_shape _ (fun p hp => (hP2 p hp).1)
  · exact fun p hp => (hP2 p (hsub.mem hp)).2
  · exact prodCancelFind_sublist hsub hfind

theorem buildSum_id {ms : EPairs} (hinv : SumInv ms) : buildSum ms.toList = .sum ms := by
  obtain ⟨hok, hsh, hf1, hf2, hf3, hf4, hne, hnc, hn1⟩ := hinv
  show mkSumResult
    (sumIdentLoop (collectPairs (ms.toList.flatMap monoExpand)).length
      (collectPairs (ms.toList.flatMap monoExpand))) = .sum ms
  rw [monoExpand_id hsh, collectPairs_id hok,
    sumIdentLoop_id (sumIdentStep_none_iff.mpr ⟨hf1, hf2, hf3, hf4⟩)]
  exact mkSumResult_id ⟨hok, hsh, hf1, hf2, hf3, hf4, hne, hnc, hn1⟩

theorem buildProd_id {fs : EPairs} (hinv : ProdInv fs) : buildProd fs.toList = .prod fs := by
  obtain ⟨hok, hsh, hfind, hne, hn1⟩ := hinv
  show mkProdResult
    ((flattenFactors fs.toList).1 *
      (foldNumFactors (prodCancelLoop (collectPairs (flattenFactors fs.toList).2).length
        (collectPairs (flattenFactors fs.toList).2))).1)
    (foldNumFactors (prodCancelLoop (collectPairs (flattenFactors fs.toList).2).length
      (collectPairs (flattenFactors fs.toList).2))).2 = .prod fs
  rw [flattenFactors_id hsh]
  simp only
  rw [collectPairs_id hok, prodCancelLoop_id hfind, foldNumFactors_id hsh]
  simp only [one_mul]
  exact mkProdResult_id ⟨hok, hsh, hfind, hne, hn1⟩

theorem mkPow_canon {b e : Expr} (hb : Canon b) (he : Canon e) : Canon (mkPow b e) := by
  cases e with
  | num q =>
    show Canon (buildProd [(q, b)])
    apply buildProd_canon
    intro p hp
    simp only [List.mem_singleton] at hp
    rw [hp]
    exact hb
  | sym s => exact ⟨hb, he, trivial⟩
  | sum ms => exact ⟨hb, he, trivial⟩
  | prod fs => exact ⟨hb, he, trivial⟩
  | pow b' e' => exact ⟨hb, he, trivial⟩
  | func f args => exact ⟨hb, he, trivial⟩
  | deriv i v k => exact ⟨hb, he, trivial⟩

theorem mkPow_id {b e : Expr} (hne : NotNumE e) : mkPow b e = .pow b e := by
  cases e with
  | num q => exact absurd hne (by simp [NotNumE])
  | sym s => rfl
  | sum ms => rfl
  | prod fs => rfl
  | pow b' e' => rfl
  | func f args => rfl
  | deriv i v k => rfl

/-! ### Idempotence of the pass and of `simplify` -/

mutual
theorem canon_norm : ∀ e : Expr, Canon (norm e)
  | .num _ => trivial
  | .sym _ => trivial
  | .sum ms => by
    simp only [norm]
    exact buildSum_canon (canon_normPairs ms)
  | .prod fs => by
    simp only [norm]
    exact buildProd_canon (canon_normPairs fs)
  | .pow b e => by
    simp only [norm]
    exact mkPow_canon (canon_norm b) (canon_norm e)
  | .func f args => by
    simp only [norm]
    exact canon_normArgs args
  | .deriv i v k => by
    simp only [norm]
    exact canon_norm i
theorem canon_normPairs : ∀ ms : EPairs, ∀ p ∈ normPairs ms, Canon p.2
  | .nil => by simp [normPairs]
  | .cons q t r => by
    intro p hp
    simp only [normPairs, List.mem_cons] at hp
    rcases hp with h | h
    · rw [h]
      exact canon_norm t
    · exact canon_normPairs r p h
theorem canon_normArgs : ∀ args : EList, CanonArgs (normArgs args)
  | .nil => trivial
  | .cons t r => ⟨canon_norm t, canon_normArgs r⟩
end

mutual
theorem norm_of_canon : ∀ e : Expr, Canon e → norm e = e
  | .num _, _ => rfl
  | .sym _, _ => rfl
  | .sum ms, h => by
    have h' : CanonPairs ms ∧ SumInv ms := h
    simp only [norm]
    rw [norm_of_canonPairs ms h'.1]
    exact buildSum_id h'.2
  | .prod fs, h => by
    have h' : CanonPairs fs ∧ ProdInv fs := h
    simp only [norm]
    rw [norm_of_canonPairs fs h'.1]
    exact buildProd_id h'.2
  | .pow b e, h => by
    have h' : Canon b ∧ Canon e ∧ NotNumE e := h
    simp only [norm]
    rw [norm_of_canon b h'.1, norm_of_canon e h'.2.1]
    exact mkPow_id h'.2.2
  | .func f args, h => by
    simp only [norm]
    rw [norm_of_canonArgs args h]
  | .deriv i v k, h => by
    simp only [norm]
    rw [norm_of_canon i h]
theorem norm_of_canonPairs : ∀ ms : EPairs, CanonPairs ms → normPairs ms = ms.toList
  | .nil, _ => rfl
  | .cons q t r, h => by
    have h' : Canon t ∧ CanonPairs r := h
    simp only [normPairs, EPairs.toList]
    rw [norm_of_canon t h'.1, norm_of_canonPairs r h'.2]
theorem norm_of_canonArgs : ∀ args : EList, CanonArgs args → normArgs args = args
  | .nil, _ => rfl
  | .cons t r, h => by
    have h' : Canon t ∧ CanonArgs r := h
    simp only [normArgs]
    rw [norm_of_canon t h'.1, norm_of_canonArgs r h'.2]
end

theorem norm_idem (e : Expr) : norm (norm e) = norm e :=
  norm_of_canon (norm e) (canon_norm e)

theorem simplify_eq_norm (e : Expr) : simplify e = norm e := by
  show simplifyLoop 100 e = norm e
  by_cases h : norm e = e
  · have e1 : simplifyLoop 100 e = e := by
      show (if norm e = e then e else simplifyLoop 99 (norm e)) = e
      rw [if_pos h]
    rw [e1]
    exact h.symm
  · have e1 : simplifyLoop 100 e = simplifyLoop 99 (norm e) := by
      show (if norm e = e then e else simplifyLoop 99 (norm e)) = _
      rw [if_neg h]
    have e2 : simplifyLoop 99 (norm e) = norm e := by
      show (if norm (norm e) = norm e then norm e else simplifyLoop 98 (norm (norm e))) = _
      rw [if_pos (norm_idem e)]
    rw [e1, e2]

/-- **C1.** `simplify` is deterministic — it is a pure function of its
input — and idempotent: for every expression `e`, `simplify (simplify e)`
is structurally equal to `simplify e`. -/
theorem simplify_idempotent (e : Expr) : simplify (simplify e) = simplify e := by
  rw [simplify_eq_norm e, simplify_eq_norm (norm e), norm_idem]

theorem simplifyLoop_spec : ∀ (fuel : ℕ) (e : Expr), ∃ k ≤ fuel,
    simplifyLoop fuel e = norm^[k] e ∧
    (norm (norm^[k] e) = norm^[k] e ∨ k = fuel) := by
  intro fuel
  induction fuel with
  | zero =>
    intro e
    exact ⟨0, le_rfl, rfl, Or.inr rfl⟩
  | succ n ih =>
    intro e
    by_cases h : norm e = e
    · refine ⟨0, by omega, ?_, Or.inl h⟩
      show (if norm e = e then e else simplifyLoop n (norm e)) = e
      rw [if_pos h]
    · obtain ⟨k, hk, heq, hcond⟩ := ih (norm e)
      refine ⟨k + 1, by omega, ?_, ?_⟩
      · show (if norm e = e then e else simplifyLoop n (norm e)) = norm^[k + 1] e
        rw [if_neg h, heq, Function.iterate_succ_apply]
      · rcases hcond with h' | h'
        · exact Or.inl (by rw [Function.iterate_succ_apply]; exact h')
        · exact Or.inr (by omega)

/-- **C3.** `simplify` is total — it is a function `Expr → Expr` with no
error channel — its rewrite passes are bounded by the pass-count ceiling,
and its result is always the best normal form reached within the ceiling:
for every expression there is a pass count `k ≤ passCeiling` with
`simplify e = norm^[k] e`, and either that form is a fixpoint of the pass or
the ceiling was hit (in which case the form reached is returned rather than
an error being raised). -/
theorem simplify_total_spec (e : Expr) :
    simplify e = simplifyLoop passCeiling e ∧
    ∃ k ≤ passCeiling, simplify e = norm^[k] e ∧
      (norm (norm^[k] e) = norm^[k] e ∨ k = passCeiling) :=
  ⟨rfl, simplifyLoop_spec passCeiling e⟩

/-! ### Parser (spec §4.1)

Recursive-descent parser for the documented grammar
```
expr   := term (('+'|'-') term)*
term   := factor (('*'|'/') factor)*
factor := unary ('^' factor)?      -- right-associative
unary  := '-' unary | primary
primary:= number | ident | ident '(' expr (',' expr)* ')' | '(' expr ')'
```
with implicit multiplication inserted where a number or `)` is immediately
followed by an identifier or `(`. -/

/-- Token classes of the modelled grammar.  Number literals are the natural
literals appearing in the observed inputs. -/
inductive Tok where
  | plus | minus | star | slash | caret | lparen | rparen | comma
  | numT (n : ℕ)
  | identT (s : String)
deriving DecidableEq, Repr

/-- Modelled from the spec (§4.1, §7, missing from `src/`):
`ParseError{position, expected}`.  The model carries the expected-token
description; the byte offset is omitted since no claim depends on it. -/
structure ParseError where
  expected : String
deriving DecidableEq, Repr

/-- Characters allowed after the first character of an identifier. -/
def isIdentChar (c : Char) : Bool := c.isAlpha || c.isDigit || c = '_'

/-- Decimal value of a digit list. -/
def digitsVal (cs : List Char) : ℕ := cs.foldl (fun n c => n * 10 + (c.toNat - 48)) 0

/-- Modelled from the spec (§4.1, missing from `src/`): the tokenizer, as a
fuel-bounded scan (the fuel `cs.length` always suffices because every step
consumes at least one character). -/
def tokenizeF : List Char → ℕ → Except ParseError (List Tok)
  | [], _ => .ok []
  | _ :: _, 0 => .error ⟨"tokenizer fuel"⟩
  | c :: cs, fuel + 1 =>
    if c = ' ' then tokenizeF cs fuel
    else if c = '+' then (tokenizeF cs fuel).map (fun ts => .plus :: ts)
    else if c = '-' then (tokenizeF cs fuel).map (fun ts => .minus :: ts)
    else if c = '*' then (tokenizeF cs fuel).map (fun ts => .star :: ts)
    else if c = '/' then (tokenizeF cs fuel).map (fun ts => .slash :: ts)
    else if c = '^' then (tokenizeF cs fuel).map (fun ts => .caret :: ts)
    else if c = '(' then (tokenizeF cs fuel).map (fun ts => .lparen :: ts)
    else if c = ')' then (tokenizeF cs fuel).map (fun ts => .rparen :: ts)
    else if c = ',' then (tokenizeF cs fuel).map (fun ts => .comma :: ts)
    else if c.isAlpha then
      (tokenizeF ((c :: cs).dropWhile isIdentChar) fuel).map
        (fun ts => .identT ⟨(c :: cs).takeWhile isIdentChar⟩ :: ts)
    else if c.isDigit then
      (tokenizeF ((c :: cs).dropWhile Char.isDigit) fuel).map
        (fun ts => .numT (digitsVal ((c :: cs).takeWhile Char.isDigit)) :: ts)
    else .error ⟨"valid character"⟩

def tokenize (s : String) : Except ParseError (List Tok) :=
  tokenizeF s.data s.data.length

/-- A token that can end an implicit-multiplication left operand: a number
or `)` (spec §4.1). -/
def tokEndsAtom : Tok → Bool
  | .numT _ => true
  | .rparen => true
  | _ => false

/-- A token that can start an implicit-multiplication right operand: an
identifier or `(` (spec §4.1). -/
def tokStartsAtom : Tok → Bool
  | .identT _ => true
  | .lparen => true
  | _ => false

/-- Insert the implicit `*` where a number or `)` is immediately followed by
an identifier or `(` (spec §4.1). -/
def insertImplicitMul : List Tok → List Tok
  | [] => []
  | [t] => [t]
  | a :: b :: rest =>
    if tokEndsAtom a && tokStartsAtom b then a :: .star :: insertImplicitMul (b :: rest)
    else a :: insertImplicitMul (b :: rest)

/-- The fixed tag of a builtin function name (spec §3: functions are
"identified by a fixed tag set, not by free-form string dispatch"); `ln`
and `log` both map to the natural logarithm. -/
def tagOfName : String → Option FuncTag
  | "sin" => some .sin
  | "cos" => some .cos
  | "tan" => some .tan
  | "sinh" => some .sinh
  | "cosh" => some .cosh
  | "tanh" => some .tanh
  | "exp" => some .exp
  | "ln" => some .ln
  | "log" => some .ln
  | "sqrt" => some .sqrt
  | "gamma" => some .gamma
  | "digamma" => some .digamma
  | "polygamma" => some .polygamma
  | "erf" => some .erf
  | "besselj" => some .besselj
  | "bessely" => some .bessely
  | "zeta" => some .zeta
  | _ => none

/-- Collapse a parsed `(coefficient, term)` list: a single coefficient-1
term is that term, anything else is a raw `Sum` node. -/
def finishSum : List (ℚ × Expr) → Expr
  | [(1, t)] => t
  | l => .sum (EPairs.ofList l)

/-- Collapse a parsed `(exponent, factor)` list: a single exponent-1 factor
is that factor, anything else is a raw `Product` node (with `/` desugared
into the exponent −1, the spec's chosen canonical desugaring). -/
def finishProd : List (ℚ × Expr) → Expr
  | [(1, t)] => t
  | l => .prod (EPairs.ofList l)

mutual
/-- `expr := term (('+'|'-') term)*` -/
def pExpr : ℕ → List Tok → Except ParseError (Expr × List Tok)
  | 0, _ => .error ⟨"expression"⟩
  | fuel + 1, toks => do
    let (t, rest) ← pTerm fuel toks
    pExprLoop fuel [((1 : ℚ), t)] rest
def pExprLoop : ℕ → List (ℚ × Expr) → List Tok → Except ParseError (Expr × List Tok)
  | 0, _, _ => .error ⟨"expression"⟩
  | fuel + 1, acc, toks =>
    match toks with
    | .plus :: rest => do
      let (t, rest₂) ← pTerm fuel rest
      pExprLoop fuel (acc ++ [((1 : ℚ), t)]) rest₂
    | .minus :: rest => do
      let (t, rest₂) ← pTerm fuel rest
      pExprLoop fuel (acc ++ [((-1 : ℚ), t)]) rest₂
    | _ => .ok (finishSum acc, toks)
/-- `term := factor (('*'|'/') factor)*` -/
def pTerm : ℕ → List Tok → Except ParseError (Expr × List Tok)
  | 0, _ => .error ⟨"term"⟩
  | fuel + 1, toks => do
    let (f, rest) ← pFactor fuel toks
    pTermLoop fuel [((1 : ℚ), f)] rest
def pTermLoop : ℕ → List (ℚ × Expr) → List Tok → Except ParseError (Expr × List Tok)
  | 0, _, _ => .error ⟨"term"⟩
  | fuel + 1, acc, toks =>
    match toks with
    | .star :: rest => do
      let (f, rest₂) ← pFactor fuel rest
      pTermLoop fuel (acc ++ [((1 : ℚ), f)]) rest₂
    | .slash :: rest => do
      let (f, rest₂) ← pFactor fuel rest
      pTermLoop fuel (acc ++ [((-1 : ℚ), f)]) rest₂
    | _ => .ok (finishProd acc, toks)
/-- `factor := unary ('^' factor)?`, right-associative -/
def pFactor : ℕ → List Tok → Except ParseError (Expr × List Tok)
  | 0, _ => .error ⟨"factor"⟩
  | fuel + 1, toks => do
    let (u, rest) ← pUnary fuel toks
    match rest with
    | .caret :: rest₂ => do
      let (e, rest₃) ← pFactor fuel rest₂
      .ok (.pow u e, rest₃)
    | _ => .ok (u, rest)
/-- `unary := '-' unary | primary`; negation is the coefficient −1 in a
`Sum` slot, the data model's home for an additive sign. -/
def pUnary : ℕ → List Tok → Except ParseError (Expr × List Tok)
  | 0, _ => .error ⟨"unary"⟩
  | fuel + 1, toks =>
    match toks with
    | .minus :: rest => do
      let (u, rest₂) ← pUnary fuel rest
      .ok (.sum (.cons (-1) u .nil), rest₂)
    | _ => pPrimary fuel toks
/-- `primary := number | ident | ident '(' expr (',' expr)* ')' | '(' expr ')'` -/
def pPrimary : ℕ → List Tok → Except ParseError (Expr × List Tok)
  | 0, _ => .error ⟨"primary"⟩
  | fuel + 1, toks =>
    match toks with
    | .numT n :: rest => .ok (.num n, rest)
    | .identT s :: .lparen :: rest =>
      match tagOfName s with
      | none => .error ⟨"known function name"⟩
      | some f => do
        let (args, rest₂) ← pArgs fuel rest
        .ok (.func f (EList.ofList args), rest₂)
    | .identT s :: rest => .ok (.sym (.named s), rest)
    | .lparen :: rest => do
      let (e, rest₂) ← pExpr fuel rest
      match rest₂ with
      | .rparen :: rest₃ => .ok (e, rest₃)
      | _ => .error ⟨"closing parenthesis"⟩
    | _ => .error ⟨"number, identifier or parenthesis"⟩
/-- Comma-separated argument list up to the closing parenthesis. -/
def pArgs : ℕ → List Tok → Except ParseError (List Expr × List Tok)
  | 0, _ => .error ⟨"argument list"⟩
  | fuel + 1, toks => do
    let (e, rest) ← pExpr fuel toks
    match rest with
    | .comma :: rest₂ => do
      let (es, rest₃) ← pArgs fuel rest₂
      .ok (e :: es, rest₃)
    | .rparen :: rest₂ => .ok ([e], rest₂)
    | _ => .error ⟨"comma or closing parenthesis"⟩
end

/-- Modelled from the spec (§4.1, §6, missing from `src/`): the public
`parse(text) -> Expression | ParseError` entry point.  The fuel bounds the
descent depth; eight fuel units per token always suffice. -/
def parse (s : String) : Except ParseError Expr := do
  let toks ← tokenize s
  let toks₂ := insertImplicitMul toks
  let (e, rest) ← pExpr ((toks₂.length + 1) * 8) toks₂
  match rest with
  | [] => .ok e
  | _ => .error ⟨"end of input"⟩

/-- Modelled from the spec (§6, missing from `src/`): `simplify` on text —
full `parse → simplify` pipeline. -/
def simplifyText (s : String) : Except ParseError Expr :=
  (parse s).map simplify

instance {ε α : Type} [DecidableEq ε] [DecidableEq α] : DecidableEq (Except ε α) := by
  intro a b
  cases a <;> cases b
  case error.error e₁ e₂ => exact decidable_of_iff (e₁ = e₂) (by simp)
  case error.ok _ _ => exact isFalse (by simp)
  case ok.error _ _ => exact isFalse (by simp)
  case ok.ok a₁ a₂ => exact decidable_of_iff (a₁ = a₂) (by simp)

/-- **C5.** `simplify` applied to the parsed text `"sin(x)^2 + cos(x)^2"`
returns the literal `Number 1`: the Pythagorean identity rewrite fires on
this exact shape. -/
theorem simplify_pythagorean :
    simplifyText "sin(x)^2 + cos(x)^2" = .ok (.num 1) := by
  with_unfolding_all decide

/-! ### The unary-minus / power precedence (spec §4.1) -/

theorem takeWhile_append_stop {p : Char → Bool} :
    ∀ (l₁ : List Char) (c : Char) (l₂ : List Char),
      (∀ x ∈ l₁, p x = true) → p c = false →
      (l₁ ++ c :: l₂).takeWhile p = l₁ ∧ (l₁ ++ c :: l₂).dropWhile p = c :: l₂ := by
  intro l₁
  induction l₁ with
  | nil =>
    intro c l₂ _ hc
    simp [List.takeWhile_cons, List.dropWhile_cons, hc]
  | cons a l ih =>
    intro c l₂ hall hc
    have ha : p a = true := hall a (by simp)
    have := ih c l₂ (fun x hx => hall x (List.mem_cons_of_mem _ hx)) hc
    simp [List.takeWhile_cons, List.dropWhile_cons, ha, this.1, this.2]

theorem tokenizeF_cons (c : Char) (cs : List Char) (fuel : ℕ) :
    tokenizeF (c :: cs) (fuel + 1) =
      if c = ' ' then tokenizeF cs fuel
      else if c = '+' then (tokenizeF cs fuel).map (fun ts => .plus :: ts)
      else if c = '-' then (tokenizeF cs fuel).map (fun ts => .minus :: ts)
      else if c = '*' then (tokenizeF cs fuel).map (fun ts => .star :: ts)
      else if c = '/' then (tokenizeF cs fuel).map (fun ts => .slash :: ts)
      else if c = '^' then (tokenizeF cs fuel).map (fun ts => .caret :: ts)
      else if c = '(' then (tokenizeF cs fuel).map (fun ts => .lparen :: ts)
      else if c = ')' then (tokenizeF cs fuel).map (fun ts => .rparen :: ts)
      else if c = ',' then (tokenizeF cs fuel).map (fun ts => .comma :: ts)
      else if c.isAlpha then
        (tokenizeF ((c :: cs).dropWhile isIdentChar) fuel).map
          (fun ts => .identT ⟨(c :: cs).takeWhile isIdentChar⟩ :: ts)
      else if c.isDigit then
        (tokenizeF ((c :: cs).dropWhile Char.isDigit) fuel).map
          (fun ts => .numT (digitsVal ((c :: cs).takeWhile Char.isDigit)) :: ts)
      else .error ⟨"valid character"⟩ := rfl

theorem tokenizeF_nil : ∀ fuel : ℕ, tokenizeF [] fuel = .ok []
  | 0 => rfl
  | _ + 1 => rfl

theorem tokenizeF_ident_seg (c : Char) (cs : List Char)
    (halpha : ∀ x ∈ c :: cs, x.isAlpha = true) (fuel : ℕ) :
    tokenizeF ((c :: cs) ++ ['^', '2']) (fuel + 3) =
      .ok [.identT ⟨c :: cs⟩, .caret, .numT 2] := by
  have hc : c.isAlpha = true := halpha c (by simp)
  have hident : ∀ x ∈ c :: cs, isIdentChar x = true := by
    intro x hx
    simp [isIdentChar, halpha x hx]
  have hcaret : isIdentChar '^' = false := by decide
  obtain ⟨htw, hdw⟩ := takeWhile_append_stop (c :: cs) '^' ['2'] hident hcaret
  have h1 : ¬ (c = ' ') := fun h => by rw [h] at hc; exact absurd hc (by decide)
  have h2 : ¬ (c = '+') := fun h => by rw [h] at hc; exact absurd hc (by decide)
  have h3 : ¬ (c = '-') := fun h => by rw [h] at hc; exact absurd hc (by decide)
  have h4 : ¬ (c = '*') := fun h => by rw [h] at hc; exact absurd hc (by decide)
  have h5 : ¬ (c = '/') := fun h => by rw [h] at hc; exact absurd hc (by decide)
  have h6 : ¬ (c = '^') := fun h => by rw [h] at hc; exact absurd hc (by decide)
  have h7 : ¬ (c = '(') := fun h => by rw [h] at hc; exact absurd hc (by decide)
  have h8 : ¬ (c = ')') := fun h => by rw [h] at hc; exact absurd hc (by decide)
  have h9 : ¬ (c = ',') := fun h => by rw [h] at hc; exact absurd hc (by decide)
  rw [List.cons_append, show fuel + 3 = (fuel + 2) + 1 from rfl,
    tokenizeF_cons c (cs ++ ['^', '2']) (fuel + 2),
    if_neg h1, if_neg h2, if_neg h3, if_neg h4, if_neg h5, if_neg h6, if_neg h7,
    if_neg h8, if_neg h9, if_pos hc]
  rw [show (c :: (cs ++ ['^', '2'])) = (c :: cs) ++ '^' :: ['2'] by simp]
  rw [htw, hdw]
  have hrest : tokenizeF ('^' :: ['2']) (fuel + 2) = .ok [.caret, .numT 2] := by
    have e1 : tokenizeF ('^' :: ['2']) (fuel + 2) =
        (tokenizeF ['2'] (fuel + 1)).map (fun ts => .caret :: ts) := rfl
    have e2 : tokenizeF ['2'] (fuel + 1) =
        (tokenizeF [] fuel).map (fun ts => .numT 2 :: ts) := rfl
    rw [e1, e2, tokenizeF_nil]
    rfl
  rw [hrest]
  rfl

theorem tokenize_neg_pow {name : String} (hne : name.data ≠ [])
    (halpha : ∀ x ∈ name.data, x.isAlpha = true) :
    tokenize ("-" ++ name ++ "^2") =
      .ok [.minus, .identT name, .caret, .numT 2] := by
  obtain ⟨c, cs, hdata⟩ : ∃ c cs, name.data = c :: cs := by
    cases h : name.data with
    | nil => exact absurd h hne
    | cons c cs => exact ⟨c, cs, rfl⟩
  have hd : ("-" ++ name ++ "^2").data = '-' :: ((c :: cs) ++ ['^', '2']) := by
    rw [String.data_append, String.data_append, hdata]
    rfl
  unfold tokenize
  rw [hd]
  have hlen : ('-' :: ((c :: cs) ++ ['^', '2'])).length = cs.length + 4 := by
    simp
  rw [hlen]
  have hstep : tokenizeF ('-' :: ((c :: cs) ++ ['^', '2'])) (cs.length + 4) =
      (tokenizeF ((c :: cs) ++ ['^', '2']) (cs.length + 3)).map
        (fun ts => .minus :: ts) := rfl
  rw [hstep, tokenizeF_ident_seg c cs (hdata ▸ halpha) cs.length]
  have hmk : (⟨c :: cs⟩ : String) = name := by
    rw [← hdata]
  rw [hmk]
  rfl

/-- The amended **C4**: under the spec's grammar, unary minus binds tighter
than `^` — for every alphabetic identifier `name`, the input `-name^2`
parses as `(-name)^2`, the square of the negation: the `Pow` node whose
base is the negated symbol. -/
theorem parse_neg_pow (name : String) (hne : name.data ≠ [])
    (halpha : ∀ x ∈ name.data, x.isAlpha = true) :
    parse ("-" ++ name ++ "^2") =
      .ok (.pow (.sum (.cons (-1) (.sym (.named name)) .nil)) (.num 2)) := by
  unfold parse
  rw [tokenize_neg_pow hne halpha]
  rfl

/-- Witness for `parse_neg_pow` at `name = "y"`. -/
theorem parse_neg_pow_witness :
    parse ("-" ++ "y" ++ "^2") =
      .ok (.pow (.sum (.cons (-1) (.sym (.named "y")) .nil)) (.num 2)) :=
  parse_neg_pow "y" (by decide) (by decide)

/-- Counterexample to **C4** as stated: the claim asserts both that unary
minus binds tighter than `^` and that `-x^2` parses as `-(x^2)`; these are
incompatible.  Under the spec's own grammar (`factor := unary ('^' factor)?`),
`-x^2` parses as `(-x)^2` — the `Pow` of the negation — which is a different
tree from the negation of `x^2` produced by parsing `-(x^2)`. -/
theorem parse_neg_pow_counterexample :
    parse "-x^2" =
      .ok (.pow (.sum (.cons (-1) (.sym (.named "x")) .nil)) (.num 2)) ∧
    parse "-(x^2)" =
      .ok (.sum (.cons (-1) (.pow (.sym (.named "x")) (.num 2)) .nil)) ∧
    (Expr.pow (.sum (.cons (-1) (.sym (.named "x")) .nil)) (.num 2) ≠
      .sum (.cons (-1) (.pow (.sym (.named "x")) (.num 2)) .nil)) := by
  refine ⟨?_, ?_, ?_⟩ <;> with_unfolding_all decide

/-! ### Differentiation Engine (spec §4.2) -/

mutual
/-- Modelled from the spec (§4.2, missing from `src/`): whether an
expression depends on the differentiation variable — it contains a named
symbol equal to `v` that is not in `fixed_vars`. -/
def dependsOn : Expr → String → List String → Bool
  | .num _, _, _ => false
  | .sym (.named s), v, fixed => s == v && !(fixed.contains s)
  | .sym (.anon _), _, _ => false
  | .sum ms, v, fixed => dependsOnPairs ms v fixed
  | .prod fs, v, fixed => dependsOnPairs fs v fixed
  | .pow b e, v, fixed => dependsOn b v fixed || dependsOn e v fixed
  | .func _ args, v, fixed => dependsOnArgs args v fixed
  | .deriv i _ _, v, fixed => dependsOn i v fixed
def dependsOnPairs : EPairs → String → List String → Bool
  | .nil, _, _ => false
  | .cons _ t r, v, fixed => dependsOn t v fixed || dependsOnPairs r v fixed
def dependsOnArgs : EList → String → List String → Bool
  | .nil, _, _ => false
  | .cons t r, v, fixed => dependsOn t v fixed || dependsOnArgs r v fixed
end

/-- Raw tree for `n − 1` (used by the power rule and Bessel recurrences). -/
def rawPred (n : Expr) : Expr := .sum (.cons 1 n (.cons (-1) (.num 1) .nil))

/-- Raw tree for `n + 1`. -/
def rawSucc (n : Expr) : Expr := .sum (.cons 1 n (.cons 1 (.num 1) .nil))

/-- The fast-path ratio terms of the n-ary product rule (spec §4.2):
for each `(exponent, base, dbase)` the summand `eᵢ · bᵢ' · bᵢ^(−1)`. -/
def ratioTerms (dl : List (ℚ × Expr × Expr)) : List (ℚ × Expr) :=
  dl.map (fun t => (t.1, .prod (.cons 1 t.2.2 (.cons (-1) t.2.1 .nil))))

/-- The explicit pairwise product-rule expansion (spec §4.2 fallback when a
factor is syntactically zero): the `i`-th summand is
`eᵢ · (bᵢ^(eᵢ−1) · bᵢ' · Πⱼ≠ᵢ bⱼ^eⱼ)`; `done` accumulates the reversed
prefix of already-processed factors. -/
def pairwiseTerms : List (ℚ × Expr × Expr) → List (ℚ × Expr × Expr) → List (ℚ × Expr)
  | _, [] => []
  | done, (e, b, db) :: rest =>
    (e, .prod (EPairs.ofList ((e - 1, b) :: ((1 : ℚ), db) ::
      ((done.reverse ++ rest).map (fun t => (t.1, t.2.1)))))) ::
      pairwiseTerms ((e, b, db) :: done) rest

/-- Modelled from the spec (§4.2, missing from `src/`): the per-function
derivative table for single-argument builtins — the raw derivative factor
`F'(u)`, chain factor excluded.  Returns `none` for the tags whose
derivative is not a single-argument closed form (`zeta` keeps a
`Derivative` node; the Bessel and polygamma recurrences are two-argument and
handled at the dispatch site). -/
def funcDeriv (f : FuncTag) (u : Expr) : Option Expr :=
  match f with
  | .sin => some (.func .cos (.cons u .nil))
  | .cos => some (.sum (.cons (-1) (.func .sin (.cons u .nil)) .nil))
  | .tan => some (.prod (.cons (-2) (.func .cos (.cons u .nil)) .nil))
  | .sinh => some (.func .cosh (.cons u .nil))
  | .cosh => some (.func .sinh (.cons u .nil))
  | .tanh => some (.prod (.cons (-2) (.func .cosh (.cons u .nil)) .nil))
  | .exp => some (.func .exp (.cons u .nil))
  | .ln => some (.prod (.cons (-1) u .nil))
  | .sqrt => some (.sum (.cons (1/2) (.prod (.cons (-1/2) u .nil)) .nil))
  | .gamma => some (.prod (.cons 1 (.func .gamma (.cons u .nil))
      (.cons 1 (.func .digamma (.cons u .nil)) .nil)))
  | .digamma => some (.func .polygamma (.cons (.num 1) (.cons u .nil)))
  | .erf =>
    some (.sum (.cons 2
      (.prod (.cons (-1/2) (.sym (.named "pi"))
        (.cons 1
          (.func .exp
            (.cons (.sum (.cons (-1) (.prod (.cons 2 u .nil)) .nil)) .nil))
          .nil)))
      .nil))
  | .polygamma => none
  | .besselj => none
  | .bessely => none
  | .zeta => none

mutual
/-- Modelled from the spec (§4.2, missing from `src/`): the differentiation
engine, producing the raw unsimplified derivative tree.  Rules: linearity on
`Sum` (coefficients pass through); n-ary product rule with the
`(Π fᵢ)·Σ fᵢ'/fᵢ` fast path and pairwise expansion when a base is
syntactically zero; the three `Pow` cases decided by which parts depend on
the variable; per-tag chain rule for functions (`zeta`'s derivative is kept
as a `Derivative` node, Bessel and polygamma use their recurrences); any
symbol in `fixed_vars`, or other than the variable, differentiates to
zero. -/
def differentiate : Expr → String → List String → Expr
  | .num _, _, _ => .num 0
  | .sym (.named s), v, fixed =>
    if s = v ∧ s ∉ fixed then .num 1 else .num 0
  | .sym (.anon _), _, _ => .num 0
  | .sum ms, v, fixed => .sum (diffTerms ms v fixed)
  | .prod fs, v, fixed =>
    let dl := diffBases fs v fixed
    if dl.any (fun t => t.2.1 == .num 0) then
      .sum (EPairs.ofList (pairwiseTerms [] dl))
    else
      .prod (.cons 1 (.prod fs)
        (.cons 1 (.sum (EPairs.ofList (ratioTerms dl))) .nil))
  | .pow f g, v, fixed =>
    if dependsOn g v fixed = false then
      .prod (.cons 1 g (.cons 1 (.pow f (rawPred g))
        (.cons 1 (differentiate f v fixed) .nil)))
    else if dependsOn f v fixed = false then
      .prod (.cons 1 (.func .ln (.cons f .nil)) (.cons 1 (.pow f g)
        (.cons 1 (differentiate g v fixed) .nil)))
    else
      .prod (.cons 1 (.pow f g) (.cons 1
        (.sum (.cons 1 (.prod (.cons 1 (differentiate g v fixed)
            (.cons 1 (.func .ln (.cons f .nil)) .nil)))
          (.cons 1 (.prod (.cons 1 g (.cons 1 (differentiate f v fixed)
            (.cons (-1) f .nil)))) .nil)))
        .nil))
  | .func f args, v, fixed =>
    match args with
    | .cons u .nil =>
      match funcDeriv f u with
      | some d => .prod (.cons 1 d (.cons 1 (differentiate u v fixed) .nil))
      | none => .deriv (.func f args) v 1
    | .cons n (.cons u .nil) =>
      match f with
      | .polygamma =>
        .prod (.cons 1 (.func .polygamma (.cons (rawSucc n) (.cons u .nil)))
          (.cons 1 (differentiate u v fixed) .nil))
      | .besselj =>
        .prod (.cons 1 (.sum (.cons (1/2)
            (.func .besselj (.cons (rawPred n) (.cons u .nil)))
          (.cons (-1/2) (.func .besselj (.cons (rawSucc n) (.cons u .nil))) .nil)))
          (.cons 1 (differentiate u v fixed) .nil))
      | .bessely =>
        .prod (.cons 1 (.sum (.cons (1/2)
            (.func .bessely (.cons (rawPred n) (.cons u .nil)))
          (.cons (-1/2) (.func .bessely (.cons (rawSucc n) (.cons u .nil))) .nil)))
          (.cons 1 (differentiate u v fixed) .nil))
      | _ => .deriv (.func f args) v 1
    | _ => .deriv (.func f args) v 1
  | .deriv i w k, v, _ =>
    if w = v then .deriv i v (k + 1) else .deriv (.deriv i w k) v 1
/-- Differentiate the terms of a `Sum`: coefficients pass through. -/
def diffTerms : EPairs → String → List String → EPairs
  | .nil, _, _ => .nil
  | .cons c t r, v, fixed => .cons c (differentiate t v fixed) (diffTerms r v fixed)
/-- Pair every `(exponent, base)` of a `Product` with the base's
derivative. -/
def diffBases : EPairs → String → List String → List (ℚ × Expr × Expr)
  | .nil, _, _ => []
  | .cons e b r, v, fixed => (e, b, differentiate b v fixed) :: diffBases r v fixed
end

/-- Modelled from the spec (§4.2, §6, missing from `src/`): the public
`diff(text, variable, fixed_vars)` entry point — the full pipeline
parse → differentiate → simplify. -/
def diff (text v : String) (fixed : List String) : Except ParseError Expr :=
  (parse text).map (fun e => simplify (differentiate e v fixed))

/-- **C2.** The public `diff` entry point is the full pipeline
parse → differentiate → simplify, and every expression it returns has been
passed through the Simplification Engine: it is `simplify` of the derivative
tree and a fixpoint of `simplify` — the raw unsimplified derivative tree is
never returned. -/
theorem diff_pipeline_spec :
    (∀ (text v : String) (fixed : List String),
      diff text v fixed =
        (parse text).map (fun e => simplify (differentiate e v fixed))) ∧
    (∀ (text v : String) (fixed : List String) (e : Expr),
      diff text v fixed = .ok e →
      (∃ d, parse text = .ok d ∧ e = simplify (differentiate d v fixed)) ∧
        simplify e = e) := by
  refine ⟨fun _ _ _ => rfl, ?_⟩
  intro text v fixed e h
  unfold diff at h
  cases hp : parse text with
  | error err =>
    rw [hp] at h
    simp [Except.map] at h
  | ok d =>
    rw [hp] at h
    simp only [Except.map] at h
    injection h with h
    refine ⟨⟨d, rfl, h.symm⟩, ?_⟩
    rw [← h, simplify_eq_norm (simplify (differentiate d v fixed)),
      simplify_eq_norm (differentiate d v fixed), norm_idem]

/-- Witness for `diff_pipeline_spec` at `diff "x" "x" []`, which returns the
literal `1`. -/
theorem diff_pipeline_spec_witness :
    (∃ d, parse "x" = .ok d ∧ Expr.num 1 = simplify (differentiate d "x" [])) ∧
    simplify (Expr.num 1) = Expr.num 1 :=
  diff_pipeline_spec.2 "x" "x" [] (.num 1) (by with_unfolding_all decide)

theorem differentiate_sym_eq (s v : String) (fixed : List String) :
    differentiate (.sym (.named s)) v fixed =
      if s = v ∧ s ∉ fixed then .num 1 else .num 0 := rfl

/-- **C6.** During differentiation with variable `v` and a `fixed_vars`
set, every named symbol in `fixed_vars`, and every symbol other than `v`
(anonymous symbols included), differentiates to zero — e.g. in
`diff("V0 * exp(-t / (R * C))", "t", fixed_vars={V0, R, C})` the symbols
`V0`, `R`, `C` are constants whose derivative is zero. -/
theorem differentiate_fixed_vars_zero :
    (∀ (s v : String) (fixed : List String), s ∈ fixed ∨ s ≠ v →
      differentiate (.sym (.named s)) v fixed = .num 0) ∧
    (∀ (n : ℕ) (v : String) (fixed : List String),
      differentiate (.sym (.anon n)) v fixed = .num 0) := by
  constructor
  · intro s v fixed h
    rw [differentiate_sym_eq, if_neg]
    rintro ⟨h1, h2⟩
    rcases h with h | h
    · exact h2 h
    · exact h h1
  · intro n v fixed
    rfl

/-- Witness for `differentiate_fixed_vars_zero` on the RC-circuit example:
`V0`, `R`, `C` are in `fixed_vars` (and `x` differs from the variable `t`);
all differentiate to zero. -/
theorem differentiate_fixed_vars_zero_witness :
    differentiate (.sym (.named "V0")) "t" ["V0", "R", "C"] = .num 0 ∧
    differentiate (.sym (.named "R")) "t" ["V0", "R", "C"] = .num 0 ∧
    differentiate (.sym (.named "C")) "t" ["V0", "R", "C"] = .num 0 ∧
    differentiate (.sym (.named "x")) "t" ["V0", "R", "C"] = .num 0 :=
  ⟨differentiate_fixed_vars_zero.1 "V0" "t" _ (Or.inl (by decide)),
   differentiate_fixed_vars_zero.1 "R" "t" _ (Or.inl (by decide)),
   differentiate_fixed_vars_zero.1 "C" "t" _ (Or.inl (by decide)),
   differentiate_fixed_vars_zero.1 "x" "t" _ (Or.inr (by decide))⟩

/-! ### Numeric Evaluator (spec §4.4)

The evaluator's value domain models IEEE floats as rationals plus an
explicit `nan` element whose propagation the arithmetic helpers implement;
the special-function kernels guard their domains exactly as §4.4 specifies
and compute their convergent values through truncated-series rational
surrogates (no claim depends on the numeric digits, only on the typed
error channel). -/

/-- Modelled from the spec (§4.4, missing from `src/`): a float value —
finite rational or NaN. -/
inductive EvalValue where
  | fin (q : ℚ)
  | nan
deriving DecidableEq, Repr

/-- Modelled from the spec (§4.4, §7, missing from `src/`):
`EvaluationError` variants `UnboundVariable(name)`,
`DomainError(function, arg)` and `Overflow` (the last never arises in the
rational model). -/
inductive EvalError where
  | UnboundVariable (name : String)
  | DomainError (function : String) (arg : ℚ)
  | Overflow
deriving DecidableEq, Repr

/-- Float addition: NaN-absorbing. -/
def vadd : EvalValue → EvalValue → EvalValue
  | .fin a, .fin b => .fin (a + b)
  | _, _ => .nan

/-- Float multiplication: NaN-absorbing. -/
def vmul : EvalValue → EvalValue → EvalValue
  | .fin a, .fin b => .fin (a * b)
  | _, _ => .nan

/-- Scaling by a rational constant: NaN-absorbing. -/
def vscale (c : ℚ) : EvalValue → EvalValue
  | .fin a => .fin (c * a)
  | .nan => .nan

/-- Truncated exponential series (surrogate for the float kernel). -/
def expS (x : ℚ) : ℚ :=
  1 + x + x ^ 2 / 2 + x ^ 3 / 6 + x ^ 4 / 24 + x ^ 5 / 120 + x ^ 6 / 720 +
    x ^ 7 / 5040 + x ^ 8 / 40320

/-- Truncated sine series. -/
def sinS (x : ℚ) : ℚ := x - x ^ 3 / 6 + x ^ 5 / 120 - x ^ 7 / 5040

/-- Truncated cosine series. -/
def cosS (x : ℚ) : ℚ := 1 - x ^ 2 / 2 + x ^ 4 / 24 - x ^ 6 / 720

/-- Truncated logarithm via the artanh transform (callers guard `x > 0`). -/
def lnS (x : ℚ) : ℚ :=
  2 * ((x - 1) / (x + 1) + ((x - 1) / (x + 1)) ^ 3 / 3 +
    ((x - 1) / (x + 1)) ^ 5 / 5 + ((x - 1) / (x + 1)) ^ 7 / 7)

/-- Four Newton steps for the square root (callers guard `x ≥ 0`). -/
def sqrtS (x : ℚ) : ℚ :=
  let s0 := (x + 1) / 2
  let s1 := (s0 + x / s0) / 2
  let s2 := (s1 + x / s1) / 2
  let s3 := (s2 + x / s2) / 2
  s3

/-- Rational power: exact for integer exponents, exp∘ln surrogate
otherwise (callers guard the domain). -/
def powS (b e : ℚ) : ℚ := if e.den = 1 then b ^ e.num else expS (e * lnS b)

def sinhS (x : ℚ) : ℚ := (expS x - expS (-x)) / 2

def coshS (x : ℚ) : ℚ := (expS x + expS (-x)) / 2

def tanhS (x : ℚ) : ℚ := sinhS x / coshS x

/-- Gamma by the downward recurrence `Γ(x) = (x−1)·Γ(x−1)` (exact factorial
on positive integers, shift-to-`(0,1]` surrogate otherwise). -/
def gammaShift : ℕ → ℚ → ℚ
  | 0, _ => 1
  | n + 1, x => if x ≤ 1 then 1 else (x - 1) * gammaShift n (x - 1)

def gammaS (x : ℚ) : ℚ := gammaShift (x.ceil.natAbs + 1) x

/-- Truncated digamma series `ψ(x) ≈ −γ + Σ (1/(k+1) − 1/(k+x))`. -/
def digammaS (x : ℚ) : ℚ :=
  (List.range 10).foldl (fun acc k => acc + (1 / ((k : ℚ) + 1) - 1 / ((k : ℚ) + x)))
    (-(577215 / 1000000 : ℚ))

/-- Truncated polygamma-style series surrogate. -/
def polygammaS (n x : ℚ) : ℚ :=
  (List.range 10).foldl (fun acc k => acc + powS (x + (k : ℚ)) (-(n + 1))) 0

/-- Truncated error-function series with a rational `√π` approximation. -/
def erfS (x : ℚ) : ℚ :=
  (2 / (1772454 / 1000000 : ℚ)) * (x - x ^ 3 / 3 + x ^ 5 / 10 - x ^ 7 / 42)

/-- Truncated Bessel-J series surrogate. -/
def besseljS (n x : ℚ) : ℚ :=
  (List.range 4).foldl
    (fun acc (m : ℕ) =>
      acc + (-1 : ℚ) ^ m * powS (x / 2) (2 * (m : ℚ) + n) /
        (gammaS ((m : ℚ) + 1) * gammaS ((m : ℚ) + n + 1)))
    0

/-- Bessel-Y surrogate via the J combination (callers guard `x > 0`). -/
def besselyS (n x : ℚ) : ℚ :=
  (besseljS n x * cosS (n * (314159 / 100000 : ℚ)) - besseljS (-n) x) /
    sinS (n * (314159 / 100000 : ℚ))

/-- Truncated eta-transform series for zeta (callers guard `x > 1`). -/
def zetaS (x : ℚ) : ℚ :=
  ((List.range 8).foldl
    (fun acc (k : ℕ) => acc + (-1 : ℚ) ^ k * powS ((k : ℚ) + 1) (-x)) 0) /
    (1 - powS 2 (1 - x))

/-- Modelled from the spec (§4.4, missing from `src/`): the per-tag numeric
kernels with their domain checks — `ln` rejects `x ≤ 0`, `sqrt` rejects
`x < 0`, `tan` rejects cosine zeroes, the gamma family rejects the poles at
non-positive integers, `bessely` rejects `x ≤ 0`, and `zeta` rejects
`x ≤ 1` (no analytic continuation path is implemented).  An arity mismatch
is reported as a `DomainError` as well. -/
def evalFunc (f : FuncTag) (vs : List ℚ) : Except EvalError ℚ :=
  match f, vs with
  | .sin, [v] => .ok (sinS v)
  | .cos, [v] => .ok (cosS v)
  | .tan, [v] => if cosS v = 0 then .error (.DomainError "tan" v) else .ok (sinS v / cosS v)
  | .sinh, [v] => .ok (sinhS v)
  | .cosh, [v] => .ok (coshS v)
  | .tanh, [v] => .ok (tanhS v)
  | .exp, [v] => .ok (expS v)
  | .ln, [v] => if v ≤ 0 then .error (.DomainError "ln" v) else .ok (lnS v)
  | .sqrt, [v] => if v < 0 then .error (.DomainError "sqrt" v) else .ok (sqrtS v)
  | .gamma, [v] =>
    if v ≤ 0 ∧ v.den = 1 then .error (.DomainError "gamma" v) else .ok (gammaS v)
  | .digamma, [v] =>
    if v ≤ 0 ∧ v.den = 1 then .error (.DomainError "digamma" v) else .ok (digammaS v)
  | .erf, [v] => .ok (erfS v)
  | .zeta, [v] => if v ≤ 1 then .error (.DomainError "zeta" v) else .ok (zetaS v)
  | .polygamma, [n, v] =>
    if v ≤ 0 ∧ v.den = 1 then .error (.DomainError "polygamma" v)
    else .ok (polygammaS n v)
  | .besselj, [n, v] => .ok (besseljS n v)
  | .bessely, [n, v] =>
    if v ≤ 0 then .error (.DomainError "bessely" v) else .ok (besselyS n v)
  | _, _ => .error (.DomainError "arity" 0)

/-- Power evaluation with the §4.3/§4.4 edge-case policy: the unevaluated
division by a literal zero (`0` to a negative integer power) and the
fractional power of a negative base raise `DomainError`; everything else is
finite. -/
def powEval (b e : ℚ) : Except EvalError ℚ :=
  if e.den = 1 then
    if b = 0 ∧ e < 0 then .error (.DomainError "pow" b) else .ok (b ^ e.num)
  else if b < 0 then .error (.DomainError "pow" b)
  else .ok (powS b e)

/-- Collect finite values; `none` if any argument is NaN. -/
def allFin : List EvalValue → Option (List ℚ)
  | [] => some []
  | .fin q :: r => (allFin r).map (fun qs => q :: qs)
  | .nan :: _ => none

mutual
/-- Modelled from the spec (§4.4, §6, missing from `src/`):
`eval(expr, bindings) -> float`, failing with the typed `EvaluationError`s.
A retained `Derivative` node evaluates through its inner expression's
bindings followed by the recurrence; the recurrence's numeric value is a
claim-irrelevant surrogate (`0`) in this model, but its error channel —
like every kernel's — is typed rather than NaN-producing. -/
def eval : Expr → List (String × ℚ) → Except EvalError EvalValue
  | .num q, _ => .ok (.fin q)
  | .sym (.named s), binds =>
    match binds.lookup s with
    | some v => .ok (.fin v)
    | none => .error (.UnboundVariable s)
  | .sym (.anon n), _ => .error (.UnboundVariable ("$" ++ toString n))
  | .sum ms, binds => evalSum ms binds
  | .prod fs, binds => evalProd fs binds
  | .pow b e, binds => do
    let vb ← eval b binds
    let ve ← eval e binds
    match vb, ve with
    | .fin qb, .fin qe => (powEval qb qe).map .fin
    | _, _ => .ok .nan
  | .func f args, binds => do
    let vs ← evalArgs args binds
    match allFin vs with
    | some qs => (evalFunc f qs).map .fin
    | none => .ok .nan
  | .deriv i _ _, binds => do
    let _ ← eval i binds
    .ok (.fin 0)
def evalSum : EPairs → List (String × ℚ) → Except EvalError EvalValue
  | .nil, _ => .ok (.fin 0)
  | .cons c t r, binds => do
    let vt ← eval t binds
    let vr ← evalSum r binds
    .ok (vadd (vscale c vt) vr)
def evalProd : EPairs → List (String × ℚ) → Except EvalError EvalValue
  | .nil, _ => .ok (.fin 1)
  | .cons e b r, binds => do
    let vb ← eval b binds
    let vr ← evalProd r binds
    match vb with
    | .fin qb => (powEval qb e).map (fun q => vmul (.fin q) vr)
    | .nan => .ok .nan
def evalArgs : EList → List (String × ℚ) → Except EvalError (List EvalValue)
  | .nil, _ => .ok []
  | .cons t r, binds => do
    let v ← eval t binds
    let vr ← evalArgs r binds
    .ok (v :: vr)
end

theorem except_bind_ok {ε α β : Type} (a : α) (f : α → Except ε β) :
    (Except.ok a >>= f) = f a := rfl

theorem except_bind_error {ε α β : Type} (e : ε) (f : α → Except ε β) :
    ((Except.error e : Except ε α) >>= f) = .error e := rfl

theorem except_map_ok {ε α β : Type} (g : α → β) (a : α) :
    (Except.ok a : Except ε α).map g = .ok (g a) := rfl

theorem except_map_error {ε α β : Type} (g : α → β) (e : ε) :
    (Except.error e : Except ε α).map g = .error e := rfl

theorem allFin_of_fin {vs : List EvalValue} (h : ∀ v ∈ vs, ∃ q, v = .fin q) :
    ∃ qs, allFin vs = some qs := by
  induction vs with
  | nil => exact ⟨[], rfl⟩
  | cons v r ih =>
    obtain ⟨q, hq⟩ := h v (by simp)
    subst hq
    obtain ⟨qs, hqs⟩ := ih (fun w hw => h w (List.mem_cons_of_mem _ hw))
    exact ⟨q :: qs, by simp [allFin, hqs]⟩

mutual
theorem eval_fin : ∀ (e : Expr) (binds : List (String × ℚ)) (v : EvalValue),
    eval e binds = .ok v → ∃ q, v = .fin q
  | .num q, _, v, h => by
    simp only [eval] at h
    injection h with h
    exact ⟨q, h.symm⟩
  | .sym (.named s), binds, v, h => by
    simp only [eval] at h
    cases hl : binds.lookup s with
    | some q =>
      rw [hl] at h
      injection h with h
      exact ⟨q, h.symm⟩
    | none =>
      rw [hl] at h
      exact absurd h (by simp)
  | .sym (.anon n), _, v, h => by
    simp only [eval] at h
    exact absurd h (by simp)
  | .sum ms, binds, v, h => evalSum_fin ms binds v h
  | .prod fs, binds, v, h => evalProd_fin fs binds v h
  | .pow b e, binds, v, h => by
    simp only [eval] at h
    cases hb : eval b binds with
    | error err =>
      rw [hb, except_bind_error] at h
      exact absurd h (by simp)
    | ok vb =>
      cases he : eval e binds with
      | error err =>
        rw [hb, except_bind_ok, he, except_bind_error] at h
        exact absurd h (by simp)
      | ok ve =>
        obtain ⟨qb, hqb⟩ := eval_fin b binds vb hb
        obtain ⟨qe, hqe⟩ := eval_fin e binds ve he
        subst hqb
        subst hqe
        rw [hb, except_bind_ok, he, except_bind_ok] at h
        have h' : (powEval qb qe).map EvalValue.fin = .ok v := h
        cases hp : powEval qb qe with
        | error err =>
          rw [hp, except_map_error] at h'
          exact absurd h' (by simp)
        | ok q =>
          rw [hp, except_map_ok] at h'
          injection h' with h'
          exact ⟨q, h'.symm⟩
  | .func f args, binds, v, h => by
    simp only [eval] at h
    cases ha : evalArgs args binds with
    | error err =>
      rw [ha, except_bind_error] at h
      exact absurd h (by simp)
    | ok vs =>
      rw [ha, except_bind_ok] at h
      obtain ⟨qs, hqs⟩ := allFin_of_fin (evalArgs_fin args binds vs ha)
      rw [hqs] at h
      have h' : (evalFunc f qs).map EvalValue.fin = .ok v := h
      cases hv : evalFunc f qs with
      | error err =>
        rw [hv, except_map_error] at h'
        exact absurd h' (by simp)
      | ok q =>
        rw [hv, except_map_ok] at h'
        injection h' with h'
        exact ⟨q, h'.symm⟩
  | .deriv i w k, binds, v, h => by
    simp only [eval] at h
    cases hi : eval i binds with
    | error err =>
      rw [hi, except_bind_error] at h
      exact absurd h (by simp)
    | ok vi =>
      rw [hi, except_bind_ok] at h
      injection h with h
      exact ⟨0, h.symm⟩
theorem evalSum_fin : ∀ (ms : EPairs) (binds : List (String × ℚ)) (v : EvalValue),
    evalSum ms binds = .ok v → ∃ q, v = .fin q
  | .nil, _, v, h => by
    simp only [evalSum] at h
    injection h with h
    exact ⟨0, h.symm⟩
  | .cons c t r, binds, v, h => by
    simp only [evalSum] at h
    cases ht : eval t binds with
    | error err =>
      rw [ht, except_bind_error] at h
      exact absurd h (by simp)
    | ok vt =>
      cases hr : evalSum r binds with
      | error err =>
        rw [ht, except_bind_ok, hr, except_bind_error] at h
        exact absurd h (by simp)
      | ok vr =>
        obtain ⟨qt, hqt⟩ := eval_fin t binds vt ht
        obtain ⟨qr, hqr⟩ := evalSum_fin r binds vr hr
        subst hqt
        subst hqr
        rw [ht, except_bind_ok, hr, except_bind_ok] at h
        injection h with h
        exact ⟨c * qt + qr, h.symm⟩
theorem evalProd_fin : ∀ (fs : EPairs) (binds : List (String × ℚ)) (v : EvalValue),
    evalProd fs binds = .ok v → ∃ q, v = .fin q
  | .nil, _, v, h => by
    simp only [evalProd] at h
    injection h with h
    exact ⟨1, h.symm⟩
  | .cons e b r, binds, v, h => by
    simp only [evalProd] at h
    cases hb : eval b binds with
    | error err =>
      rw [hb, except_bind_error] at h
      exact absurd h (by simp)
    | ok vb =>
      cases hr : evalProd r binds with
      | error err =>
        rw [hb, except_bind_ok, hr, except_bind_error] at h
        exact absurd h (by simp)
      | ok vr =>
        obtain ⟨qb, hqb⟩ := eval_fin b binds vb hb
        obtain ⟨qr, hqr⟩ := evalProd_fin r binds vr hr
        subst hqb
        subst hqr
        rw [hb, except_bind_ok, hr, except_bind_ok] at h
        have h' : (powEval qb e).map (fun q => vmul (.fin q) (.fin qr)) = .ok v := h
        cases hp : powEval qb e with
        | error err =>
          rw [hp, except_map_error] at h'
          exact absurd h' (by simp)
        | ok q =>
          rw [hp, except_map_ok] at h'
          injection h' with h'
          exact ⟨q * qr, h'.symm⟩
theorem evalArgs_fin : ∀ (args : EList) (binds : List (String × ℚ))
    (vs : List EvalValue), evalArgs args binds = .ok vs → ∀ v ∈ vs, ∃ q, v = .fin q
  | .nil, _, vs, h => by
    simp only [evalArgs] at h
    injection h with h
    subst h
    simp
  | .cons t r, binds, vs, h => by
    simp only [evalArgs] at h
    cases ht : eval t binds with
    | error err =>
      rw [ht, except_bind_error] at h
      exact absurd h (by simp)
    | ok vt =>
      cases hr : evalArgs r binds with
      | error err =>
        rw [ht, except_bind_ok, hr, except_bind_error] at h
        exact absurd h (by simp)
      | ok vr =>
        rw [ht, except_bind_ok, hr, except_bind_ok] at h
        injection h with h
        subst h
        intro v hv
        rcases List.mem_cons.mp hv with h' | h'
        · rw [h']
          exact eval_fin t binds vt ht
        · exact evalArgs_fin r binds vr hr v h'
end

/-- **C7.** `eval` of `zeta(x)` fails with a typed `DomainError` for every
binding whose value of the argument is `≤ 1` (no analytic-continuation path
is implemented), and numeric evaluation never silently returns NaN: every
successful evaluation is a finite value, every invalid input a typed
`DomainError` (or another typed `EvaluationError`). -/
theorem eval_domain_spec :
    (∀ (binds : List (String × ℚ)) (arg : Expr) (v : ℚ),
      eval arg binds = .ok (.fin v) → v ≤ 1 →
      eval (.func .zeta (.cons arg .nil)) binds = .error (.DomainError "zeta" v)) ∧
    (∀ (e : Expr) (binds : List (String × ℚ)), eval e binds ≠ .ok .nan) := by
  constructor
  · intro binds arg v harg hle
    have hargs : evalArgs (.cons arg .nil) binds = .ok [.fin v] := by
      simp only [evalArgs]
      rw [harg, except_bind_ok]
      rfl
    show (evalArgs (.cons arg .nil) binds >>= fun vs =>
      (match allFin vs with
        | some qs => (evalFunc .zeta qs).map EvalValue.fin
        | none => Except.ok .nan)) = _
    rw [hargs, except_bind_ok]
    show (evalFunc .zeta [v]).map EvalValue.fin = _
    show (if v ≤ 1 then (Except.error (.DomainError "zeta" v) : Except EvalError ℚ)
      else .ok (zetaS v)).map EvalValue.fin = _
    rw [if_pos hle]
    rfl
  · intro e binds h
    obtain ⟨q, hq⟩ := eval_fin e binds .nan h
    exact absurd hq (by simp)

/-- Witness for `eval_domain_spec`: `zeta` at the bound value `x = 1`
raises the typed `DomainError`, and the no-NaN half at a concrete input. -/
theorem eval_domain_spec_witness :
    eval (.func .zeta (.cons (.sym (.named "x")) .nil)) [("x", 1)] =
      .error (.DomainError "zeta" 1) ∧
    eval (.num 3) [] ≠ .ok .nan :=
  ⟨eval_domain_spec.1 [("x", 1)] (.sym (.named "x")) 1
      (by with_unfolding_all decide) (by norm_num),
   eval_domain_spec.2 (.num 3) []⟩

/-! ### Anonymous symbols (spec §4.5, §5, §9) -/

/-- Modelled from the spec (§5, §9, missing from `src/`): the process-wide
anonymous-symbol counter, "a fixed value at process start, monotonic for
process lifetime", threaded explicitly through the factory. -/
structure AnonState where
  counter : ℕ
deriving DecidableEq, Repr

/-- Modelled from the spec (§6, §4.5, missing from `src/`):
`Symbol.anon() -> Expression` — allocate a fresh anonymous symbol carrying
the current counter value and advance the counter. -/
def anonSymbol (st : AnonState) : Expr × AnonState :=
  (.sym (.anon st.counter), ⟨st.counter + 1⟩)

/-- Rendered label of a symbol (`view_api_demo.py` line 149: anonymous
symbols show as `$ID`). -/
def renderSym : SymName → String
  | .named s => s
  | .anon n => "$" ++ toString n

/-- **C8.** Two independent calls to the anonymous-symbol factory produce
symbols that are not structurally equal to each other, and an anonymous
symbol is never structurally equal to any named symbol — even one whose
rendered label is identical (see the witness). -/
theorem anonSymbol_distinct :
    (∀ st : AnonState, (anonSymbol st).1 ≠ (anonSymbol (anonSymbol st).2).1) ∧
    (∀ (st : AnonState) (s : String), (anonSymbol st).1 ≠ .sym (.named s)) := by
  constructor
  · intro st h
    simp [anonSymbol] at h
  · intro st s h
    simp [anonSymbol] at h

/-- Witness for `anonSymbol_distinct` at counter 0, including a named
symbol `"$0"` whose rendered label coincides with the anonymous symbol's
label yet is still structurally distinct. -/
theorem anonSymbol_distinct_witness :
    (anonSymbol ⟨0⟩).1 ≠ (anonSymbol (anonSymbol ⟨0⟩).2).1 ∧
    (anonSymbol ⟨0⟩).1 ≠ .sym (.named "$0") ∧
    renderSym (.anon 0) = renderSym (.named "$0") :=
  ⟨anonSymbol_distinct.1 ⟨0⟩, anonSymbol_distinct.2 ⟨0⟩ "$0", by decide⟩
